import Mathlib

/-!
Verification of the ready-set-boole propositional engine.

The Rust sources are shallowly embedded: expression trees become inductive
types, the RPN parser becomes a fold over the input characters returning
`Except`, the shared variable cells become an explicit environment
`Char → Bool` consulted by the evaluator (the spec blesses pure
assignment-passing evaluation as an admissible realisation of the cell
contract), and the panicking `parse().unwrap()` calls become `Option`.
-/

namespace RSB

namespace Ex06

/-- `BinOp` from src/src/ex06/tree/node/binop.rs (variant order preserved,
it fixes the derived `Ord`). -/
inductive BinOp where
  | and
  | or
  | xor
  | impl
  | leq
deriving DecidableEq, Repr

/-- `ParseError` from src/src/ex06/tree/node/binop.rs. -/
inductive ParseError where
  | missingOperand
  | invalidCharacter (c : Char)
  | unbalancedExpression
deriving DecidableEq, Repr

mutual
/-- `Literal` from src/src/ex06/tree/node.rs: an n-ary operator node, a
variable (identified by its cell's letter), or a constant. -/
inductive Literal where
  | binary : BinOp → List Node → Literal
  | var : Char → Literal
  | const : Bool → Literal
deriving Repr

/-- `Node` from src/src/ex06/tree/node.rs: a pending-negation counter and a
literal. -/
inductive Node where
  | mk : Nat → Literal → Node
deriving Repr
end

/-- The `not` counter of a node. -/
def Node.negs : Node → Nat
  | .mk n _ => n

/-- The literal of a node. -/
def Node.lit : Node → Literal
  | .mk _ l => l

/-- `BinOp::try_from(char)` from binop.rs. -/
def charBinOp : Char → Option BinOp := fun c =>
  if c = '&' then some .and
  else if c = '|' then some .or
  else if c = '^' then some .xor
  else if c = '=' then some .leq
  else if c = '>' then some .impl
  else none

/-- `char::from(BinOp)` from binop.rs. -/
def BinOp.toChar : BinOp → Char
  | .and => '&'
  | .or => '|'
  | .xor => '^'
  | .impl => '>'
  | .leq => '='

/-- One step of `impl FromStr for Tree` (src/src/ex06/tree.rs): the match on
a single character, acting on the operand stack (head = top of stack).  For
an operator character the code pops `tmp`, then evaluates
`BinOp::try_from(c)?`, then pops the left operand — this order is kept. -/
def processChar (stack : List Node) (c : Char) : Except ParseError (List Node) :=
  if c = '0' ∨ c = '1' then
    .ok (.mk 0 (.const (c = '1')) :: stack)
  else if 'A' ≤ c ∧ c ≤ 'Z' then
    .ok (.mk 0 (.var c) :: stack)
  else if c = '!' then
    match stack with
    | [] => .error .missingOperand
    | operand :: rest => .ok (.mk (operand.negs + 1) operand.lit :: rest)
  else
    match stack with
    | [] => .error .missingOperand
    | tmp :: rest =>
      match charBinOp c with
      | none => .error (.invalidCharacter c)
      | some op =>
        match rest with
        | [] => .error .missingOperand
        | l :: rest2 => .ok (.mk 0 (.binary op [l, tmp]) :: rest2)

/-- The `for c in s.chars()` loop of `impl FromStr for Tree`
(src/src/ex06/tree.rs), with the `?` early returns made explicit. -/
def runParse : List Char → List Node → Except ParseError (List Node)
  | [], st => .ok st
  | c :: cs, st =>
    match processChar st c with
    | .error e => .error e
    | .ok st1 => runParse cs st1

/-- `impl FromStr for Tree` from src/src/ex06/tree.rs: run the stack
machine; exactly one node must remain. -/
def parseNode (s : List Char) : Except ParseError Node :=
  match runParse s [] with
  | .error e => .error e
  | .ok [n] => .ok n
  | .ok _ => .error .unbalancedExpression

mutual
/-- `impl Display for Node` from src/src/ex06/tree/node.rs: the literal,
then `not` copies of `!`. -/
def Node.print : Node → List Char
  | .mk n l => l.print ++ List.replicate n '!'

/-- `impl Display for Literal`: children concatenated, then
`children.len() - 1` copies of the operator character. -/
def Literal.print : Literal → List Char
  | .binary op cs => Node.printList cs ++ List.replicate (cs.length - 1) op.toChar
  | .var c => [c]
  | .const b => [if b then '1' else '0']

/-- The `for child in children` loop of `Display for Literal`. -/
def Node.printList : List Node → List Char
  | [] => []
  | c :: cs => c.print ++ Node.printList cs
end

/-- Truth table of a binary operator (`Node::eval`, src/src/ex06/tree/node.rs). -/
def BinOp.apply : BinOp → Bool → Bool → Bool
  | .and, a, b => a && b
  | .or, a, b => a || b
  | .impl, a, b => !a || b
  | .leq, a, b => a == b
  | .xor, a, b => a.xor b

mutual
/-- `Node::eval` from src/src/ex06/tree/node.rs under an environment giving
each variable cell's current value.  The code reads `children[0]` and
`children[1]` only; a `Binary` with fewer than two children makes the Rust
code panic, which falls outside the claims (the parser always builds two). -/
def Node.eval (env : Char → Bool) : Node → Bool
  | .mk n l => (l.eval env).xor (n % 2 == 1)

/-- The literal part of `Node::eval`. -/
def Literal.eval (env : Char → Bool) : Literal → Bool
  | .binary op (c0 :: c1 :: _) => op.apply (c0.eval env) (c1.eval env)
  | .binary _ _ => false
  | .var c => env c
  | .const b => b
end

/-- The alphabet `'A'..='Z'` iterated by `get_table` and `Tree::cnf`. -/
def ucAlphabet : List Char :=
  ['A', 'B', 'C', 'D', 'E', 'F', 'G', 'H', 'I', 'J', 'K', 'L', 'M',
   'N', 'O', 'P', 'Q', 'R', 'S', 'T', 'U', 'V', 'W', 'X', 'Y', 'Z']

/-- `('A'..='Z').filter(|&c| expr.contains(c))` from `get_table`
(src/src/ex06/tree.rs). -/
def varList (expr : List Char) : List Char :=
  ucAlphabet.filter (fun c => expr.contains c)

/-- The assignment installed by the `set_var` loop of `get_table` for row
index `i`: the variable at position `j` of `vars` receives bit
`(i >> (vars.len() - j - 1)) & 1`; letters outside `vars` keep their initial
`false`. -/
def bitEnv (vars : List Char) (i : Nat) : Char → Bool := fun c =>
  match vars.findIdx? (fun v => v = c) with
  | some j => (i >>> (vars.length - j - 1)) &&& 1 == 1
  | none => false

/-- `get_table` from src/src/ex06/tree.rs: parse `input`, then evaluate it
under every assignment of the variables occurring in `expr`, in canonical
(MSB-first) order.  The Rust code panics on a parse failure (`expect`),
embedded as `none`. -/
def getTable (input expr : List Char) : Option (List Bool) :=
  match parseNode input with
  | .error _ => none
  | .ok root =>
    some ((List.range (2 ^ (varList expr).length)).map
      (fun i => root.eval (bitEnv (varList expr) i)))

theorem printList_append (a b : List Node) :
    Node.printList (a ++ b) = Node.printList a ++ Node.printList b := by
  induction a with
  | nil => simp [Node.printList]
  | cons x xs ih => simp [Node.printList, ih]

/-- Concatenation of the prints of the stack's nodes, bottom of the stack
first: the parser invariant is that this equals the consumed input. -/
def stackPrint (st : List Node) : List Char :=
  Node.printList st.reverse

theorem charBinOp_toChar {c : Char} {op : BinOp}
    (h : charBinOp c = some op) : op.toChar = c := by
  unfold charBinOp at h
  split_ifs at h with h1 h2 h3 h4 h5 <;> cases h <;> simp [BinOp.toChar, *]

theorem processChar_print {st st' : List Node} {c : Char}
    (h : processChar st c = .ok st') :
    stackPrint st' = stackPrint st ++ [c] := by
  unfold processChar at h
  split_ifs at h with h01 hAZ hbang
  · -- '0' / '1'
    cases h
    rcases h01 with rfl | rfl <;>
      simp [stackPrint, printList_append, Node.printList, Node.print, Literal.print]
  · -- 'A'..='Z'
    cases h
    simp [stackPrint, printList_append, Node.printList, Node.print, Literal.print]
  · -- '!'
    subst hbang
    cases st with
    | nil => cases h
    | cons operand rest =>
      cases h
      cases operand with
      | mk n0 l0 =>
        simp only [stackPrint, List.reverse_cons, printList_append]
        simp [Node.printList, Node.print, Node.negs, Node.lit,
          List.replicate_succ', List.append_assoc]
  · -- binary operator
    cases st with
    | nil => cases h
    | cons tmp rest =>
      cases hop : charBinOp c with
      | none => rw [hop] at h; cases h
      | some op =>
        rw [hop] at h
        cases rest with
        | nil => cases h
        | cons l rest2 =>
          cases h
          simp only [stackPrint, List.reverse_cons, printList_append,
            List.append_assoc]
          simp [Node.printList, Node.print, Literal.print, charBinOp_toChar hop]

theorem runParse_print (s : List Char) (st0 st : List Node)
    (h : runParse s st0 = .ok st) :
    stackPrint st = stackPrint st0 ++ s := by
  induction s generalizing st0 with
  | nil =>
    cases h
    simp
  | cons c cs ih =>
    unfold runParse at h
    cases hc : processChar st0 c with
    | error e => rw [hc] at h; cases h
    | ok st1 =>
      rw [hc] at h
      rw [ih st1 h, processChar_print hc]
      simp

/-- **C4.** For every well-formed RPN string (one the parser accepts),
printing the parsed tree reproduces the input exactly. -/
theorem c4_print_parse_roundtrip (s : List Char) (n : Node)
    (h : parseNode s = .ok n) : n.print = s := by
  unfold parseNode at h
  cases hf : runParse s [] with
  | error e => rw [hf] at h; cases h
  | ok st =>
    rw [hf] at h
    match st, h with
    | [m], h =>
      cases h
      have := runParse_print s [] [n] hf
      simpa [stackPrint, Node.printList] using this

/-- Witness for C4 at the concrete input `"AB&!"`. -/
theorem c4_print_parse_roundtrip_witness :
    ∃ n, parseNode ['A', 'B', '&', '!'] = .ok n ∧
      n.print = ['A', 'B', '&', '!'] := by
  refine ⟨.mk 1 (.binary .and [.mk 0 (.var 'A'), .mk 0 (.var 'B')]), rfl, ?_⟩
  exact c4_print_parse_roundtrip _ _ rfl

theorem findIdx_nodup {l : List Char} (hnd : l.Nodup) (j : Nat)
    (hj : j < l.length) (k : Nat) :
    l.findIdx? (fun v => v = l.get ⟨j, hj⟩) k = some (k + j) := by
  induction l generalizing j k with
  | nil => simp at hj
  | cons x xs ih =>
    cases j with
    | zero => simp [List.findIdx?_cons]
    | succ j =>
      have hx : x ∉ xs := (List.nodup_cons.mp hnd).1
      have hmem : xs.get ⟨j, Nat.lt_of_succ_lt_succ hj⟩ ∈ xs := List.get_mem _ _ _
      have hne : ¬(x = xs.get ⟨j, Nat.lt_of_succ_lt_succ hj⟩) := by
        intro he
        exact hx (he ▸ hmem)
      simp only [List.findIdx?_cons, List.get_cons_succ]
      rw [if_neg (by simpa using hne)]
      rw [ih (List.nodup_cons.mp hnd).2 j (Nat.lt_of_succ_lt_succ hj) (k + 1)]
      congr 1
      omega

theorem varList_nodup (s : List Char) : (varList s).Nodup :=
  List.Nodup.filter _ (by decide)

theorem bitEnv_get (vars : List Char) (hnd : vars.Nodup) (i j : Nat)
    (hj : j < vars.length) :
    bitEnv vars i (vars.get ⟨j, hj⟩) = i.testBit (vars.length - 1 - j) := by
  unfold bitEnv
  rw [findIdx_nodup hnd j hj 0]
  have harith : vars.length - j - 1 = vars.length - 1 - j := by omega
  simp [harith, Nat.testBit, Nat.and_one_is_mod]

/-- **C5.** For a parsed formula with `n` distinct variables (sorted
alphabetically), the truth-table builder returns `2^n` Booleans; row `i`
encodes the assignment whose MSB goes to the alphabetically first
variable; and `truth_table("AB&") = [false, false, false, true]`. -/
theorem c5_truth_table (s : List Char) (root : Node)
    (h : parseNode s = .ok root) :
    (∃ tb, getTable s s = some tb ∧
      tb.length = 2 ^ (varList s).length ∧
      (∀ i, i < 2 ^ (varList s).length →
        tb[i]! = root.eval (bitEnv (varList s) i)) ∧
      (∀ i j, (hj : j < (varList s).length) →
        bitEnv (varList s) i ((varList s).get ⟨j, hj⟩) =
          i.testBit ((varList s).length - 1 - j))) ∧
    getTable ['A', 'B', '&'] ['A', 'B', '&'] =
      some [false, false, false, true] := by
  constructor
  · refine ⟨_, by unfold getTable; rw [h], ?_, ?_, ?_⟩
    · simp
    · intro i hi
      have hlen : i < ((List.range (2 ^ (varList s).length)).map
          (fun i => root.eval (bitEnv (varList s) i))).length := by
        simpa using hi
      rw [getElem!_pos ((List.range (2 ^ (varList s).length)).map
          (fun i => root.eval (bitEnv (varList s) i))) i hlen,
        List.getElem_map, List.getElem_range]
    · intro i j hj
      exact bitEnv_get (varList s) (varList_nodup s) i j hj
  · rfl

/-- Witness for C5 at the concrete input `"AB&"`. -/
theorem c5_truth_table_witness :
    (∃ tb, getTable ['A', 'B', '&'] ['A', 'B', '&'] = some tb ∧
      tb.length = 2 ^ (varList ['A', 'B', '&']).length ∧
      (∀ i, i < 2 ^ (varList ['A', 'B', '&']).length →
        tb[i]! = Node.eval (bitEnv (varList ['A', 'B', '&']) i)
          (.mk 0 (.binary .and [.mk 0 (.var 'A'), .mk 0 (.var 'B')]))) ∧
      (∀ i j, (hj : j < (varList ['A', 'B', '&']).length) →
        bitEnv (varList ['A', 'B', '&']) i
            ((varList ['A', 'B', '&']).get ⟨j, hj⟩) =
          i.testBit ((varList ['A', 'B', '&']).length - 1 - j))) ∧
    getTable ['A', 'B', '&'] ['A', 'B', '&'] =
      some [false, false, false, true] :=
  c5_truth_table ['A', 'B', '&']
    (.mk 0 (.binary .and [.mk 0 (.var 'A'), .mk 0 (.var 'B')])) rfl

/-- **C6, counterexample.** On input `"x"` the ex06 parser meets the
out-of-alphabet character `'x'` with an empty operand stack and reports
`MissingOperand`, not `InvalidCharacter('x')`: the claimed error is masked. -/
theorem c6_counterexample :
    parseNode ['x'] = .error .missingOperand ∧
      ParseError.missingOperand ≠ ParseError.invalidCharacter 'x' := by
  constructor
  · rfl
  · intro h
    cases h

/-- **C7, counterexample.** `Node::eval` on an `And` node with children
`[1, 1, 0]` returns `true`, while the left-associated fold of `&&` over all
three children is `false`: the result does not depend on the third child. -/
theorem c7_counterexample :
    Node.eval (fun _ => false)
        (.mk 0 (.binary .and
          [.mk 0 (.const true), .mk 0 (.const true), .mk 0 (.const false)]))
      = true ∧
    [true, true, false].foldl (fun a b => a && b) true = false := by
  constructor <;> rfl

/-- **C7, amended.** `Node::eval` reads only `children[0]` and
`children[1]`: on any `Binary` node the result equals the evaluation of the
same node restricted to its first two children, whatever follows them. -/
theorem c7_eval_first_two (env : Char → Bool) (m : Nat) (op : BinOp)
    (c0 c1 : Node) (rest : List Node) :
    Node.eval env (.mk m (.binary op (c0 :: c1 :: rest))) =
      Node.eval env (.mk m (.binary op [c0, c1])) := by
  rfl

theorem mem_ucAlphabet {c : Char} (h1 : 'A' ≤ c) (h2 : c ≤ 'Z') :
    c ∈ ucAlphabet := by
  have hv1 : 65 ≤ c.toNat := h1
  have hv2 : c.toNat ≤ 90 := h2
  have hc : c = Char.ofNat c.toNat := (Char.ofNat_toNat c).symm
  rw [hc]
  interval_cases h : c.toNat <;> decide

/-- The row index whose canonical (MSB-first) bit pattern agrees with the
assignment `f` on the variables `l`. -/
def encodeEnv (f : Char → Bool) : List Char → Nat
  | [] => 0
  | v :: rest => (cond (f v) (2 ^ rest.length) 0) + encodeEnv f rest

theorem encodeEnv_lt (f : Char → Bool) (l : List Char) :
    encodeEnv f l < 2 ^ l.length := by
  induction l with
  | nil => simp [encodeEnv]
  | cons v rest ih =>
    simp only [encodeEnv, List.length_cons, pow_succ]
    have h2 : (2 : Nat) ^ rest.length * 2 = 2 ^ rest.length + 2 ^ rest.length := by
      ring
    rw [h2]
    cases f v <;> simp <;> omega

theorem testBit_encodeEnv (f : Char → Bool) (l : List Char) (j : Nat)
    (hj : j < l.length) :
    (encodeEnv f l).testBit (l.length - 1 - j) = f (l.get ⟨j, hj⟩) := by
  induction l generalizing j with
  | nil => simp at hj
  | cons v rest ih =>
    cases j with
    | zero =>
      simp only [encodeEnv, List.length_cons, List.get]
      have hpos : rest.length + 1 - 1 - 0 = rest.length := by omega
      rw [hpos]
      cases hf : f v with
      | true =>
        show (2 ^ rest.length + encodeEnv f rest).testBit rest.length = true
        rw [Nat.testBit_two_pow_add_eq,
          Nat.testBit_eq_false_of_lt (encodeEnv_lt f rest)]
        rfl
      | false =>
        show (0 + encodeEnv f rest).testBit rest.length = false
        rw [Nat.zero_add]
        exact Nat.testBit_eq_false_of_lt (encodeEnv_lt f rest)
    | succ j =>
      have hj' : j < rest.length := Nat.lt_of_succ_lt_succ hj
      have hpos : rest.length + 1 - 1 - (j + 1) = rest.length - 1 - j := by
        omega
      simp only [encodeEnv, List.length_cons, List.get, hpos]
      cases hf : f v with
      | true =>
        show (2 ^ rest.length + encodeEnv f rest).testBit
            (rest.length - 1 - j) = f (rest.get ⟨j, hj'⟩)
        rw [Nat.testBit_two_pow_add_gt (by omega)]
        exact ih j hj'
      | false =>
        show (0 + encodeEnv f rest).testBit
            (rest.length - 1 - j) = f (rest.get ⟨j, hj'⟩)
        rw [Nat.zero_add]
        exact ih j hj'

theorem bitEnv_encodeEnv (vars : List Char) (hnd : vars.Nodup)
    (f : Char → Bool) {c : Char} (hc : c ∈ vars) :
    bitEnv vars (encodeEnv f vars) c = f c := by
  obtain ⟨j, hj, rfl⟩ : ∃ j, ∃ hj : j < vars.length, vars.get ⟨j, hj⟩ = c := by
    obtain ⟨⟨j, hj⟩, hget⟩ := List.mem_iff_get.mp hc
    exact ⟨j, hj, hget⟩
  rw [bitEnv_get vars hnd _ j hj, testBit_encodeEnv f vars j hj]

end Ex06

namespace Ex07

/-- ex07 (src/src/ex07/node.rs) re-declares `BinOp` and `ParseError` with
the same variants and wire encoding as ex06; the ex06 embeddings are
reused. -/
abbrev BinOp := Ex06.BinOp

abbrev ParseError := Ex06.ParseError

/-- `Node` from src/src/ex07/node.rs: strictly binary operator nodes, an
explicit `Not` constructor, variables and constants. -/
inductive Node where
  | binary : BinOp → Node → Node → Node
  | not : Node → Node
  | var : Char → Node
  | const : Bool → Node
deriving DecidableEq, Repr

/-- `Tree` from src/src/ex07/node.rs: the root plus the `varlist` of
letters seen during parsing, in alphabetical order. -/
structure Tree where
  root : Node
  varlist : List Char
deriving Repr

/-- One step of ex07's `FromStr`: unlike ex06, `c.try_into()?` runs
*before* the operand pops, so an invalid character is always reported as
`InvalidCharacter`. -/
def processChar (stack : List Node) (c : Char) :
    Except ParseError (List Node) :=
  if c = '0' ∨ c = '1' then .ok (.const (c = '1') :: stack)
  else if 'A' ≤ c ∧ c ≤ 'Z' then .ok (.var c :: stack)
  else if c = '!' then
    match stack with
    | [] => .error .missingOperand
    | operand :: rest => .ok (.not operand :: rest)
  else
    match Ex06.charBinOp c with
    | none => .error (.invalidCharacter c)
    | some op =>
      match stack with
      | right :: left :: rest => .ok (.binary op left right :: rest)
      | _ => .error .missingOperand

/-- The character loop of ex07's `FromStr`. -/
def runParse : List Char → List Node → Except ParseError (List Node)
  | [], st => .ok st
  | c :: cs, st =>
    match processChar st c with
    | .error e => .error e
    | .ok st1 => runParse cs st1

/-- ex07's `FromStr`.  The source accumulates a 26-entry mark array whose
`filter_map` yields exactly the upper-case letters contained in the input,
in alphabetical order; the embedding computes that list directly as
`('A'..='Z').filter(contains)`. -/
def parseTree (s : List Char) : Except ParseError Tree :=
  match runParse s [] with
  | .error e => .error e
  | .ok [n] => .ok ⟨n, Ex06.varList s⟩
  | .ok _ => .error .unbalancedExpression

/-- `Node::eval` from src/src/ex07/node.rs. -/
def Node.eval (env : Char → Bool) : Node → Bool
  | .binary op l r => op.apply (l.eval env) (r.eval env)
  | .not n => !(n.eval env)
  | .var c => env c
  | .const b => b

/-- `Tree::satisfy` from src/src/ex07/node.rs: scan all `2^n` canonical
assignments of the parsed variable list, returning `true` at the first
satisfying one (the `for` loop with early `return true` is `List.any`). -/
def Tree.satisfy (t : Tree) : Bool :=
  (List.range (2 ^ t.varlist.length)).any
    (fun i => t.root.eval (Ex06.bitEnv t.varlist i))

/-- The letters a node mentions (used to state that evaluation only
consults variables occurring in the formula). -/
def Node.mentions (v : Char) : Node → Bool
  | .binary _ l r => l.mentions v || r.mentions v
  | .not n => n.mentions v
  | .var c => c = v
  | .const _ => false

theorem eval_congr {env1 : Char → Bool} (n : Node) (env2 : Char → Bool)
    (h : ∀ v, n.mentions v = true → env1 v = env2 v) :
    n.eval env1 = n.eval env2 := by
  induction n with
  | binary op l r ihl ihr =>
    have hl := ihl (fun v hv => h v (by simp [Node.mentions, hv]))
    have hr := ihr (fun v hv => h v (by simp [Node.mentions, hv]))
    simp [Node.eval, hl, hr]
  | not n ih =>
    have := ih (fun v hv => h v (by simp [Node.mentions, hv]))
    simp [Node.eval, this]
  | var c => exact h c (by simp [Node.mentions])
  | const b => rfl

theorem parseTree_varlist {s : List Char} {t : Tree}
    (h : parseTree s = .ok t) : t.varlist = Ex06.varList s := by
  unfold parseTree at h
  cases hf : runParse s [] with
  | error e => rw [hf] at h; cases h
  | ok st =>
    rw [hf] at h
    match st, h with
    | [m], h => cases h; rfl

theorem processChar_mentions {st st' : List Node} {c : Char}
    (h : processChar st c = .ok st') {v : Char} {n : Node} (hn : n ∈ st')
    (hm : n.mentions v = true) :
    (∃ m ∈ st, m.mentions v = true) ∨ (v = c ∧ 'A' ≤ c ∧ c ≤ 'Z') := by
  unfold processChar at h
  split_ifs at h with h01 hAZ hbang
  · cases h
    rcases List.mem_cons.mp hn with rfl | hmem
    · simp [Node.mentions] at hm
    · exact .inl ⟨n, hmem, hm⟩
  · cases h
    rcases List.mem_cons.mp hn with rfl | hmem
    · simp [Node.mentions] at hm
      exact .inr ⟨hm.symm, hAZ⟩
    · exact .inl ⟨n, hmem, hm⟩
  · cases st with
    | nil => cases h
    | cons operand rest =>
      cases h
      rcases List.mem_cons.mp hn with rfl | hmem
      · exact .inl ⟨operand, List.mem_cons_self _ _, hm⟩
      · exact .inl ⟨n, List.mem_cons_of_mem _ hmem, hm⟩
  · cases hop : Ex06.charBinOp c with
    | none => rw [hop] at h; cases h
    | some op =>
      rw [hop] at h
      match st, h with
      | right :: left :: rest, h =>
        cases h
        rcases List.mem_cons.mp hn with rfl | hmem
        · simp only [Node.mentions, Bool.or_eq_true] at hm
          rcases hm with hm | hm
          · exact .inl ⟨left, by simp, hm⟩
          · exact .inl ⟨right, by simp, hm⟩
        · exact .inl ⟨n, by simp [hmem], hm⟩

theorem runParse_mentions (s : List Char) (st st' : List Node)
    (h : runParse s st = .ok st') (V : List Char)
    (hst : ∀ n ∈ st, ∀ v, n.mentions v = true → v ∈ V)
    (hs : ∀ c ∈ s, ('A' ≤ c ∧ c ≤ 'Z') → c ∈ V) :
    ∀ n ∈ st', ∀ v, n.mentions v = true → v ∈ V := by
  induction s generalizing st with
  | nil => cases h; exact hst
  | cons c cs ih =>
    unfold runParse at h
    cases hc : processChar st c with
    | error e => rw [hc] at h; cases h
    | ok st1 =>
      rw [hc] at h
      refine ih st1 h ?_ (fun d hd => hs d (List.mem_cons_of_mem _ hd))
      intro n hn v hv
      rcases processChar_mentions hc hn hv with ⟨m, hmem, hm⟩ | ⟨rfl, hAZ⟩
      · exact hst m hmem v hm
      · exact hs v (List.mem_cons_self _ _) hAZ

theorem parseTree_mentions {s : List Char} {t : Tree}
    (h : parseTree s = .ok t) {v : Char}
    (hv : t.root.mentions v = true) : v ∈ t.varlist := by
  rw [parseTree_varlist h]
  unfold parseTree at h
  cases hf : runParse s [] with
  | error e => rw [hf] at h; cases h
  | ok st =>
    rw [hf] at h
    match st, h with
    | [m], h =>
      cases h
      refine runParse_mentions s [] [m] hf (Ex06.varList s)
        (by simp) ?_ m (by simp) v hv
      intro c hc hAZ
      unfold Ex06.varList
      rw [List.mem_filter]
      exact ⟨Ex06.mem_ucAlphabet hAZ.1 hAZ.2, by simpa [List.contains, List.elem_iff] using hc⟩

/-- **C8.** For every parsed formula, `Tree::satisfy` (the scan of all
`2^n` canonical assignments, stopping at the first success) returns `true`
exactly when some assignment of the variables satisfies the formula. -/
theorem c8_satisfy_iff (s : List Char) (t : Tree)
    (h : parseTree s = .ok t) :
    t.satisfy = true ↔ ∃ f : Char → Bool, t.root.eval f = true := by
  constructor
  · intro hs
    unfold Tree.satisfy at hs
    rw [List.any_eq_true] at hs
    obtain ⟨i, _, hev⟩ := hs
    exact ⟨_, hev⟩
  · rintro ⟨f, hf⟩
    unfold Tree.satisfy
    rw [List.any_eq_true]
    refine ⟨Ex06.encodeEnv f t.varlist, ?_, ?_⟩
    · rw [List.mem_range]
      exact Ex06.encodeEnv_lt f t.varlist
    · rw [eval_congr t.root f ?_]
      · exact hf
      · intro v hv
        have hnd : t.varlist.Nodup := by
          rw [parseTree_varlist h]
          exact Ex06.varList_nodup s
        exact Ex06.bitEnv_encodeEnv t.varlist hnd f (parseTree_mentions h hv)

/-- Witness for C8 at the concrete input `"AB&"`. -/
theorem c8_satisfy_iff_witness :
    Tree.satisfy ⟨.binary .and (.var 'A') (.var 'B'), ['A', 'B']⟩ = true ↔
      ∃ f : Char → Bool,
        Node.eval f (.binary .and (.var 'A') (.var 'B')) = true :=
  c8_satisfy_iff ['A', 'B', '&'] ⟨.binary .and (.var 'A') (.var 'B'), ['A', 'B']⟩ rfl

end Ex07

namespace Ex06

/-- Membership in the token alphabet `{0, 1, A..Z, !, &, |, ^, >, =}`. -/
def inAlphabet (c : Char) : Bool :=
  (c = '0') || (c = '1') || ('A' ≤ c && c ≤ 'Z') || (c = '!') ||
    (charBinOp c).isSome

theorem processChar_invalid {c : Char} (h : inAlphabet c = false)
    (tmp : Node) (rest : List Node) :
    processChar (tmp :: rest) c = .error (.invalidCharacter c) := by
  simp only [inAlphabet, Bool.or_eq_false_iff, decide_eq_false_iff_not,
    Bool.and_eq_false_iff] at h
  obtain ⟨⟨⟨⟨h0, h1⟩, hAZ⟩, hbang⟩, hop⟩ := h
  unfold processChar
  rw [if_neg (by tauto), if_neg ?_, if_neg hbang]
  · cases hcb : charBinOp c with
    | none => rfl
    | some op => rw [hcb] at hop; simp at hop
  · rcases hAZ with hA | hZ
    · exact fun hc => hA (by exact_mod_cast hc.1)
    · exact fun hc => hZ (by exact_mod_cast hc.2)

theorem runParse_append (a b : List Char) (st : List Node) :
    runParse (a ++ b) st =
      match runParse a st with
      | .error e => .error e
      | .ok st1 => runParse b st1 := by
  induction a generalizing st with
  | nil => rfl
  | cons c cs ih =>
    have hL : runParse ((c :: cs) ++ b) st =
        (match processChar st c with
         | .error e => .error e
         | .ok st1 => runParse (cs ++ b) st1) := rfl
    have hR : runParse (c :: cs) st =
        (match processChar st c with
         | .error e => .error e
         | .ok st1 => runParse cs st1) := rfl
    rw [hL, hR]
    cases processChar st c with
    | error e => rfl
    | ok st1 => exact ih st1

theorem runParse_append_ok {a : List Char} {st st1 : List Node}
    (b : List Char) (h : runParse a st = .ok st1) :
    runParse (a ++ b) st = runParse b st1 := by
  rw [runParse_append, h]

end Ex06

namespace Ex07

theorem processChar_invalid2 {c : Char} (h : Ex06.inAlphabet c = false)
    (st : List Node) :
    processChar st c = .error (.invalidCharacter c) := by
  simp only [Ex06.inAlphabet, Bool.or_eq_false_iff, decide_eq_false_iff_not,
    Bool.and_eq_false_iff] at h
  obtain ⟨⟨⟨⟨h0, h1⟩, hAZ⟩, hbang⟩, hop⟩ := h
  unfold processChar
  rw [if_neg (by tauto), if_neg ?_, if_neg hbang]
  · cases hcb : Ex06.charBinOp c with
    | none => rfl
    | some op => rw [hcb] at hop; simp at hop
  · rcases hAZ with hA | hZ
    · exact fun hc => hA (by exact_mod_cast hc.1)
    · exact fun hc => hZ (by exact_mod_cast hc.2)

theorem runParse_append2 (a b : List Char) (st : List Node) :
    runParse (a ++ b) st =
      match runParse a st with
      | .error e => .error e
      | .ok st1 => runParse b st1 := by
  induction a generalizing st with
  | nil => rfl
  | cons c cs ih =>
    have hL : runParse ((c :: cs) ++ b) st =
        (match processChar st c with
         | .error e => .error e
         | .ok st1 => runParse (cs ++ b) st1) := rfl
    have hR : runParse (c :: cs) st =
        (match processChar st c with
         | .error e => .error e
         | .ok st1 => runParse cs st1) := rfl
    rw [hL, hR]
    cases processChar st c with
    | error e => rfl
    | ok st1 => exact ih st1

theorem runParse_append_ok2 {a : List Char} {st st1 : List Node}
    (b : List Char) (h : runParse a st = .ok st1) :
    runParse (a ++ b) st = runParse b st1 := by
  rw [runParse_append2, h]

end Ex07

namespace Ex07

mutual
/-- `Node::cnf` from src/src/ex07/node.rs.  The Rust function recurses on
freshly built terms (including outputs of its own recursive calls in the
`Or` distribution case), so the embedding carries explicit fuel: `none`
models a run that would still be rewriting. -/
def cnf : Nat → Node → Option Node
  | 0, _ => none
  | _ + 1, .const b => some (.const b)
  | _ + 1, .var v => some (.var v)
  | fuel + 1, .binary op l r =>
    match op with
    | .xor =>
      cnf fuel (.binary .and (.binary .or l r) (.binary .or (.not l) (.not r)))
    | .impl => cnf fuel (.binary .or (.not l) r)
    | .leq =>
      cnf fuel (.binary .and (.binary .or l (.not r)) (.binary .or (.not l) r))
    | .and => do
      let cl ← cnf fuel l
      let cr ← cnf fuel r
      some (.binary .and cl cr)
    | .or => do
      let cl ← cnf fuel l
      let cr ← cnf fuel r
      cnfOrArm fuel cl cr
  | fuel + 1, .not operand =>
    match operand with
    | .const b => some (.const !b)
    | .var v => some (.not (.var v))
    | .not inner => cnf fuel inner
    | .binary .and l r => cnf fuel (.binary .or (.not l) (.not r))
    | .binary .or l r => cnf fuel (.binary .and (.not l) (.not r))
    | .binary .leq l r => cnf fuel (.binary .xor l r)
    | .binary .xor l r => cnf fuel (.binary .leq l r)
    | .binary .impl l r => cnf fuel (.binary .and l (.not r))
termination_by fuel _ => (fuel, 0)

/-- The `Or` arm of `Node::cnf` after both children are in CNF: the
`if let` / `else if let` / `else` chain distributing `Or` over a
conjunctive child. -/
def cnfOrArm (fuel : Nat) (cl cr : Node) : Option Node :=
  match cl with
  | .binary .and ll lr =>
    cnf fuel (.binary .and (.binary .or ll cr) (.binary .or lr cr))
  | _ =>
    match cr with
    | .binary .and rl rr =>
      cnf fuel (.binary .and (.binary .or cl rl) (.binary .or cl rr))
    | _ => some (.binary .or cl cr)
termination_by (fuel, 1)
end

/-- `Node::equals` from src/src/ex07/node.rs: structural equality that
ignores operand order on every operator except `Impl`. -/
def Node.equals : Node → Node → Bool
  | .const a, .const b => a == b
  | .var a, .var b => a == b
  | .binary op l r, .binary o l2 r2 =>
    if op = o then
      if op = .impl then l.equals l2 && r.equals r2
      else (l.equals l2 && r.equals r2) || (l.equals r2 && r.equals l2)
    else false
  | .not a, .not b => a.equals b
  | _, _ => false

/-- The `And` arm of `Node::simplify` (src/src/ex07/node.rs), as a match on
the two already-simplified children. -/
def simplifyAnd : Node → Node → Node
  | .const false, _ => .const false
  | _, .const false => .const false
  | .const true, rv => rv
  | lv, .const true => lv
  | lv, rv => if lv.equals rv then lv else .binary .and lv rv

/-- The `Or` arm of `Node::simplify`. -/
def simplifyOr : Node → Node → Node
  | .const true, _ => .const true
  | _, .const true => .const true
  | .const false, rv => rv
  | lv, .const false => lv
  | lv, rv => if lv.equals rv then lv else .binary .or lv rv

/-- The `Xor` arm of `Node::simplify`. -/
def simplifyXor : Node → Node → Node
  | .const a, .const b => .const (a.xor b)
  | .const false, rv => rv
  | lv, .const false => lv
  | .const true, rv => .not rv
  | lv, .const true => .not lv
  | lv, rv => if lv.equals rv then .const false else .binary .xor lv rv

/-- The `Leq` arm of `Node::simplify`. -/
def simplifyLeq : Node → Node → Node
  | .const a, .const b => .const (a == b)
  | .const false, rv => .not rv
  | lv, .const false => .not lv
  | .const true, rv => rv
  | lv, .const true => lv
  | lv, rv => if lv.equals rv then .const true else .binary .leq lv rv

/-- The `Impl` arm of `Node::simplify`. -/
def simplifyImpl : Node → Node → Node
  | .const false, _ => .const true
  | _, .const true => .const true
  | .const true, rv => rv
  | lv, .const false => .not lv
  | lv, rv => if lv.equals rv then .const true else .binary .impl lv rv

/-- `Node::simplify` from src/src/ex07/node.rs: constant folding,
idempotence and the other local rules, applied bottom-up. -/
def simplify : Node → Node
  | .const b => .const b
  | .var v => .var v
  | .not n =>
    match n with
    | .const b => .const !b
    | .var v => .not (.var v)
    | .not inner => simplify inner
    | .binary op l r => .not (simplify (.binary op l r))
  | .binary op l r =>
    let ls := simplify l
    let rs := simplify r
    match op with
    | .and => simplifyAnd ls rs
    | .or => simplifyOr ls rs
    | .xor => simplifyXor ls rs
    | .leq => simplifyLeq ls rs
    | .impl => simplifyImpl ls rs

end Ex07

namespace Ex05

/-- ex05 (src/src/ex05/node.rs) re-declares the same `BinOp`. -/
abbrev BinOp := Ex06.BinOp

/-- `Node` from src/src/ex05/node.rs: binary operators, `Not`, and
variables only (no constants in ex05). -/
inductive Node where
  | binary : BinOp → Node → Node → Node
  | not : Node → Node
  | val : Char → Node
deriving DecidableEq, Repr

/-- Evaluation of an ex05 node.  Modelled from the spec: ex05 itself
declares no evaluator, so the claim's cited `Node::eval` of ex07 (the
standard truth tables, `Not` as complement, a variable read from its cell)
is transported to the ex05 node type. -/
def Node.eval (env : Char → Bool) : Node → Bool
  | .binary op l r => op.apply (l.eval env) (r.eval env)
  | .not n => !(n.eval env)
  | .val c => env c

/-- `Node::nnf` from src/src/ex05/node.rs, fuelled for the same reason as
`cnf`: the source recurses on freshly built terms and, for a negated
`Xor`/`Impl`/`Leq`, on the output of its own recursive call. -/
def nnf : Nat → Node → Option Node
  | 0, _ => none
  | _ + 1, .val v => some (.val v)
  | fuel + 1, .binary op l r =>
    match op with
    | .xor =>
      nnf fuel (.binary .or (.binary .and (.not l) r) (.binary .and l (.not r)))
    | .impl => nnf fuel (.binary .or (.not l) r)
    | .leq =>
      nnf fuel (.binary .or (.binary .and l r)
        (.binary .and (.not l) (.not r)))
    | _ => do
      let ln ← nnf fuel l
      let rn ← nnf fuel r
      some (.binary op ln rn)
  | fuel + 1, .not operand =>
    match operand with
    | .val v => some (.not (.val v))
    | .not inner => nnf fuel inner
    | .binary .and l r => nnf fuel (.binary .or (.not l) (.not r))
    | .binary .or l r => nnf fuel (.binary .and (.not l) (.not r))
    | .binary op l r => do
      let g ← nnf fuel (.binary op l r)
      nnf fuel (.not g)

end Ex05

namespace Ex06

theorem apply_comm (op : BinOp) (h : op ≠ .impl) (a b : Bool) :
    BinOp.apply op a b = BinOp.apply op b a := by
  cases op <;> first
    | exact absurd rfl h
    | (cases a <;> cases b <;> rfl)

end Ex06

namespace Ex07

theorem equals_eval (env : Char → Bool) :
    ∀ a b : Node, a.equals b = true → a.eval env = b.eval env := by
  intro a
  induction a with
  | const x =>
    intro b h
    cases b <;> simp_all [Node.equals, Node.eval]
  | var x =>
    intro b h
    cases b <;> simp_all [Node.equals, Node.eval]
  | not a ih =>
    intro b h
    cases b with
    | not b2 =>
      simp only [Node.equals] at h
      simp [Node.eval, ih b2 h]
    | const y => simp [Node.equals] at h
    | var y => simp [Node.equals] at h
    | binary o l2 r2 => simp [Node.equals] at h
  | binary op l r ihl ihr =>
    intro b h
    cases b with
    | binary o l2 r2 =>
      simp only [Node.equals] at h
      by_cases hop : op = o
      · subst hop
        rw [if_pos rfl] at h
        by_cases himp : op = .impl
        · rw [if_pos himp] at h
          simp only [Bool.and_eq_true] at h
          simp [Node.eval, ihl _ h.1, ihr _ h.2]
        · rw [if_neg himp] at h
          simp only [Bool.or_eq_true, Bool.and_eq_true] at h
          rcases h with ⟨h1, h2⟩ | ⟨h1, h2⟩
          · simp [Node.eval, ihl _ h1, ihr _ h2]
          · show Ex06.BinOp.apply op (l.eval env) (r.eval env) = _
            rw [ihl _ h1, ihr _ h2]
            exact Ex06.apply_comm op himp _ _
      · rw [if_neg hop] at h
        cases h
    | const y => simp [Node.equals] at h
    | var y => simp [Node.equals] at h
    | not b2 => simp [Node.equals] at h

theorem simplifyAnd_eval (env : Char → Bool) (ls rs : Node) :
    (simplifyAnd ls rs).eval env = (ls.eval env && rs.eval env) := by
  unfold simplifyAnd
  split
  · simp [Node.eval]
  · simp [Node.eval]
  · simp [Node.eval]
  · simp [Node.eval]
  · split_ifs with heq
    · have := equals_eval env _ _ heq
      simp [Node.eval, this]
    · simp [Node.eval, Ex06.BinOp.apply]

theorem simplifyOr_eval (env : Char → Bool) (ls rs : Node) :
    (simplifyOr ls rs).eval env = (ls.eval env || rs.eval env) := by
  unfold simplifyOr
  split
  · simp [Node.eval]
  · simp [Node.eval]
  · simp [Node.eval]
  · simp [Node.eval]
  · split_ifs with heq
    · have := equals_eval env _ _ heq
      simp [Node.eval, this]
    · simp [Node.eval, Ex06.BinOp.apply]

theorem simplifyXor_eval (env : Char → Bool) (ls rs : Node) :
    (simplifyXor ls rs).eval env = ((ls.eval env).xor (rs.eval env)) := by
  unfold simplifyXor
  split
  · simp [Node.eval]
  · simp [Node.eval]
  · simp [Node.eval]
  · simp [Node.eval]
  · simp [Node.eval]
  · split_ifs with heq
    · have := equals_eval env _ _ heq
      simp [Node.eval, this]
    · simp [Node.eval, Ex06.BinOp.apply]

theorem simplifyLeq_eval (env : Char → Bool) (ls rs : Node) :
    (simplifyLeq ls rs).eval env = (ls.eval env == rs.eval env) := by
  unfold simplifyLeq
  split
  · simp [Node.eval]
  · simp [Node.eval]
  · simp [Node.eval]
  · simp [Node.eval]
  · simp [Node.eval]
  · split_ifs with heq
    · have := equals_eval env _ _ heq
      simp [Node.eval, this]
    · simp [Node.eval, Ex06.BinOp.apply]

theorem simplifyImpl_eval (env : Char → Bool) (ls rs : Node) :
    (simplifyImpl ls rs).eval env = (!(ls.eval env) || rs.eval env) := by
  unfold simplifyImpl
  split
  · simp [Node.eval]
  · simp [Node.eval]
  · simp [Node.eval]
  · simp [Node.eval]
  · split_ifs with heq
    · have := equals_eval env _ _ heq
      simp [Node.eval, this]
    · simp [Node.eval, Ex06.BinOp.apply]

theorem simplify_eval (env : Char → Bool) :
    ∀ n : Node, (simplify n).eval env = n.eval env := by
  intro n
  induction n using simplify.induct with
  | case1 b => rfl
  | case2 v => rfl
  | case3 b => simp [simplify, Node.eval]
  | case4 v => rfl
  | case5 inner ih =>
    show (simplify inner).eval env = _
    rw [ih]
    simp [Node.eval]
  | case6 op l r ih =>
    show (Node.not (simplify (.binary op l r))).eval env = _
    simp only [Node.eval, ih]
  | case7 l r ihl ihr =>
    show (simplifyAnd (simplify l) (simplify r)).eval env = _
    rw [simplifyAnd_eval, ihl, ihr]
    rfl
  | case8 l r ihl ihr =>
    show (simplifyOr (simplify l) (simplify r)).eval env = _
    rw [simplifyOr_eval, ihl, ihr]
    rfl
  | case9 l r ihl ihr =>
    show (simplifyXor (simplify l) (simplify r)).eval env = _
    rw [simplifyXor_eval, ihl, ihr]
    rfl
  | case10 l r ihl ihr =>
    show (simplifyLeq (simplify l) (simplify r)).eval env = _
    rw [simplifyLeq_eval, ihl, ihr]
    rfl
  | case11 l r ihl ihr =>
    show (simplifyImpl (simplify l) (simplify r)).eval env = _
    rw [simplifyImpl_eval, ihl, ihr]
    rfl

end Ex07

namespace Ex07

theorem cnfOrArm_eval (fuel : Nat)
    (ih : ∀ (F G : Node) (env : Char → Bool), cnf fuel F = some G →
      G.eval env = F.eval env)
    (cl cr G : Node) (env : Char → Bool)
    (h : cnfOrArm fuel cl cr = some G) :
    G.eval env = (cl.eval env || cr.eval env) := by
  unfold cnfOrArm at h
  cases cl with
  | binary op2 ll lr =>
    cases op2
    case and =>
      rw [ih _ _ env h]
      simp only [Node.eval, Ex06.BinOp.apply]
      cases Node.eval env ll <;> cases Node.eval env lr <;>
        cases Node.eval env cr <;> rfl
    all_goals
      cases cr with
      | binary op3 rl rr =>
        cases op3
        case and =>
          rw [ih _ _ env h]
          simp only [Node.eval, Ex06.BinOp.apply]
          cases Node.eval env rl <;> cases Node.eval env rr <;> simp
        all_goals
          (cases h; simp [Node.eval, Ex06.BinOp.apply])
      | not icr => cases h; simp [Node.eval, Ex06.BinOp.apply]
      | var vcr => cases h; simp [Node.eval, Ex06.BinOp.apply]
      | const bcr => cases h; simp [Node.eval, Ex06.BinOp.apply]
  | not icl =>
    cases cr with
    | binary op3 rl rr =>
      cases op3
      case and =>
        rw [ih _ _ env h]
        simp only [Node.eval, Ex06.BinOp.apply]
        cases Node.eval env rl <;> cases Node.eval env rr <;> simp
      all_goals
        (cases h; simp [Node.eval, Ex06.BinOp.apply])
    | not icr => cases h; simp [Node.eval, Ex06.BinOp.apply]
    | var vcr => cases h; simp [Node.eval, Ex06.BinOp.apply]
    | const bcr => cases h; simp [Node.eval, Ex06.BinOp.apply]
  | var vcl =>
    cases cr with
    | binary op3 rl rr =>
      cases op3
      case and =>
        rw [ih _ _ env h]
        simp only [Node.eval, Ex06.BinOp.apply]
        cases Node.eval env rl <;> cases Node.eval env rr <;> simp
      all_goals
        (cases h; simp [Node.eval, Ex06.BinOp.apply])
    | not icr => cases h; simp [Node.eval, Ex06.BinOp.apply]
    | var vcr => cases h; simp [Node.eval, Ex06.BinOp.apply]
    | const bcr => cases h; simp [Node.eval, Ex06.BinOp.apply]
  | const bcl =>
    cases cr with
    | binary op3 rl rr =>
      cases op3
      case and =>
        rw [ih _ _ env h]
        simp only [Node.eval, Ex06.BinOp.apply]
        cases Node.eval env rl <;> cases Node.eval env rr <;> simp
      all_goals
        (cases h; simp [Node.eval, Ex06.BinOp.apply])
    | not icr => cases h; simp [Node.eval, Ex06.BinOp.apply]
    | var vcr => cases h; simp [Node.eval, Ex06.BinOp.apply]
    | const bcr => cases h; simp [Node.eval, Ex06.BinOp.apply]

theorem cnf_eval :
    ∀ (fuel : Nat) (F G : Node) (env : Char → Bool), cnf fuel F = some G →
      G.eval env = F.eval env := by
  intro fuel
  induction fuel with
  | zero =>
    intro F G env h
    simp [cnf] at h
  | succ fuel ih =>
    intro F G env h
    cases F with
    | const b =>
      simp only [cnf] at h
      cases h
      rfl
    | var v =>
      simp only [cnf] at h
      cases h
      rfl
    | binary op l r =>
      cases op with
      | xor =>
        simp only [cnf] at h
        rw [ih _ _ env h]
        simp only [Node.eval, Ex06.BinOp.apply]
        cases Node.eval env l <;> cases Node.eval env r <;> rfl
      | impl =>
        simp only [cnf] at h
        rw [ih _ _ env h]
        simp only [Node.eval, Ex06.BinOp.apply]
      | leq =>
        simp only [cnf] at h
        rw [ih _ _ env h]
        simp only [Node.eval, Ex06.BinOp.apply]
        cases Node.eval env l <;> cases Node.eval env r <;> rfl
      | and =>
        simp only [cnf] at h
        cases hcl : cnf fuel l with
        | none => rw [hcl] at h; simp at h
        | some cl =>
          rw [hcl] at h
          cases hcr : cnf fuel r with
          | none => rw [hcr] at h; simp at h
          | some cr =>
            rw [hcr] at h
            simp at h
            subst h
            simp [Node.eval, Ex06.BinOp.apply, ih _ _ env hcl, ih _ _ env hcr]
      | or =>
        simp only [cnf] at h
        cases hcl : cnf fuel l with
        | none => rw [hcl] at h; simp at h
        | some cl =>
          rw [hcl] at h
          cases hcr : cnf fuel r with
          | none => rw [hcr] at h; simp at h
          | some cr =>
            rw [hcr] at h
            simp at h
            rw [cnfOrArm_eval fuel ih cl cr G env h,
              ih _ _ env hcl, ih _ _ env hcr]
            rfl
    | not operand =>
      cases operand with
      | const b =>
        simp only [cnf] at h
        cases h
        simp [Node.eval]
      | var v =>
        simp only [cnf] at h
        cases h
        rfl
      | not inner =>
        simp only [cnf] at h
        rw [ih _ _ env h]
        simp [Node.eval]
      | binary op2 l r =>
        cases op2 with
        | and =>
          simp only [cnf] at h
          rw [ih _ _ env h]
          simp only [Node.eval, Ex06.BinOp.apply]
          cases Node.eval env l <;> cases Node.eval env r <;> rfl
        | or =>
          simp only [cnf] at h
          rw [ih _ _ env h]
          simp only [Node.eval, Ex06.BinOp.apply]
          cases Node.eval env l <;> cases Node.eval env r <;> rfl
        | leq =>
          simp only [cnf] at h
          rw [ih _ _ env h]
          simp only [Node.eval, Ex06.BinOp.apply]
          cases Node.eval env l <;> cases Node.eval env r <;> rfl
        | xor =>
          simp only [cnf] at h
          rw [ih _ _ env h]
          simp only [Node.eval, Ex06.BinOp.apply]
          cases Node.eval env l <;> cases Node.eval env r <;> rfl
        | impl =>
          simp only [cnf] at h
          rw [ih _ _ env h]
          simp only [Node.eval, Ex06.BinOp.apply]
          cases Node.eval env l <;> cases Node.eval env r <;> rfl

end Ex07

namespace Ex05

theorem nnf_eval :
    ∀ (fuel : Nat) (F G : Node) (env : Char → Bool), nnf fuel F = some G →
      G.eval env = F.eval env := by
  intro fuel
  induction fuel with
  | zero =>
    intro F G env h
    simp [nnf] at h
  | succ fuel ih =>
    intro F G env h
    cases F with
    | val v =>
      simp only [nnf] at h
      cases h
      rfl
    | binary op l r =>
      cases op with
      | xor =>
        simp only [nnf] at h
        rw [ih _ _ env h]
        simp only [Node.eval, Ex06.BinOp.apply]
        cases Node.eval env l <;> cases Node.eval env r <;> rfl
      | impl =>
        simp only [nnf] at h
        rw [ih _ _ env h]
        simp only [Node.eval, Ex06.BinOp.apply]
      | leq =>
        simp only [nnf] at h
        rw [ih _ _ env h]
        simp only [Node.eval, Ex06.BinOp.apply]
        cases Node.eval env l <;> cases Node.eval env r <;> rfl
      | and =>
        simp only [nnf] at h
        cases hln : nnf fuel l with
        | none => rw [hln] at h; simp at h
        | some ln =>
          rw [hln] at h
          cases hrn : nnf fuel r with
          | none => rw [hrn] at h; simp at h
          | some rn =>
            rw [hrn] at h
            simp at h
            subst h
            simp [Node.eval, ih _ _ env hln, ih _ _ env hrn]
      | or =>
        simp only [nnf] at h
        cases hln : nnf fuel l with
        | none => rw [hln] at h; simp at h
        | some ln =>
          rw [hln] at h
          cases hrn : nnf fuel r with
          | none => rw [hrn] at h; simp at h
          | some rn =>
            rw [hrn] at h
            simp at h
            subst h
            simp [Node.eval, ih _ _ env hln, ih _ _ env hrn]
    | not operand =>
      cases operand with
      | val v =>
        simp only [nnf] at h
        cases h
        rfl
      | not inner =>
        simp only [nnf] at h
        rw [ih _ _ env h]
        simp [Node.eval]
      | binary op2 l r =>
        cases op2 with
        | and =>
          simp only [nnf] at h
          rw [ih _ _ env h]
          simp only [Node.eval, Ex06.BinOp.apply]
          cases Node.eval env l <;> cases Node.eval env r <;> rfl
        | or =>
          simp only [nnf] at h
          rw [ih _ _ env h]
          simp only [Node.eval, Ex06.BinOp.apply]
          cases Node.eval env l <;> cases Node.eval env r <;> rfl
        | xor =>
          simp only [nnf] at h
          cases hg : nnf fuel (.binary .xor l r) with
          | none => rw [hg] at h; simp at h
          | some g =>
            rw [hg] at h
            simp at h
            rw [ih _ _ env h]
            simp [Node.eval, ih _ _ env hg]
        | impl =>
          simp only [nnf] at h
          cases hg : nnf fuel (.binary .impl l r) with
          | none => rw [hg] at h; simp at h
          | some g =>
            rw [hg] at h
            simp at h
            rw [ih _ _ env h]
            simp [Node.eval, ih _ _ env hg]
        | leq =>
          simp only [nnf] at h
          cases hg : nnf fuel (.binary .leq l r) with
          | none => rw [hg] at h; simp at h
          | some g =>
            rw [hg] at h
            simp at h
            rw [ih _ _ env h]
            simp [Node.eval, ih _ _ env hg]

end Ex05

/-- **C2.** Evaluation agreement: for every formula and assignment, the
NNF rewriter (ex05), the CNF rewriter (ex07) and the simplifier (ex07)
preserve the evaluation of the formula (the fuelled rewriters, whenever
they return). -/
theorem c2_eval_agreement :
    (∀ (fuel : Nat) (F G : Ex05.Node) (env : Char → Bool),
        Ex05.nnf fuel F = some G → G.eval env = F.eval env) ∧
    (∀ (fuel : Nat) (F G : Ex07.Node) (env : Char → Bool),
        Ex07.cnf fuel F = some G → G.eval env = F.eval env) ∧
    (∀ (F : Ex07.Node) (env : Char → Bool),
        (Ex07.simplify F).eval env = F.eval env) :=
  ⟨Ex05.nnf_eval, Ex07.cnf_eval, fun F env => Ex07.simplify_eval env F⟩

/-- Witness for C2 at `F = "AB>"` (for nnf and cnf) and `F = "AA&"` (for
simplify), under the all-false assignment. -/
theorem c2_eval_agreement_witness :
    Ex05.Node.eval (fun _ => false)
        (.binary .or (.not (.val 'A')) (.val 'B')) =
      Ex05.Node.eval (fun _ => false) (.binary .impl (.val 'A') (.val 'B')) ∧
    Ex07.Node.eval (fun _ => false)
        (.binary .or (.not (.var 'A')) (.var 'B')) =
      Ex07.Node.eval (fun _ => false) (.binary .impl (.var 'A') (.var 'B')) ∧
    Ex07.Node.eval (fun _ => false)
        (Ex07.simplify (.binary .and (.var 'A') (.var 'A'))) =
      Ex07.Node.eval (fun _ => false) (.binary .and (.var 'A') (.var 'A')) :=
  ⟨c2_eval_agreement.1 4 _ _ _ (by rfl),
   c2_eval_agreement.2.1 4 _ _ _ (by simp [Ex07.cnf, Ex07.cnfOrArm]),
   c2_eval_agreement.2.2 _ _⟩

namespace Ex06

/-- Discriminant order of the derived `Ord` on `BinOp`
(`And < Or < Xor < Impl < Leq`). -/
def BinOp.rank : BinOp → Nat
  | .and => 0
  | .or => 1
  | .xor => 2
  | .impl => 3
  | .leq => 4

/-- `Ord::cmp` on `BinOp` (derived: discriminant order). -/
def binOpCmp (a b : BinOp) : Ordering := compare a.rank b.rank

mutual
/-- `impl PartialOrd for Literal` (src/src/ex06/tree/node.rs): `Binary`
literals compare by operator, then by their *sorted* child vectors;
`Var` by name, `Const` by value; mixed variants are incomparable (`None`).
The comparison recurses through the sort of the freshly cloned child
vectors, so the whole comparison family carries fuel; every theorem below
quantifies over all sufficient fuel. -/
def litPCmp : Nat → Literal → Literal → Option Ordering
  | 0, _, _ => none
  | fuel + 1, .binary op cs, .binary op2 cs2 =>
    match binOpCmp op op2 with
    | .eq => listNodePCmp fuel (sortNodes fuel cs) (sortNodes fuel cs2)
    | o => some o
  | _ + 1, .var a, .var b => some (compare a b)
  | _ + 1, .const a, .const b => some (compare a b)
  | _ + 1, _, _ => none
termination_by fuel _ _ => (fuel, 0, 0)

/-- `impl Ord for Literal`: `partial_cmp`, with `None` collapsed to
`Equal`. -/
def litCmp (fuel : Nat) (a b : Literal) : Ordering :=
  match litPCmp fuel a b with
  | some o => o
  | none => .eq
termination_by (fuel, 1, 0)

/-- Derived `PartialOrd` on `Node`: lexicographic on `(not, literal)`. -/
def nodePCmp (fuel : Nat) : Node → Node → Option Ordering
  | .mk m1 l1, .mk m2 l2 =>
    match compare m1 m2 with
    | .eq => litPCmp fuel l1 l2
    | o => some o
termination_by _ _ => (fuel, 1, 0)

/-- Derived `Ord` on `Node`: lexicographic on `(not, literal)`. -/
def nodeCmp (fuel : Nat) : Node → Node → Ordering
  | .mk m1 l1, .mk m2 l2 =>
    match compare m1 m2 with
    | .eq => litCmp fuel l1 l2
    | o => o
termination_by _ _ => (fuel, 2, 0)

/-- Stable insertion of a node into an already sorted list: `x` goes in
front of the first element it does not strictly exceed (the order produced
by `Vec::sort`, which is stable). -/
def insertNode (fuel : Nat) (x : Node) : List Node → List Node
  | [] => [x]
  | y :: ys =>
    if nodeCmp fuel x y = .gt then y :: insertNode fuel x ys
    else x :: y :: ys
termination_by l => (fuel, 3, l.length)

/-- Stable sort of a child vector by the derived `Ord` on `Node`
(`children.sort()`). -/
def sortNodes (fuel : Nat) : List Node → List Node
  | [] => []
  | x :: xs => insertNode fuel x (sortNodes fuel xs)
termination_by l => (fuel, 4, l.length)

/-- `Vec::partial_cmp`: lexicographic element-wise comparison. -/
def listNodePCmp (fuel : Nat) : List Node → List Node → Option Ordering
  | [], [] => some .eq
  | [], _ :: _ => some .lt
  | _ :: _, [] => some .gt
  | x :: xs, y :: ys =>
    match nodePCmp fuel x y with
    | some .eq => listNodePCmp fuel xs ys
    | o => o
termination_by l _ => (fuel, 2, l.length)

/-- `impl PartialEq for Literal` (src/src/ex06/tree/node.rs): `Binary`
literals are equal when the operators agree and the *sorted* child vectors
are element-wise equal. -/
def litBEq : Nat → Literal → Literal → Bool
  | 0, _, _ => false
  | fuel + 1, .binary op cs, .binary op2 cs2 =>
    op == op2 && listNodeBEq fuel (sortNodes fuel cs) (sortNodes fuel cs2)
  | _ + 1, .var a, .var b => a == b
  | _ + 1, .const a, .const b => a == b
  | _ + 1, _, _ => false
termination_by fuel _ _ => (fuel, 0, 0)

/-- `impl PartialEq for Node`: `not` counters and literals agree. -/
def nodeBEq (fuel : Nat) : Node → Node → Bool
  | .mk m1 l1, .mk m2 l2 => m1 == m2 && litBEq fuel l1 l2
termination_by _ _ => (fuel, 1, 0)

/-- `Vec::eq`: element-wise equality with equal lengths. -/
def listNodeBEq (fuel : Nat) : List Node → List Node → Bool
  | [], [] => true
  | x :: xs, y :: ys => nodeBEq fuel x y && listNodeBEq fuel xs ys
  | _, _ => false
termination_by l _ => (fuel, 2, l.length)
end

end Ex06

namespace Ex06

/-- Nodes of the shape `m` negations over a plain variable: the literals
the minimizer's clauses are made of. -/
def isVarNode (n : Node) : Prop := ∃ m c, n = Node.mk m (.var c)

/-- The derived order on a negated-variable node, packed into one number:
`not` counter first, then the letter (`Char` values are below `2^32`). -/
def varKeyOf : Node → Nat
  | .mk m (.var c) => m * 2 ^ 32 + c.toNat
  | _ => 0

theorem char_compare (c1 c2 : Char) :
    compare c1 c2 = compare c1.toNat c2.toNat := by
  have hlt : (c1 < c2) ↔ (c1.toNat < c2.toNat) := by
    rw [Char.lt_def, UInt32.lt_def, BitVec.lt_def]
    exact Iff.rfl
  have heq : (c1 = c2) ↔ (c1.toNat = c2.toNat) :=
    ⟨fun h => by rw [h], fun h => Char.eq_of_val_eq (UInt32.toNat.inj h)⟩
  simp only [compare, compareOfLessAndEq]
  rcases Nat.lt_trichotomy c1.toNat c2.toNat with h | h | h
  · rw [if_pos (hlt.mpr h), if_pos h]
  · have h1 : ¬(c1 < c2) := fun hh => by
      have := hlt.mp hh
      omega
    have h2 : ¬(c1.toNat < c2.toNat) := by omega
    rw [if_neg h1, if_neg h2, if_pos (heq.mpr h), if_pos h]
  · have h1 : ¬(c1 < c2) := fun hh => by
      have := hlt.mp hh
      omega
    have h2 : ¬(c1.toNat < c2.toNat) := by omega
    have h3 : ¬(c1 = c2) := fun hh => by
      have := heq.mp hh
      omega
    have h4 : ¬(c1.toNat = c2.toNat) := by omega
    rw [if_neg h1, if_neg h2, if_neg h3, if_neg h4]

theorem compare_add_left (k t1 t2 : Nat) :
    compare (k + t1) (k + t2) = compare t1 t2 := by
  rcases Nat.lt_trichotomy t1 t2 with h | h | h
  · rw [Nat.compare_eq_lt.mpr h, Nat.compare_eq_lt.mpr (by omega)]
  · subst h
    rw [Nat.compare_eq_eq.mpr rfl, Nat.compare_eq_eq.mpr rfl]
  · rw [Nat.compare_eq_gt.mpr h, Nat.compare_eq_gt.mpr (by omega)]

theorem nodeCmp_var (fuel m1 m2 : Nat) (c1 c2 : Char) :
    nodeCmp (fuel + 1) (.mk m1 (.var c1)) (.mk m2 (.var c2)) =
      compare (m1 * 2 ^ 32 + c1.toNat) (m2 * 2 ^ 32 + c2.toNat) := by
  have h1 : c1.toNat < 2 ^ 32 := c1.val.toNat_lt
  have h2 : c2.toNat < 2 ^ 32 := c2.val.toNat_lt
  rw [nodeCmp]
  rcases Nat.lt_trichotomy m1 m2 with hm | hm | hm
  · rw [Nat.compare_eq_lt.mpr hm,
      (Nat.compare_eq_lt (b := m2 * 2 ^ 32 + c2.toNat)).mpr (by nlinarith)]
  · subst hm
    rw [Nat.compare_eq_eq.mpr rfl, compare_add_left]
    show litCmp (fuel + 1) (.var c1) (.var c2) = _
    rw [litCmp]
    simp only [litPCmp]
    exact char_compare c1 c2
  · rw [Nat.compare_eq_gt.mpr hm,
      (Nat.compare_eq_gt (a := m1 * 2 ^ 32 + c1.toNat)).mpr (by nlinarith)]

theorem varKey_inj {m1 m2 : Nat} {c1 c2 : Char}
    (h : m1 * 2 ^ 32 + c1.toNat = m2 * 2 ^ 32 + c2.toNat) :
    Node.mk m1 (.var c1) = Node.mk m2 (.var c2) := by
  have h1 : c1.toNat < 2 ^ 32 := c1.val.toNat_lt
  have h2 : c2.toNat < 2 ^ 32 := c2.val.toNat_lt
  have hm : m1 = m2 := by nlinarith
  subst hm
  have hc : c1.toNat = c2.toNat := by omega
  rw [Char.eq_of_val_eq (UInt32.toNat.inj hc)]

/-- Insertion on bare keys, mirroring `insertNode`. -/
def insertKey (k : Nat) : List Nat → List Nat
  | [] => [k]
  | j :: t => if compare k j = .gt then j :: insertKey k t else k :: j :: t

theorem insertNode_map_key (fuel : Nat) {x : Node} (hx : isVarNode x)
    {s : List Node} (hs : ∀ n ∈ s, isVarNode n) :
    (insertNode (fuel + 1) x s).map varKeyOf =
      insertKey (varKeyOf x) (s.map varKeyOf) := by
  obtain ⟨mx, cx, rfl⟩ := hx
  induction s with
  | nil =>
    rw [insertNode]
    rfl
  | cons z zs ih =>
    obtain ⟨mz, cz, rfl⟩ := hs _ (List.mem_cons_self _ _)
    rw [insertNode, nodeCmp_var]
    simp only [List.map_cons, varKeyOf, insertKey]
    split_ifs with hcmp
    · simp only [List.map_cons]
      rw [ih (fun n hn => hs n (List.mem_cons_of_mem _ hn))]
      simp [varKeyOf]
    · simp [varKeyOf]

theorem insertKey_comm (a b : Nat) (t : List Nat) :
    insertKey a (insertKey b t) = insertKey b (insertKey a t) := by
  induction t with
  | nil =>
    rcases Nat.lt_trichotomy a b with h | h | h
    · have h1 : compare a b = Ordering.lt := Nat.compare_eq_lt.mpr h
      have h2 : compare b a = Ordering.gt := Nat.compare_eq_gt.mpr h
      simp [insertKey, h1, h2]
    · subst h
      rfl
    · have h1 : compare a b = Ordering.gt := Nat.compare_eq_gt.mpr h
      have h2 : compare b a = Ordering.lt := Nat.compare_eq_lt.mpr h
      simp [insertKey, h1, h2]
  | cons j t ih =>
    by_cases haj : compare a j = Ordering.gt
    · by_cases hbj : compare b j = Ordering.gt
      · simp [insertKey, haj, hbj, ih]
      · have hab : compare a b = Ordering.gt := by
          have h1 : j < a := Nat.compare_eq_gt.mp haj
          have h2 : ¬(j < b) := fun hh => hbj (Nat.compare_eq_gt.mpr hh)
          exact Nat.compare_eq_gt.mpr (by omega)
        simp [insertKey, haj, hbj, hab]
    · by_cases hbj : compare b j = Ordering.gt
      · have hba : compare b a = Ordering.gt := by
          have h1 : j < b := Nat.compare_eq_gt.mp hbj
          have h2 : ¬(j < a) := fun hh => haj (Nat.compare_eq_gt.mpr hh)
          exact Nat.compare_eq_gt.mpr (by omega)
        simp [insertKey, haj, hbj, hba]
      · rcases Nat.lt_trichotomy a b with hab | hab | hab
        · have h1 : compare a b = Ordering.lt := Nat.compare_eq_lt.mpr hab
          have h2 : compare b a = Ordering.gt := Nat.compare_eq_gt.mpr hab
          simp [insertKey, haj, hbj, h1, h2]
        · subst hab
          rfl
        · have h1 : compare a b = Ordering.gt := Nat.compare_eq_gt.mpr hab
          have h2 : compare b a = Ordering.lt := Nat.compare_eq_lt.mpr hab
          simp [insertKey, haj, hbj, h1, h2]

theorem map_varKeyOf_inj {l1 l2 : List Node}
    (h1 : ∀ n ∈ l1, isVarNode n) (h2 : ∀ n ∈ l2, isVarNode n)
    (h : l1.map varKeyOf = l2.map varKeyOf) : l1 = l2 := by
  induction l1 generalizing l2 with
  | nil =>
    cases l2 with
    | nil => rfl
    | cons b t2 => simp at h
  | cons a t1 ih =>
    cases l2 with
    | nil => simp at h
    | cons b t2 =>
      simp only [List.map_cons, List.cons.injEq] at h
      obtain ⟨ma, ca, rfl⟩ := h1 _ (List.mem_cons_self _ _)
      obtain ⟨mb, cb, rfl⟩ := h2 _ (List.mem_cons_self _ _)
      have hab : Node.mk ma (.var ca) = Node.mk mb (.var cb) :=
        varKey_inj (by simpa [varKeyOf] using h.1)
      rw [hab, ih (fun n hn => h1 n (List.mem_cons_of_mem _ hn))
        (fun n hn => h2 n (List.mem_cons_of_mem _ hn)) h.2]

theorem insertNode_mem {fuel : Nat} {x n : Node} {s : List Node}
    (hn : n ∈ insertNode fuel x s) : n = x ∨ n ∈ s := by
  induction s with
  | nil =>
    rw [insertNode] at hn
    simp at hn
    exact .inl hn
  | cons y ys ih =>
    rw [insertNode] at hn
    split_ifs at hn
    · rcases List.mem_cons.mp hn with rfl | hn2
      · exact .inr (List.mem_cons_self _ _)
      · rcases ih hn2 with h | h
        · exact .inl h
        · exact .inr (List.mem_cons_of_mem _ h)
    · simp at hn
      rcases hn with rfl | hn2
      · exact .inl rfl
      · exact .inr (List.mem_cons.mpr hn2)

theorem sortNodes_mem {fuel : Nat} {n : Node} {l : List Node}
    (hn : n ∈ sortNodes fuel l) : n ∈ l := by
  induction l with
  | nil =>
    rw [sortNodes] at hn
    simp at hn
  | cons x xs ih =>
    rw [sortNodes] at hn
    rcases insertNode_mem hn with rfl | h
    · exact List.mem_cons_self _ _
    · exact List.mem_cons_of_mem _ (ih h)

theorem insertNode_var_comm (fuel : Nat) {x y : Node} {s : List Node}
    (hx : isVarNode x) (hy : isVarNode y) (hs : ∀ n ∈ s, isVarNode n) :
    insertNode (fuel + 1) x (insertNode (fuel + 1) y s) =
      insertNode (fuel + 1) y (insertNode (fuel + 1) x s) := by
  have hys : ∀ n ∈ insertNode (fuel + 1) y s, isVarNode n := by
    intro n hn
    rcases insertNode_mem hn with rfl | h
    · exact hy
    · exact hs n h
  have hxs : ∀ n ∈ insertNode (fuel + 1) x s, isVarNode n := by
    intro n hn
    rcases insertNode_mem hn with rfl | h
    · exact hx
    · exact hs n h
  refine map_varKeyOf_inj ?_ ?_ ?_
  · intro n hn
    rcases insertNode_mem hn with rfl | h
    · exact hx
    · exact hys n h
  · intro n hn
    rcases insertNode_mem hn with rfl | h
    · exact hy
    · exact hxs n h
  · rw [insertNode_map_key fuel hx hys, insertNode_map_key fuel hy hs,
      insertNode_map_key fuel hy hxs, insertNode_map_key fuel hx hs,
      insertKey_comm]

theorem sortNodes_perm_eq (fuel : Nat) {l1 l2 : List Node}
    (hp : l1.Perm l2) (hv : ∀ n ∈ l1, isVarNode n) :
    sortNodes (fuel + 1) l1 = sortNodes (fuel + 1) l2 := by
  induction hp with
  | nil => rfl
  | cons x hp ih =>
    rw [sortNodes, sortNodes,
      ih (fun n hn => hv n (List.mem_cons_of_mem _ hn))]
  | swap x y l =>
    simp only [sortNodes]
    refine insertNode_var_comm fuel (hv _ (by simp)) (hv _ (by simp)) ?_
    intro n hn
    exact hv n (List.mem_cons_of_mem _
      (List.mem_cons_of_mem _ (sortNodes_mem hn)))
  | trans hp1 hp2 ih1 ih2 =>
    rw [ih1 hv]
    refine ih2 ?_
    intro n hn
    exact hv n (hp1.symm.mem_iff.mp hn)

end Ex06

namespace Ex06

/-- **C10, counterexample.** The child vectors `[A, 1]` and `[1, A]` are
permutations of each other, yet the `PartialEq` of `Binary{And, [A, 1]}`
and `Binary{And, [1, A]}` is `false` (at recursion depth 9, ample for these
terms): a variable and a constant compare as `None` (collapsed to `Equal`
by the `Ord` the sort uses), so the stable sort leaves both vectors in
place and the element-wise comparison meets `Var` against `Const`. -/
theorem c10_counterexample :
    List.Perm [Node.mk 0 (.var 'A'), Node.mk 0 (.const true)]
      [Node.mk 0 (.const true), Node.mk 0 (.var 'A')] ∧
    litBEq 9
      (.binary .and [.mk 0 (.var 'A'), .mk 0 (.const true)])
      (.binary .and [.mk 0 (.const true), .mk 0 (.var 'A')]) = false := by
  constructor
  · exact List.Perm.swap (Node.mk 0 (.const true)) (Node.mk 0 (.var 'A')) []
  · show litBEq ((7 + 1) + 1) _ _ = false
    simp [litBEq, sortNodes, insertNode, nodeCmp, litCmp, litPCmp,
      listNodeBEq, nodeBEq, binOpCmp, BinOp.rank, compare, compareOfLessAndEq]

theorem listNodeBEq_var_refl (fuel : Nat) {l : List Node}
    (hv : ∀ n ∈ l, isVarNode n) :
    listNodeBEq (fuel + 1) l l = true := by
  induction l with
  | nil => rw [listNodeBEq]
  | cons x xs ih =>
    obtain ⟨m, c, rfl⟩ := hv _ (List.mem_cons_self _ _)
    rw [listNodeBEq, nodeBEq]
    simp only [litBEq]
    simp [ih (fun n hn => hv n (List.mem_cons_of_mem _ hn))]

/-- **C10, amended.** Equality of `Binary` literals is invariant under
permutation of the children for every operator (including `Impl`) provided
the children are variable literals — nodes of the form `m` negations over
a `Var` —, the shape the minimizer's clause deduplication compares.  (For
mixed-variant children the comparator used by the sort treats the
incomparable pair as equal and the invariance fails, see the
counterexample.) -/
theorem c10_permutation_eq_amended :
    ∀ (fuel : Nat) (op : BinOp) (cs cs2 : List Node),
      (∀ n ∈ cs, isVarNode n) → cs.Perm cs2 →
      litBEq (fuel + 2) (.binary op cs) (.binary op cs2) = true := by
  intro fuel op cs cs2 hv hp
  show litBEq ((fuel + 1) + 1) _ _ = true
  simp only [litBEq]
  rw [sortNodes_perm_eq fuel hp hv]
  simp only [beq_self_eq_true, Bool.true_and]
  refine listNodeBEq_var_refl fuel ?_
  intro n hn
  exact hv n (hp.symm.mem_iff.mp (sortNodes_mem hn))

/-- Witness for the amended C10: `Impl` with children `[A, B!]` and
`[B!, A]`. -/
theorem c10_permutation_eq_amended_witness :
    litBEq 2 (.binary .impl [Node.mk 0 (.var 'A'), Node.mk 1 (.var 'B')])
      (.binary .impl [Node.mk 1 (.var 'B'), Node.mk 0 (.var 'A')]) = true :=
  c10_permutation_eq_amended 0 .impl
    [Node.mk 0 (.var 'A'), Node.mk 1 (.var 'B')]
    [Node.mk 1 (.var 'B'), Node.mk 0 (.var 'A')]
    (by
      intro n hn
      simp at hn
      rcases hn with rfl | rfl
      · exact ⟨0, 'A', rfl⟩
      · exact ⟨1, 'B', rfl⟩)
    (List.Perm.swap (Node.mk 1 (.var 'B')) (Node.mk 0 (.var 'A')) [])

end Ex06


namespace Ex09

/-- ex09 (src/src/ex09/node.rs) re-declares `BinOp` and `ParseError` with
the same variants and the same character encoding as ex06; the ex06
embeddings are reused. -/
abbrev BinOp := Ex06.BinOp

abbrev ParseError := Ex06.ParseError

/-- ex09's `Node` has the same four variants as ex07's: `Binary{op, left,
right}`, `Not`, `Var`, `Const`.  Its `Var` holds a shared `VarCell`
(`Rc<RefCell<Variable>>`) whose `name` is the letter and whose `value` is a
`Vec<i32>`; the embedding stores the name and passes the cell contents as
an evaluation environment `Char → List Int`, so the ex07 node type is
reused. -/
abbrev Node := Ex07.Node

/-- ex09's `FromStr` (src/src/ex09/node.rs): the character loop is the same
as ex07's (`0`/`1` push a constant, letters push the variable's cell, `!`
pops one operand, any other character is validated by `BinOp::try_from`
*before* the two operand pops), and a final stack of length other than one
is `UnbalancedExpression`.  The 26 cells it allocates all start with
`value: vec![]`; which cells are read is decided later by the evaluation
environment, so the parse result is the root node. -/
def parseNode (s : List Char) : Except ParseError Node :=
  match Ex07.runParse s [] with
  | .error e => .error e
  | .ok [n] => .ok n
  | .ok _ => .error .unbalancedExpression

/-- `Set` from src/src/ex09/node.rs: a signed finite description,
`Positive(V)` enumerating the set and `Negative(V)` enumerating its
complement in the implicit universe. -/
inductive Set where
  | positive (v : List Int)
  | negative (v : List Int)
deriving DecidableEq, Repr

/-- Rust `Vec::dedup`: remove *consecutive* repeated elements. -/
def dedupAdj : List Int → List Int
  | [] => []
  | [a] => [a]
  | a :: b :: t => if a = b then dedupAdj (b :: t) else a :: dedupAdj (b :: t)

/-- `join` from src/src/ex09/node.rs: append, `sort_unstable`, `dedup`. -/
def join (a b : List Int) : List Int :=
  dedupAdj ((a ++ b).mergeSort (fun x y => decide (x ≤ y)))

/-- `remove` from src/src/ex09/node.rs: keep the elements of `a` not
contained in `b`. -/
def remove (a b : List Int) : List Int :=
  a.filter (fun v => !b.contains v)

/-- `intersect` from src/src/ex09/node.rs: `retain` the elements of `a`
contained in `b`. -/
def intersect (a b : List Int) : List Int :=
  a.filter (fun v => b.contains v)

/-- `impl BitOr for Set` (src/src/ex09/node.rs lines 186-199): note the
`Negative`/`Negative` arm joins the two enumerations — the complement of
the *union* — where De Morgan requires the complement of the
intersection. -/
def Set.bitor : Set → Set → Set
  | .positive v1, .positive v2 => .positive (join v1 v2)
  | .negative v1, .negative v2 => .negative (join v1 v2)
  | .positive p, .negative n => .negative (remove n p)
  | .negative n, .positive p => .negative (remove n p)

/-- `impl BitAnd for Set` (src/src/ex09/node.rs lines 201-213): note the
mixed arm returns `Negative(remove(pvec, nvec))` — a *complement*
description of `positive − negative` — where the intersection with a
complement is the positive set `positive − negative` itself. -/
def Set.bitand : Set → Set → Set
  | .positive v1, .positive v2 => .positive (intersect v1 v2)
  | .negative v1, .negative v2 => .negative (join v1 v2)
  | .positive p, .negative n => .negative (remove p n)
  | .negative n, .positive p => .negative (remove p n)

/-- `impl Not for Set` (src/src/ex09/node.rs): flip the sign. -/
def Set.not : Set → Set
  | .positive a => .negative a
  | .negative a => .positive a

/-- `impl BitXor for Set` (src/src/ex09/node.rs lines 235-259). -/
def Set.bitxor : Set → Set → Set
  | .positive a, .positive b =>
      .positive (a.filter (fun x => !b.contains x)
        ++ b.filter (fun x => !a.contains x))
  | .positive a, .negative b => .positive (a.filter (fun x => b.contains x))
  | .negative a, .positive b => .positive (b.filter (fun x => a.contains x))
  | .negative a, .negative b => .negative (a.filter (fun x => b.contains x))

/-- `Node::eval_set` from src/src/ex09/node.rs (lines 305-318), reading
each variable's cell through the environment.  Failure records the arms
that cannot run: the `Const` arm is `unreachable!` (a panic), and the `Leq`
arm (`left.eval_set() == right.eval_set()`) does not type-check in the
source (`Set` derives no `PartialEq` and the comparison would be a `bool`,
not a `Set`). -/
def Node.eval_set (env : Char → List Int) : Node → Option Set
  | .const _ => none
  | .var c => some (.positive (env c))
  | .not n =>
    match Node.eval_set env n with
    | some s => some s.not
    | none => none
  | .binary op l r =>
    match Node.eval_set env l, Node.eval_set env r with
    | some sl, some sr =>
      match op with
      | .and => some (sl.bitand sr)
      | .or => some (sl.bitor sr)
      | .impl => some (sl.not.bitor sr)
      | .leq => none
      | .xor => some (sl.bitxor sr)
    | _, _ => none

/-- Modelled from the spec: §4.7 defines `Negative(V)` as "the complement
of V in the universe", so a universe element `u` is a member of
`Positive(V)` iff `u ∈ V` and of `Negative(V)` iff `u ∉ V`.  The
materialization of the final signed set to the user (`Tree::eval_set`) has
an empty body in the source, so this membership reading is taken from the
spec's representation invariant. -/
def Set.memberU (u : Int) : Set → Bool
  | .positive v => v.contains u
  | .negative v => !v.contains u

/-- Modelled from the spec: `Tree::eval_set(&self, sets)` — the loop that
binds the given sets to the variable cells through `set_vec` — has an
empty body in the source.  Its effect on the cells is modelled as an
environment: a bound variable reads its binding, and every other cell
keeps the `vec![]` installed by `FromStr`. -/
def envOfBindings : List (Char × List Int) → Char → List Int
  | [], _ => []
  | (name, v) :: rest, c => if c = name then v else envOfBindings rest c

theorem envOfBindings_map_empty (cs : List Char) (c : Char) :
    envOfBindings (cs.map fun x => (x, ([] : List Int))) c = [] := by
  induction cs with
  | nil => rfl
  | cons x xs ih => simp [envOfBindings, ih]

theorem envOfBindings_append_empty (bs : List (Char × List Int))
    (cs : List Char) (c : Char) :
    envOfBindings (bs ++ cs.map fun x => (x, ([] : List Int))) c
      = envOfBindings bs c := by
  induction bs with
  | nil =>
    show envOfBindings (cs.map fun x => (x, ([] : List Int))) c
      = envOfBindings [] c
    exact envOfBindings_map_empty cs c
  | cons p rest ih =>
    obtain ⟨name, v⟩ := p
    simp [envOfBindings, ih]

theorem eval_set_congr (env1 env2 : Char → List Int)
    (h : ∀ c, env1 c = env2 c) (n : Node) :
    Node.eval_set env1 n = Node.eval_set env2 n := by
  induction n with
  | binary op l r ihl ihr => simp [Node.eval_set, ihl, ihr]
  | not m ih => simp [Node.eval_set, ih]
  | var c => simp [Node.eval_set, h]
  | const b => rfl

end Ex09


namespace Ex09

/-- **C9.** In set mode an occurring but never-bound variable behaves as
the empty set: every cell starts as `vec![]` (`FromStr`) and
`Node::eval_set` reads an untouched cell as `Positive([])`, so for any
parsed formula, extending the bindings with explicit empty-set bindings
for any further variables leaves the evaluation unchanged. -/
theorem c9_unbound_variable_empty (s : List Char) (root : Node)
    (bs : List (Char × List Int)) (cs : List Char)
    (_h : parseNode s = .ok root) :
    Node.eval_set (envOfBindings (bs ++ cs.map fun x => (x, ([] : List Int))))
        root
      = Node.eval_set (envOfBindings bs) root :=
  eval_set_congr _ _ (fun c => envOfBindings_append_empty bs cs c) root

/-- Witness for C9: `"AB&"` with only `A` bound to `{1}`; adding the
explicit binding `B ↦ ∅` changes nothing. -/
theorem c9_unbound_variable_empty_witness :
    parseNode ['A', 'B', '&']
        = .ok (.binary .and (.var 'A') (.var 'B')) ∧
    Node.eval_set
        (envOfBindings ([('A', [(1 : Int)])]
          ++ (['B'].map fun x => (x, ([] : List Int)))))
        (.binary .and (.var 'A') (.var 'B'))
      = Node.eval_set (envOfBindings [('A', [(1 : Int)])])
        (.binary .and (.var 'A') (.var 'B')) :=
  ⟨rfl,
    c9_unbound_variable_empty ['A', 'B', '&'] _ [('A', [(1 : Int)])] ['B'] rfl⟩

/-- **C3, failing input.** Formula `"AB!&"`, `A = {0, 1}`, `B = {1}`,
universe element `u = 0`.  The Boolean evaluation with `A ↦ (0 ∈ {0,1}) =
true` and `B ↦ (0 ∈ {1}) = false` is `true`, but the set evaluator
computes the mixed intersection `Positive([0,1]) ∩ Negative([1])` as
`Negative(remove([0,1], [1])) = Negative([0])` — the *complement* of
`{0}` — of which `0` is not a member.  Spec §4.7 requires mixed
intersection to be `positive − negative`, i.e. `Positive([0])`, which does
contain `0`: the duality fails on the code. -/
theorem c3_failing_input :
    parseNode ['A', 'B', '!', '&']
        = .ok (.binary .and (.var 'A') (.not (.var 'B'))) ∧
    Node.eval_set
        (fun c => if c = 'A' then [0, 1] else if c = 'B' then [1] else [])
        (.binary .and (.var 'A') (.not (.var 'B')))
      = some (.negative [0]) ∧
    Set.memberU 0 (.negative [0]) = false ∧
    Ex07.Node.eval (fun c => decide (c = 'A'))
        (.binary .and (.var 'A') (.not (.var 'B'))) = true :=
  ⟨rfl, rfl, rfl, rfl⟩

end Ex09

namespace Ex06

/-- `u32::count_ones`, written as the usual divide-by-two loop with an
explicit step budget; `countOnesAux n n` always has enough budget since a
positive number halves to zero within `n` steps. -/
def countOnesAux : Nat → Nat → Nat
  | 0, _ => 0
  | _ + 1, 0 => 0
  | f + 1, n + 1 => (n + 1) % 2 + countOnesAux f ((n + 1) / 2)

/-- `u32::count_ones` (population count). -/
def countOnes (n : Nat) : Nat := countOnesAux n n

/-- `OptionBool` from src/src/ex06/tree/row.rs (`False`, `True`,
`DontCare`), in that declaration order. -/
inductive OptionBool where
  | ofalse
  | otrue
  | dontCare
deriving DecidableEq, Repr

/-- `impl From<bool> for OptionBool`. -/
def obOfBool (b : Bool) : OptionBool := if b then .otrue else .ofalse

/-- The bit contributed by one value in `impl From<&Row> for u32`:
`True => 1`, anything else `0`. -/
def obBit : OptionBool → Nat
  | .otrue => 1
  | _ => 0

/-- `Row` from src/src/ex06/tree/row.rs. -/
structure Row where
  values : List OptionBool
  id : List Nat
deriving DecidableEq, Repr

/-- `Row::new(id, width)`: `values[i] = from((id >> (width - i - 1)) & 1 == 1)`
— the most significant bit of `id` first — and the singleton id list. -/
def Row.new (id width : Nat) : Row :=
  { values := (List.range width).map
      (fun i => obOfBool (((id >>> (width - i - 1)) &&& 1) == 1)),
    id := [id] }

/-- `impl From<&Row> for u32`: `values.iter().rev().fold(0, (acc << 1) | bit)`.
The bit ORed in lands in the freshly cleared low position, so
`(acc << 1) | bit = 2 * acc + bit`. -/
def Row.u32from (r : Row) : Nat :=
  r.values.reverse.foldl (fun acc v => 2 * acc + obBit v) 0

/-- Positional reading of `u32from`: bit `i` of the result is the bit of
`values[i]`. -/
def u32fromList : List OptionBool → Nat
  | [] => 0
  | v :: rest => 2 * u32fromList rest + obBit v

/-- `Row::care`: the `for (i, v) in values.iter().enumerate()` loop, the
enumeration index `i` threaded explicitly; each non-`DontCare` value ORs in
`1 << (len - i - 1)`. -/
def careFrom (len : Nat) : Nat → List OptionBool → Nat
  | _, [] => 0
  | i, v :: rest =>
    (if v ≠ .dontCare then 1 <<< (len - i - 1) else 0) ||| careFrom len (i + 1) rest

/-- `Row::care` from src/src/ex06/tree/row.rs. -/
def Row.care (r : Row) : Nat := careFrom r.values.length 0 r.values

/-- The number of caring (non-`DontCare`) positions of a value vector; this
is also the `or_needed` counter of the clause emission loop in `Tree::cnf`. -/
def careCount (l : List OptionBool) : Nat :=
  (l.filter (fun v => v != .dontCare)).length

/-- `Row::diff`: xor of the two bit readings. -/
def Row.diff (r1 r2 : Row) : Nat := r1.u32from ^^^ r2.u32from

/-- `Row::mark`: the `values.iter_mut().enumerate()` loop (the `.rev()` in
the source only changes the visit order of independent updates), index
threaded explicitly: position `i` becomes `DontCare` when bit `i` of the
mask is set. -/
def markFrom (mask : Nat) : Nat → List OptionBool → List OptionBool
  | _, [] => []
  | i, v :: rest =>
    (if (mask >>> i) &&& 1 = 1 then .dontCare else v) :: markFrom mask (i + 1) rest

/-- `Row::mark` applied to a whole row. -/
def Row.mark (r : Row) (mask : Nat) : Row :=
  { r with values := markFrom mask 0 r.values }

/-- `Row::merge`: mark the differing bit as don't-care and concatenate the
id lists (`res.id.extend_from_slice(&other.id)`). -/
def Row.merge (r1 r2 : Row) : Row :=
  { Row.mark r1 (r1.diff r2) with id := r1.id ++ r2.id }

/-- `Row::can_merge`: equal care masks and exactly one differing bit. -/
def Row.can_merge (r1 r2 : Row) : Bool :=
  r1.care == r2.care && countOnes (r1.diff r2) == 1

/-- Insertion step of the embedded `sort_unstable` on id lists. -/
def insertSorted (x : Nat) : List Nat → List Nat
  | [] => [x]
  | y :: ys => if x ≤ y then x :: y :: ys else y :: insertSorted x ys

/-- `Vec::sort_unstable` on `Vec<usize>` (`new_implicant.id.sort_unstable()`),
embedded as insertion sort: the source relies only on the result being a
sorted rearrangement. -/
def sortIds : List Nat → List Nat
  | [] => []
  | x :: xs => insertSorted x (sortIds xs)

end Ex06

namespace Ex06

/-- Rank giving the derived `Ord` of `OptionBool`
(`False < True < DontCare`, the declaration order). -/
def obRank : OptionBool → Nat
  | .ofalse => 0
  | .otrue => 1
  | .dontCare => 2

/-- Derived lexicographic `Ord` on `Vec<OptionBool>`. -/
def cmpVals : List OptionBool → List OptionBool → Ordering
  | [], [] => .eq
  | [], _ :: _ => .lt
  | _ :: _, [] => .gt
  | a :: as2, b :: bs =>
    match compare (obRank a) (obRank b) with
    | .eq => cmpVals as2 bs
    | o => o

/-- Derived lexicographic `Ord` on `Vec<usize>`. -/
def cmpIds : List Nat → List Nat → Ordering
  | [], [] => .eq
  | [], _ :: _ => .lt
  | _ :: _, [] => .gt
  | a :: as2, b :: bs =>
    match compare a b with
    | .eq => cmpIds as2 bs
    | o => o

/-- `r1 <= r2` under the derived `Ord` of `Row` (fields in declaration
order: `values`, then `id`). -/
def rowLe (r1 r2 : Row) : Bool :=
  match cmpVals r1.values r2.values with
  | .lt => true
  | .gt => false
  | .eq => cmpIds r1.id r2.id != .gt

/-- Insertion step of the embedded `Vec::sort` on rows. -/
def insertRow (x : Row) : List Row → List Row
  | [] => [x]
  | y :: ys => if rowLe x y then x :: y :: ys else y :: insertRow x ys

/-- `prime_implicants.sort()`, embedded as insertion sort by the derived
`Ord`; the source relies only on the result being a sorted rearrangement
(so that the following `dedup` removes all duplicates). -/
def sortRows : List Row → List Row
  | [] => []
  | x :: xs => insertRow x (sortRows xs)

/-- `Vec::dedup` on rows: remove *consecutive* repeats. -/
def dedupRows : List Row → List Row
  | [] => []
  | [a] => [a]
  | a :: b :: t => if a = b then dedupRows (b :: t) else a :: dedupRows (b :: t)

/-- The `for j in i + 1..implicants.len()` loop of `Tree::cnf` step 2
(src/src/ex06/tree.rs lines 124-136), the index list threaded explicitly.
On a `can_merge` hit the source sets `found` and `used[j]`, sorts the
merged id list, and pushes the merge unless an equal row is already among
the prime implicants.  `prime_implicants` is only read here. -/
def qmInner (impls : List Row) (x : Row) (primes : List Row) :
    List Nat → List Row → List Bool → Bool → (List Row × List Bool × Bool)
  | [], new, used, found => (new, used, found)
  | j :: js, new, used, found =>
    match impls[j]? with
    | none => qmInner impls x primes js new used found
    | some y =>
      if x.can_merge y then
        let ni : Row := { x.merge y with id := sortIds (x.merge y).id }
        let new1 := if primes.contains ni then new else new ++ [ni]
        qmInner impls x primes js new1 (used.set j true) true
      else
        qmInner impls x primes js new used found

/-- The `for i in 0..implicants.len()` loop of `Tree::cnf` step 2
(src/src/ex06/tree.rs lines 120-142): run the inner loop from `i + 1`;
a found merge clears `done`; an implicant that merged with nothing and was
never used becomes a prime implicant. -/
def qmOuter (impls : List Row) :
    List Nat → List Row → List Row → List Bool → Bool →
      (List Row × List Row × Bool)
  | [], new, primes, _, done => (new, primes, done)
  | i :: is2, new, primes, used, done =>
    match impls[i]? with
    | none => qmOuter impls is2 new primes used done
    | some x =>
      match qmInner impls x primes
          (List.range' (i + 1) (impls.length - i - 1)) new used false with
      | (new1, used1, found) =>
        if found then qmOuter impls is2 new1 primes used1 false
        else if used1.getD i false then qmOuter impls is2 new1 primes used1 done
        else qmOuter impls is2 new1 (primes ++ [x]) used1 done

/-- One iteration of the `while !done` loop of `Tree::cnf` step 2:
`done = true`, `new_implicants = vec![]`, `used = vec![false; len]`, then
the nested index loops. -/
def qmPass (impls primes : List Row) : (List Row × List Row × Bool) :=
  qmOuter impls (List.range impls.length) [] primes
    (List.replicate impls.length false) true

/-- The `while !done` loop of `Tree::cnf` step 2, with an explicit fuel
(the source loop is unbounded; it is proved below to finish within
`care-count + 1` passes).  When a pass keeps `done` set the loop exits and
the accumulated prime implicants are the result; otherwise
`implicants = new_implicants` and the loop repeats. -/
def qmLoop : Nat → List Row → List Row → Option (List Row)
  | 0, _, _ => none
  | fuel + 1, impls, primes =>
    match qmPass impls primes with
    | (_, primes1, true) => some primes1
    | (new, primes1, false) => qmLoop fuel new primes1

/-- The `for id in &prime_implicants[index].id { covered[*id] = true }`
loop of `Tree::cnf` step 3. -/
def markIds (cov : List Bool) (ids : List Nat) : List Bool :=
  ids.foldl (fun c i => c.set i true) cov

/-- The essential-implicant scan of `Tree::cnf` step 3 (src/src/ex06/tree.rs
lines 158-176): for each false row, count the prime implicants whose id
list contains the row's index (`implicant.id[0]`); on a unique hit push it
(unless already essential) and mark its ids covered.  The
count-and-last-index scan over `prime_implicants` is embedded as a filter:
`count == 1` exactly when the filter is a singleton, and `index` is then
the position of that unique row. -/
def essentialScan (primes : List Row) :
    List Row → List Row → List Bool → (List Row × List Bool)
  | [], ess, cov => (ess, cov)
  | fr :: frs, ess, cov =>
    match primes.filter (fun p => p.id.contains (fr.id.headD 0)) with
    | [p] =>
      if ess.contains p then essentialScan primes frs ess cov
      else essentialScan primes frs (ess ++ [p]) (markIds cov p.id)
    | _ => essentialScan primes frs ess cov

/-- The clause-character loop of the emission step of `Tree::cnf`
(src/src/ex06/tree.rs lines 237-258), the enumeration index `j` threaded
explicitly: a `False` bit emits the variable, a `True` bit the variable
followed by `!`, `DontCare` nothing (the inversion is deliberate: the
implicants describe the zero rows). -/
def clauseLits (vl : List Char) : Nat → List OptionBool → List Char
  | _, [] => []
  | j, v :: rest =>
    (match v with
     | .ofalse => [vl.getD j 'A']
     | .otrue => [vl.getD j 'A', '!']
     | .dontCare => []) ++ clauseLits vl (j + 1) rest

/-- One emitted clause: the literal characters followed by
`or_needed - 1` copies of `'|'`, where `or_needed` is the number of
caring bits. -/
def clauseOf (vl : List Char) (vals : List OptionBool) : List Char :=
  clauseLits vl 0 vals ++ List.replicate (careCount vals - 1) '|'

/-- Lexicographic `<=` on clause strings (derived `Ord` of `String`). -/
def charListLe (a b : List Char) : Bool :=
  match a, b with
  | [], _ => true
  | _ :: _, [] => false
  | x :: xs, y :: ys =>
    if x < y then true
    else if y < x then false
    else charListLe xs ys

/-- Insertion step of the embedded `res.sort()` on clause strings. -/
def insertString (x : List Char) : List (List Char) → List (List Char)
  | [] => [x]
  | y :: ys => if charListLe x y then x :: y :: ys else y :: insertString x ys

/-- `res.sort()` on the emitted clause strings, embedded as insertion
sort; only that the result is a rearrangement matters for evaluation. -/
def sortStrings : List (List Char) → List (List Char)
  | [] => []
  | x :: xs => insertString x (sortStrings xs)

/-- `Tree::cnf` from src/src/ex06/tree.rs (lines 87-267): truth table of
the printed formula, Quine-McCluskey merging of the zero rows, essential
prime implicants (with the all-primes fallback when the Petrick set is
non-empty; the printed product-of-sums is only diagnostic output), clause
emission, and parse of the emitted string.  `1 << n` is written `2 ^ n`.
The unbounded merge loop carries fuel `bit_width + 2` (proved sufficient
below); `none` stands for the panics (`expect`/`unwrap`) and a
non-terminating loop, and is proved not to occur for parsed input. -/
def Tree.cnf (root : Node) : Option Node :=
  let expr := root.print
  let vl := varList expr
  match getTable expr expr with
  | none => none
  | some table =>
    let w := countOnes (table.length - 1)
    let falseRows := (table.enum.filter (fun ib => !ib.2)).map
      (fun ib => Row.new ib.1 w)
    if falseRows.isEmpty ∨ falseRows.length = 2 ^ vl.length then
      some (.mk 0 (.const falseRows.isEmpty))
    else
      match qmLoop (w + 2) falseRows [] with
      | none => none
      | some primes1 =>
        let primes := dedupRows (sortRows primes1)
        match essentialScan primes falseRows []
            (List.replicate table.length false) with
        | (ess0, covered) =>
          let petrick := primes.filter
            (fun p => p.id.any (fun i => !(covered.getD i false)))
          let essentials := if petrick.isEmpty then ess0 else primes
          let res := sortStrings (essentials.map (fun p => clauseOf vl p.values))
          let full := res.flatten ++ List.replicate (essentials.length - 1) '&'
          match parseNode full with
          | .ok n => some n
          | .error _ => none

end Ex06

namespace Ex06

/-- The bit of `a` at position `k` as the code reads it: `(a >> k) & 1`. -/
def bitAt (a k : Nat) : Nat := (a >>> k) &&& 1

/-- What a stored `OptionBool` requires of the corresponding assignment
bit: `DontCare` nothing, `True` a one, `False` a zero. -/
def obOk : OptionBool → Nat → Prop
  | .dontCare, _ => True
  | .otrue, b => b = 1
  | .ofalse, b => b = 0

/-- Row semantics: walking the values from position `j`, every caring
position `j + i` constrains bit `n - (j+i) - 1` of the assignment index
`a` (the MSB-first convention of `Row::new` and `get_table`). -/
def MatchesFrom (n a : Nat) : Nat → List OptionBool → Prop
  | _, [] => True
  | j, v :: rest => obOk v (bitAt a (n - j - 1)) ∧ MatchesFrom n a (j + 1) rest

/-- A row matches assignment index `a` when all its caring bits agree
with `a`. -/
def Matches (r : Row) (a : Nat) : Prop :=
  MatchesFrom r.values.length a 0 r.values

theorem bitAt_eq_testBit (a k : Nat) :
    bitAt a k = if a.testBit k then 1 else 0 := by
  rw [bitAt, Nat.and_one_is_mod, Nat.testBit_to_div_mod, Nat.shiftRight_eq_div_pow]
  rcases Nat.mod_two_eq_zero_or_one (a / 2 ^ k) with h | h <;> simp [h]

theorem bitAt_le_one (a k : Nat) : bitAt a k ≤ 1 := by
  rw [bitAt_eq_testBit]
  split <;> omega

theorem countOnesAux_eq_zero {f n : Nat} (hle : n ≤ f) :
    countOnesAux f n = 0 ↔ n = 0 := by
  induction f generalizing n with
  | zero =>
    interval_cases n
    simp [countOnesAux]
  | succ f ih =>
    cases n with
    | zero => simp [countOnesAux]
    | succ m =>
      rw [countOnesAux]
      constructor
      · intro h
        have h1 : (m + 1) % 2 = 0 := by omega
        have h2 : countOnesAux f ((m + 1) / 2) = 0 := by omega
        have h3 : (m + 1) / 2 ≤ f := by omega
        have := (ih h3).mp h2
        omega
      · intro h
        cases h

theorem countOnesAux_eq_one {f n : Nat} (hle : n ≤ f) :
    countOnesAux f n = 1 → ∃ p, n = 2 ^ p := by
  induction f generalizing n with
  | zero =>
    interval_cases n
    simp [countOnesAux]
  | succ f ih =>
    cases n with
    | zero => simp [countOnesAux]
    | succ m =>
      rw [countOnesAux]
      intro h
      rcases Nat.mod_two_eq_zero_or_one (m + 1) with hpar | hpar
      · rw [hpar] at h
        have h3 : (m + 1) / 2 ≤ f := by omega
        obtain ⟨p, hp⟩ := ih h3 (by omega)
        exact ⟨p + 1, by omega⟩
      · rw [hpar] at h
        have h2 : countOnesAux f ((m + 1) / 2) = 0 := by omega
        have h3 : (m + 1) / 2 ≤ f := by omega
        have := (countOnesAux_eq_zero h3).mp h2
        exact ⟨0, by omega⟩

theorem countOnes_eq_one {n : Nat} (h : countOnes n = 1) : ∃ p, n = 2 ^ p :=
  countOnesAux_eq_one (Nat.le_refl n) h

theorem countOnesAux_pow_sub_one {k f : Nat} (hle : 2 ^ k - 1 ≤ f) :
    countOnesAux f (2 ^ k - 1) = k := by
  induction k generalizing f with
  | zero => cases f <;> simp [countOnesAux]
  | succ k ih =>
    have hpos : 1 ≤ 2 ^ k := Nat.one_le_two_pow
    have h2 : 2 ^ (k + 1) = 2 * 2 ^ k := by rw [Nat.pow_succ]; omega
    have hn : 2 ^ (k + 1) - 1 = 2 * (2 ^ k - 1) + 1 := by omega
    obtain ⟨f2, rfl⟩ : ∃ f2, f = f2 + 1 := ⟨f - 1, by omega⟩
    obtain ⟨m, hm⟩ : ∃ m, 2 ^ (k + 1) - 1 = m + 1 := ⟨2 ^ (k + 1) - 2, by omega⟩
    rw [hm, countOnesAux]
    have hdiv : (m + 1) / 2 = 2 ^ k - 1 := by omega
    have hmod : (m + 1) % 2 = 1 := by omega
    rw [hdiv, hmod, ih (by omega)]
    omega

theorem countOnes_pow_sub_one (k : Nat) : countOnes (2 ^ k - 1) = k :=
  countOnesAux_pow_sub_one (Nat.le_refl _)

theorem u32from_eq (l : List OptionBool) (ids : List Nat) :
    Row.u32from ⟨l, ids⟩ = u32fromList l := by
  induction l with
  | nil => rfl
  | cons v rest ih =>
    show ((v :: rest).reverse.foldl (fun acc x => 2 * acc + obBit x) 0) = _
    rw [List.reverse_cons, List.foldl_append]
    have : (rest.reverse.foldl (fun acc x => 2 * acc + obBit x) 0) =
        u32fromList rest := ih
    simp [this, u32fromList]

theorem u32fromList_lt (l : List OptionBool) :
    u32fromList l < 2 ^ l.length := by
  induction l with
  | nil => simp [u32fromList]
  | cons v rest ih =>
    have hb : obBit v ≤ 1 := by cases v <;> simp [obBit]
    have : 2 ^ (v :: rest).length = 2 * 2 ^ rest.length := by
      simp [List.length_cons, Nat.pow_succ]
      omega
    rw [u32fromList, this]
    omega

theorem u32fromList_testBit (l : List OptionBool) (k : Nat) :
    (u32fromList l).testBit k = true ↔
      ∃ h : k < l.length, l[k] = .otrue := by
  induction l generalizing k with
  | nil => simp [u32fromList]
  | cons v rest ih =>
    have hb : obBit v ≤ 1 := by cases v <;> simp [obBit]
    cases k with
    | zero =>
      rw [Nat.testBit_zero]
      constructor
      · intro h
        refine ⟨by simp, ?_⟩
        have : (u32fromList (v :: rest)) % 2 = obBit v := by
          rw [u32fromList]
          omega
        rw [this] at h
        cases v <;> simp_all [obBit]
      · rintro ⟨h0, hv⟩
        have hv2 : v = .otrue := by simpa using hv
        have hm2 : (u32fromList (v :: rest)) % 2 = obBit v := by
          rw [u32fromList]
          omega
        rw [hm2, hv2]
        rfl
    | succ k =>
      rw [Nat.testBit_succ]
      have hdiv : (u32fromList (v :: rest)) / 2 = u32fromList rest := by
        rw [u32fromList]
        omega
      rw [hdiv, ih]
      constructor
      · rintro ⟨h, hv⟩
        exact ⟨by simpa using Nat.succ_lt_succ h, by simpa using hv⟩
      · rintro ⟨h, hv⟩
        refine ⟨by simpa using Nat.lt_of_succ_lt_succ h, ?_⟩
        simpa using hv

theorem careFrom_testBit (len : Nat) (l : List OptionBool) (i k : Nat) :
    (careFrom len i l).testBit k = true ↔
      ∃ j, ∃ h : j < l.length, l[j] ≠ .dontCare ∧ k = len - (i + j) - 1 := by
  induction l generalizing i with
  | nil => simp [careFrom]
  | cons v rest ih =>
    rw [careFrom, Nat.testBit_or]
    have hshift : (1 <<< (len - i - 1)) = 2 ^ (len - i - 1) := by
      rw [Nat.shiftLeft_eq]
      omega
    constructor
    · intro h
      rcases Bool.or_eq_true_iff.mp h with h1 | h1
      · by_cases hv : v ≠ .dontCare
        · rw [if_pos hv, hshift, Nat.testBit_two_pow] at h1
          simp at h1
          exact ⟨0, by simp, by simpa using hv, by omega⟩
        · rw [if_neg hv] at h1
          simp at h1
      · obtain ⟨j, hj, hne, hk⟩ := (ih (i + 1)).mp h1
        exact ⟨j + 1, by simpa using Nat.succ_lt_succ hj,
          by simpa using hne, by omega⟩
    · rintro ⟨j, hj, hne, hk⟩
      apply Bool.or_eq_true_iff.mpr
      cases j with
      | zero =>
        left
        have hv : v ≠ .dontCare := by simpa using hne
        rw [if_pos hv, hshift, Nat.testBit_two_pow]
        simp at hk
        simp [hk]
      | succ j =>
        right
        refine (ih (i + 1)).mpr ⟨j, by simpa using Nat.lt_of_succ_lt_succ hj,
          by simpa using hne, by omega⟩

end Ex06

namespace Ex06

theorem MatchesFrom_iff_getElem (n a : Nat) (l : List OptionBool) (j : Nat) :
    MatchesFrom n a j l ↔
      ∀ i, (h : i < l.length) → obOk l[i] (bitAt a (n - (j + i) - 1)) := by
  induction l generalizing j with
  | nil => simp [MatchesFrom]
  | cons v rest ih =>
    rw [MatchesFrom, ih (j + 1)]
    constructor
    · rintro ⟨h0, hrest⟩ i hi
      cases i with
      | zero => simpa using h0
      | succ i =>
        have hi2 : i < rest.length := by simpa using Nat.lt_of_succ_lt_succ hi
        have := hrest i hi2
        have harith : n - (j + 1 + i) - 1 = n - (j + (i + 1)) - 1 := by omega
        rw [harith] at this
        simpa using this
    · intro hall
      refine ⟨by simpa using hall 0 (by simp), ?_⟩
      intro i hi
      have := hall (i + 1) (by simpa using Nat.succ_lt_succ hi)
      have harith : n - (j + (i + 1)) - 1 = n - (j + 1 + i) - 1 := by omega
      rw [harith] at this
      simpa using this

theorem Row.new_length (id w : Nat) : (Row.new id w).values.length = w := by
  simp [Row.new]

theorem Row.new_id (id w : Nat) : (Row.new id w).id = [id] := rfl

theorem Row.new_getElem (id w j : Nat)
    (hj : j < (Row.new id w).values.length) :
    (Row.new id w).values[j] =
      obOfBool ((bitAt id (w - j - 1)) == 1) := by
  simp [Row.new, bitAt]

theorem obOk_ofBool {x b : Nat} (hx : x ≤ 1) (hb : b ≤ 1) :
    obOk (obOfBool (x == 1)) b ↔ b = x := by
  interval_cases x <;> interval_cases b <;> simp [obOfBool, obOk]

theorem bitAt_eq_iff_testBit {a i k : Nat} :
    bitAt a k = bitAt i k ↔ a.testBit k = i.testBit k := by
  rw [bitAt_eq_testBit, bitAt_eq_testBit]
  cases ha : a.testBit k <;> cases hi : i.testBit k <;> simp

theorem testBit_false_of_lt_pow {x w k : Nat} (hx : x < 2 ^ w) (hk : w ≤ k) :
    x.testBit k = false :=
  Nat.testBit_eq_false_of_lt
    (Nat.lt_of_lt_of_le hx (Nat.pow_le_pow_right (by omega) hk))

theorem matches_new {i w : Nat} (a : Nat) (hi : i < 2 ^ w) (ha : a < 2 ^ w) :
    Matches (Row.new i w) a ↔ a = i := by
  rw [Matches, MatchesFrom_iff_getElem]
  simp only [Row.new_length]
  constructor
  · intro h
    apply Nat.eq_of_testBit_eq
    intro k
    by_cases hk : k < w
    · have hj := h (w - 1 - k) (by omega)
      rw [Row.new_getElem i w _ (by rw [Row.new_length]; omega)] at hj
      have harith : w - (0 + (w - 1 - k)) - 1 = k := by omega
      have harith2 : w - (w - 1 - k) - 1 = k := by omega
      rw [harith, harith2] at hj
      have := (obOk_ofBool (bitAt_le_one i k) (bitAt_le_one a k)).mp hj
      exact bitAt_eq_iff_testBit.mp this
    · rw [testBit_false_of_lt_pow ha (by omega),
        testBit_false_of_lt_pow hi (by omega)]
  · rintro rfl
    intro j hj
    rw [Row.new_getElem _ w j (by rw [Row.new_length]; exact hj)]
    have harith : w - (0 + j) - 1 = w - j - 1 := by omega
    rw [harith]
    exact (obOk_ofBool (bitAt_le_one _ _) (bitAt_le_one _ _)).mpr rfl

theorem markFrom_length (mask i : Nat) (l : List OptionBool) :
    (markFrom mask i l).length = l.length := by
  induction l generalizing i with
  | nil => rfl
  | cons v rest ih => simp [markFrom, ih]

theorem markFrom_getElem (mask i : Nat) (l : List OptionBool) (k : Nat)
    (hk : k < l.length) (hk2 : k < (markFrom mask i l).length) :
    (markFrom mask i l)[k] =
      if bitAt mask (i + k) = 1 then .dontCare else l[k] := by
  induction l generalizing i k with
  | nil => simp at hk
  | cons v rest ih =>
    cases k with
    | zero => simp [markFrom, bitAt]
    | succ k =>
      have hkr : k < rest.length := by simpa using Nat.lt_of_succ_lt_succ hk
      have := ih (i + 1) k hkr (by rw [markFrom_length]; exact hkr)
      have harith : i + 1 + k = i + (k + 1) := by omega
      rw [harith] at this
      simpa [markFrom] using this

theorem markFrom_high (p : Nat) (l : List OptionBool) (i : Nat) (h : p < i) :
    markFrom (2 ^ p) i l = l := by
  induction l generalizing i with
  | nil => rfl
  | cons v rest ih =>
    rw [markFrom, ih (i + 1) (by omega)]
    have hcond : ((2 ^ p) >>> i) &&& 1 = 0 := by
      show bitAt (2 ^ p) i = 0
      rw [bitAt_eq_testBit, Nat.testBit_two_pow]
      simp
      omega
    rw [if_neg (show ¬(((2 ^ p) >>> i) &&& 1 = 1) by rw [hcond]; omega)]

theorem careCount_cons (v : OptionBool) (rest : List OptionBool) :
    careCount (v :: rest) =
      (if v = .dontCare then 0 else 1) + careCount rest := by
  cases v <;> simp [careCount, List.filter_cons] <;> omega

theorem careCount_markFrom_pow {l : List OptionBool} {p i : Nat}
    (hip : i ≤ p) (hp : p - i < l.length)
    (hne : l[p - i] ≠ .dontCare) :
    careCount (markFrom (2 ^ p) i l) + 1 = careCount l := by
  induction l generalizing i with
  | nil => simp at hp
  | cons v rest ih =>
    by_cases hip2 : i = p
    · subst hip2
      have hne2 : v ≠ .dontCare := by
        have h0 : i - i = 0 := by omega
        simpa [h0] using hne
      have hcond : ((2 ^ i) >>> i) &&& 1 = 1 := by
        show bitAt (2 ^ i) i = 1
        rw [bitAt_eq_testBit, Nat.testBit_two_pow]
        simp
      rw [markFrom, if_pos hcond, markFrom_high i rest (i + 1) (by omega)]
      rw [careCount_cons, careCount_cons]
      simp [hne2]
      omega
    · have hlt : i < p := by omega
      have hcond : ((2 ^ p) >>> i) &&& 1 = 0 := by
        show bitAt (2 ^ p) i = 0
        rw [bitAt_eq_testBit, Nat.testBit_two_pow]
        simp
        omega
      rw [markFrom, if_neg (show ¬(((2 ^ p) >>> i) &&& 1 = 1) by rw [hcond]; omega)]
      have hp2 : p - (i + 1) < rest.length := by
        simp at hp
        omega
      have hne2 : rest[p - (i + 1)] ≠ .dontCare := by
        have e : (v :: rest)[p - i] = rest[p - (i + 1)] := by
          have harith : p - i = (p - (i + 1)) + 1 := by omega
          simp only [harith, List.getElem_cons_succ]
        rw [e] at hne
        exact hne
      have := ih (i := i + 1) (by omega) hp2 hne2
      rw [careCount_cons, careCount_cons]
      omega

end Ex06

namespace Ex06

theorem u32from_eq2 (r : Row) : r.u32from = u32fromList r.values :=
  u32from_eq r.values r.id

theorem care_testBit_iff {l : List OptionBool} {w p : Nat}
    (hl : l.length = w) (hp : p < w) :
    ((careFrom w 0 l).testBit (w - p - 1) = true) ↔
      l[p] ≠ .dontCare := by
  rw [careFrom_testBit]
  constructor
  · rintro ⟨j, hj, hne, hk⟩
    have : j = p := by omega
    subst this
    exact hne
  · intro hne
    exact ⟨p, by omega, hne, by omega⟩

theorem dc_agree {r1 r2 : Row} {w : Nat} (h1 : r1.values.length = w)
    (h2 : r2.values.length = w) (hc : r1.care = r2.care) {p : Nat}
    (hp : p < w) :
    (r1.values[p] = .dontCare ↔
      r2.values[p] = .dontCare) := by
  have hb := congrArg (fun x => x.testBit (w - p - 1)) hc
  simp only [Row.care, h1, h2] at hb
  have t1 := care_testBit_iff (l := r1.values) h1 hp
  have t2 := care_testBit_iff (l := r2.values) h2 hp
  have hne : (r1.values[p] ≠ .dontCare ↔
      r2.values[p] ≠ .dontCare) := by
    rw [← t1, ← t2, hb]
  exact not_iff_not.mp hne

theorem testBit_u32_otrue {l : List OptionBool} {p : Nat} (hp : p < l.length) :
    (u32fromList l).testBit p = true ↔ l[p] = .otrue := by
  rw [u32fromList_testBit]
  constructor
  · rintro ⟨h2, hv⟩
    exact hv
  · intro hv
    exact ⟨hp, hv⟩

theorem obOk_nonDC {v : OptionBool} {b : Nat} (h : v ≠ .dontCare) :
    obOk v b ↔ b = obBit v := by
  cases v
  · simp [obOk, obBit]
  · simp [obOk, obBit]
  · simp at h

theorem merge_length (r1 r2 : Row) :
    (r1.merge r2).values.length = r1.values.length := by
  simp [Row.merge, Row.mark, markFrom_length]

theorem merge_id (r1 r2 : Row) : (r1.merge r2).id = r1.id ++ r2.id := rfl

theorem can_merge_parts {r1 r2 : Row} (h : r1.can_merge r2 = true) :
    r1.care = r2.care ∧ countOnes (r1.diff r2) = 1 := by
  simp [Row.can_merge] at h
  exact h

theorem diff_lt {r1 r2 : Row} {w : Nat} (h1 : r1.values.length = w)
    (h2 : r2.values.length = w) : r1.diff r2 < 2 ^ w := by
  rw [Row.diff, u32from_eq2, u32from_eq2]
  have b1 := u32fromList_lt r1.values
  have b2 := u32fromList_lt r2.values
  rw [h1] at b1
  rw [h2] at b2
  exact Nat.xor_lt_two_pow b1 b2

theorem merge_matches {w : Nat} {r1 r2 : Row} (h1 : r1.values.length = w)
    (h2 : r2.values.length = w) (hcm : r1.can_merge r2 = true) (a : Nat) :
    Matches (r1.merge r2) a ↔ (Matches r1 a ∨ Matches r2 a) := by
  obtain ⟨hceq, hcnt⟩ := can_merge_parts hcm
  obtain ⟨p, hd⟩ := countOnes_eq_one hcnt
  have hdlt : r1.diff r2 < 2 ^ w := diff_lt h1 h2
  have hpw : p < w := by
    rw [hd] at hdlt
    exact (Nat.pow_lt_pow_iff_right (by omega)).mp hdlt
  have hmlen : (r1.merge r2).values.length = w := by rw [merge_length, h1]
  have hmv : ∀ k, (hk : k < w) → (r1.merge r2).values[k] =
      if k = p then .dontCare else r1.values[k] := by
    intro k hk
    have hmk : k < (markFrom (r1.diff r2) 0 r1.values).length := by
      rw [markFrom_length]; omega
    show (markFrom (r1.diff r2) 0 r1.values)[k] = _
    rw [markFrom_getElem _ 0 _ k (by omega) hmk, hd]
    have harith : 0 + k = k := by omega
    rw [harith, bitAt_eq_testBit, Nat.testBit_two_pow]
    by_cases hkp : k = p
    · simp [hkp]
    · simp [hkp, Ne.symm hkp]
  have hbit : ∀ k, k ≠ p →
      (u32fromList r1.values).testBit k = (u32fromList r2.values).testBit k := by
    intro k hk
    have hz : (r1.diff r2).testBit k = false := by
      rw [hd, Nat.testBit_two_pow]
      simp [Ne.symm hk]
    rw [Row.diff, u32from_eq2, u32from_eq2, Nat.testBit_xor] at hz
    cases hb1 : (u32fromList r1.values).testBit k <;>
      cases hb2 : (u32fromList r2.values).testBit k <;> simp_all
  have hbitp :
      (u32fromList r1.values).testBit p ≠ (u32fromList r2.values).testBit p := by
    have ho : (r1.diff r2).testBit p = true := by
      rw [hd, Nat.testBit_two_pow]
      simp
    rw [Row.diff, u32from_eq2, u32from_eq2, Nat.testBit_xor] at ho
    cases hb1 : (u32fromList r1.values).testBit p <;>
      cases hb2 : (u32fromList r2.values).testBit p <;> simp_all
  have hveq : ∀ k, (hk : k < w) → k ≠ p →
      r1.values[k] = r2.values[k] := by
    intro k hk hkp
    have hdc := dc_agree h1 h2 hceq hk
    have hob := hbit k hkp
    have e1 := testBit_u32_otrue (l := r1.values) (p := k) (by omega)
    have e2 := testBit_u32_otrue (l := r2.values) (p := k) (by omega)
    cases hv1 : r1.values[k] <;>
      cases hv2 : r2.values[k] <;> simp_all
  have hp1 : r1.values[p] ≠ .dontCare := by
    intro hdc
    have hdc2 := (dc_agree h1 h2 hceq hpw).mp hdc
    apply hbitp
    have e1 := testBit_u32_otrue (l := r1.values) (p := p) (by omega)
    have e2 := testBit_u32_otrue (l := r2.values) (p := p) (by omega)
    cases hb1 : (u32fromList r1.values).testBit p <;>
      cases hb2 : (u32fromList r2.values).testBit p <;> simp_all
  have hp2 : r2.values[p] ≠ .dontCare :=
    fun hdc => hp1 ((dc_agree h1 h2 hceq hpw).mpr hdc)
  have hop : r1.values[p] = .otrue ↔
      ¬ (r2.values[p] = .otrue) := by
    have e1 := testBit_u32_otrue (l := r1.values) (p := p) (by omega)
    have e2 := testBit_u32_otrue (l := r2.values) (p := p) (by omega)
    cases hb1 : (u32fromList r1.values).testBit p <;>
      cases hb2 : (u32fromList r2.values).testBit p <;> simp_all
  rw [Matches, Matches, Matches, MatchesFrom_iff_getElem,
    MatchesFrom_iff_getElem, MatchesFrom_iff_getElem]
  simp only [hmlen, h1, h2, Nat.zero_add]
  constructor
  · intro h
    by_cases hbp : bitAt a (w - p - 1) = obBit (r1.values[p])
    · left
      intro i hi
      by_cases hip : i = p
      · subst hip
        exact (obOk_nonDC hp1).mpr hbp
      · have hm := h i hi
        rw [hmv i hi, if_neg hip] at hm
        exact hm
    · right
      intro i hi
      by_cases hip : i = p
      · subst hip
        have hb := bitAt_le_one a (w - i - 1)
        rw [obOk_nonDC hp2]
        cases hv1 : r1.values[i] <;>
          cases hv2 : r2.values[i] <;>
            simp_all [obBit] <;> omega
      · have hm := h i hi
        rw [hmv i hi, if_neg hip] at hm
        rw [← hveq i hi hip]
        exact hm
  · intro h i hi
    rw [hmv i hi]
    by_cases hip : i = p
    · rw [if_pos hip]
      exact trivial
    · rw [if_neg hip]
      rcases h with h | h
      · exact h i hi
      · rw [hveq i hi hip]
        exact h i hi

end Ex06

namespace Ex06

/-- The row invariant maintained by the Quine-McCluskey loop: the value
vector spans the `bit_width`, the id list is a non-empty list of indices
of false table rows, and the row matches exactly the assignments whose
indices it records. -/
structure RowInv (w : Nat) (tbl : List Bool) (r : Row) : Prop where
  hlen : r.values.length = w
  hids : ∀ i ∈ r.id, i < tbl.length ∧ tbl.getD i true = false
  hmatch : ∀ a, a < 2 ^ w → (Matches r a ↔ a ∈ r.id)
  hne : r.id ≠ []

theorem inv_new {w : Nat} {tbl : List Bool} {i : Nat}
    (htl : tbl.length = 2 ^ w) (hi : i < tbl.length)
    (hf : tbl.getD i true = false) : RowInv w tbl (Row.new i w) := by
  refine ⟨Row.new_length i w, ?_, ?_, by simp [Row.new_id]⟩
  · intro j hj
    rw [Row.new_id] at hj
    simp at hj
    subst hj
    exact ⟨hi, hf⟩
  · intro a ha
    rw [Row.new_id, matches_new a (by omega) ha]
    simp

theorem mem_insertSorted {x a : Nat} {l : List Nat} :
    a ∈ insertSorted x l ↔ a = x ∨ a ∈ l := by
  induction l with
  | nil => simp [insertSorted]
  | cons y ys ih =>
    rw [insertSorted]
    split
    · simp
    · simp [ih]
      tauto

theorem mem_sortIds {a : Nat} {l : List Nat} : a ∈ sortIds l ↔ a ∈ l := by
  induction l with
  | nil => simp [sortIds]
  | cons x xs ih =>
    rw [sortIds, mem_insertSorted, ih]
    simp

theorem insertSorted_length (x : Nat) (l : List Nat) :
    (insertSorted x l).length = l.length + 1 := by
  induction l with
  | nil => rfl
  | cons y ys ih =>
    rw [insertSorted]
    split
    · rfl
    · simp [ih]

theorem sortIds_length (l : List Nat) : (sortIds l).length = l.length := by
  induction l with
  | nil => rfl
  | cons x xs ih => rw [sortIds, insertSorted_length, ih]; rfl

theorem can_merge_p_care {w : Nat} {r1 r2 : Row} (h1 : r1.values.length = w)
    (h2 : r2.values.length = w) (hcm : r1.can_merge r2 = true) {p : Nat}
    (hd : r1.diff r2 = 2 ^ p) (hpw : p < w) :
    r1.values[p] ≠ .dontCare := by
  obtain ⟨hceq, -⟩ := can_merge_parts hcm
  have hbitp :
      (u32fromList r1.values).testBit p ≠ (u32fromList r2.values).testBit p := by
    have ho : (r1.diff r2).testBit p = true := by
      rw [hd, Nat.testBit_two_pow]
      simp
    rw [Row.diff, u32from_eq2, u32from_eq2, Nat.testBit_xor] at ho
    cases hb1 : (u32fromList r1.values).testBit p <;>
      cases hb2 : (u32fromList r2.values).testBit p <;> simp_all
  intro hdc
  have hdc2 := (dc_agree h1 h2 hceq hpw).mp hdc
  apply hbitp
  have e1 := testBit_u32_otrue (l := r1.values) (p := p) (by omega)
  have e2 := testBit_u32_otrue (l := r2.values) (p := p) (by omega)
  cases hb1 : (u32fromList r1.values).testBit p <;>
    cases hb2 : (u32fromList r2.values).testBit p <;> simp_all

theorem careCount_merge {w : Nat} {r1 r2 : Row} (h1 : r1.values.length = w)
    (h2 : r2.values.length = w) (hcm : r1.can_merge r2 = true) :
    careCount (r1.merge r2).values + 1 = careCount r1.values := by
  obtain ⟨-, hcnt⟩ := can_merge_parts hcm
  obtain ⟨p, hd⟩ := countOnes_eq_one hcnt
  have hdlt : r1.diff r2 < 2 ^ w := diff_lt h1 h2
  have hpw : p < w := by
    rw [hd] at hdlt
    exact (Nat.pow_lt_pow_iff_right (by omega)).mp hdlt
  have hne := can_merge_p_care h1 h2 hcm hd hpw
  show careCount (markFrom (r1.diff r2) 0 r1.values) + 1 = _
  rw [hd]
  have hp0 : p - 0 < r1.values.length := by omega
  have hne0 : r1.values[p - 0] ≠ .dontCare := by
    have harith : p - 0 = p := by omega
    simp only [harith]
    exact hne
  exact careCount_markFrom_pow (by omega) hp0 hne0

/-- The merged row with its id list sorted, exactly as pushed by the
source (`new_implicant.id.sort_unstable()`). -/
def mergedRow (x y : Row) : Row :=
  { x.merge y with id := sortIds (x.merge y).id }

theorem inv_mergedRow {w : Nat} {tbl : List Bool} {r1 r2 : Row}
    (i1 : RowInv w tbl r1) (i2 : RowInv w tbl r2)
    (hcm : r1.can_merge r2 = true) : RowInv w tbl (mergedRow r1 r2) := by
  refine ⟨?_, ?_, ?_, ?_⟩
  · show (r1.merge r2).values.length = w
    rw [merge_length, i1.hlen]
  · intro i hi
    show i < tbl.length ∧ _
    have : i ∈ (r1.merge r2).id := mem_sortIds.mp hi
    rw [merge_id] at this
    rcases List.mem_append.mp this with h | h
    · exact i1.hids i h
    · exact i2.hids i h
  · intro a ha
    have hM : Matches (mergedRow r1 r2) a ↔ Matches (r1.merge r2) a := Iff.rfl
    rw [hM, merge_matches i1.hlen i2.hlen hcm a, i1.hmatch a ha, i2.hmatch a ha]
    show (a ∈ r1.id ∨ a ∈ r2.id) ↔ a ∈ sortIds (r1.merge r2).id
    rw [mem_sortIds, merge_id]
    exact (List.mem_append).symm
  · show sortIds (r1.merge r2).id ≠ []
    intro hnil
    have : (r1.merge r2).id.length = 0 := by
      rw [← sortIds_length, hnil]
      rfl
    rw [merge_id] at this
    simp at this
    exact i1.hne this.1

theorem careCount_mergedRow {w : Nat} {r1 r2 : Row}
    (h1 : r1.values.length = w) (h2 : r2.values.length = w)
    (hcm : r1.can_merge r2 = true) :
    careCount (mergedRow r1 r2).values + 1 = careCount r1.values :=
  careCount_merge h1 h2 hcm

theorem mem_insertRow {x y : Row} {l : List Row} :
    y ∈ insertRow x l ↔ y = x ∨ y ∈ l := by
  induction l with
  | nil => simp [insertRow]
  | cons z zs ih =>
    rw [insertRow]
    split
    · simp
    · simp [ih]
      tauto

theorem mem_sortRows {y : Row} {l : List Row} : y ∈ sortRows l ↔ y ∈ l := by
  induction l with
  | nil => simp [sortRows]
  | cons x xs ih =>
    rw [sortRows, mem_insertRow, ih]
    simp

theorem mem_dedupRows {y : Row} {l : List Row} : y ∈ dedupRows l ↔ y ∈ l := by
  induction l with
  | nil => simp [dedupRows]
  | cons a t ih =>
    cases t with
    | nil => simp [dedupRows]
    | cons b t2 =>
      rw [dedupRows]
      split
      · rename_i heq
        rw [ih]
        subst heq
        simp
      · simp [ih]

end Ex06

namespace Ex06

/-- Some row of `L` records index `i`. -/
def covers (L : List Row) (i : Nat) : Prop := ∃ r ∈ L, i ∈ r.id

theorem covers_mono {L1 L2 : List Row} (h : ∀ r ∈ L1, r ∈ L2) {i : Nat}
    (hc : covers L1 i) : covers L2 i := by
  obtain ⟨r, hr, hi⟩ := hc
  exact ⟨r, h r hr, hi⟩

theorem getD_set_true (l : List Bool) (i j : Nat) :
    (l.set i true).getD j false = true ↔
      (i = j ∧ i < l.length) ∨ l.getD j false = true := by
  rw [List.getD_eq_getElem?_getD, List.getElem?_set, List.getD_eq_getElem?_getD]
  by_cases hij : i = j
  · subst hij
    by_cases hlen : i < l.length
    · simp [hlen]
    · simp [hlen, List.getElem?_eq_none (Nat.le_of_not_lt hlen)]
  · simp [hij]

theorem qmInner_newMono (impls : List Row) (x : Row) (primes : List Row)
    (js : List Nat) :
    ∀ (new : List Row) (used : List Bool) (found : Bool) (r : Row),
      r ∈ new → r ∈ (qmInner impls x primes js new used found).1 := by
  induction js with
  | nil =>
    intro new used found r hr
    simpa [qmInner] using hr
  | cons j js ih =>
    intro new used found r hr
    rw [qmInner]
    cases hj : impls[j]? with
    | none =>
      dsimp only
      exact ih new used found r hr
    | some y =>
      dsimp only
      by_cases hcm : x.can_merge y = true
      · rw [if_pos hcm]
        apply ih
        split
        · exact hr
        · exact List.mem_append_left _ hr
      · rw [if_neg hcm]
        exact ih new used found r hr

theorem qmInner_usedMono (impls : List Row) (x : Row) (primes : List Row)
    (js : List Nat) :
    ∀ (new : List Row) (used : List Bool) (found : Bool) (j' : Nat),
      used.getD j' false = true →
      (qmInner impls x primes js new used found).2.1.getD j' false = true := by
  induction js with
  | nil =>
    intro new used found j' h
    simpa [qmInner] using h
  | cons j js ih =>
    intro new used found j' h
    rw [qmInner]
    cases hj : impls[j]? with
    | none =>
      dsimp only
      exact ih new used found j' h
    | some y =>
      dsimp only
      by_cases hcm : x.can_merge y = true
      · rw [if_pos hcm]
        apply ih
        exact (getD_set_true used j j').mpr (.inr h)
      · rw [if_neg hcm]
        exact ih new used found j' h

theorem qmInner_usedLen (impls : List Row) (x : Row) (primes : List Row)
    (js : List Nat) :
    ∀ (new : List Row) (used : List Bool) (found : Bool),
      (qmInner impls x primes js new used found).2.1.length = used.length := by
  induction js with
  | nil =>
    intro new used found
    simp [qmInner]
  | cons j js ih =>
    intro new used found
    rw [qmInner]
    cases hj : impls[j]? with
    | none =>
      dsimp only
      exact ih new used found
    | some y =>
      dsimp only
      by_cases hcm : x.can_merge y = true
      · rw [if_pos hcm, ih]
        exact List.length_set used j true
      · rw [if_neg hcm]
        exact ih new used found

theorem qmInner_newInv {w : Nat} {tbl : List Bool} (impls : List Row)
    (x : Row) (primes : List Row)
    (himpls : ∀ r ∈ impls, RowInv w tbl r) (hx : RowInv w tbl x)
    (js : List Nat) :
    ∀ (new : List Row) (used : List Bool) (found : Bool),
      (∀ r ∈ new, RowInv w tbl r) →
      ∀ r ∈ (qmInner impls x primes js new used found).1, RowInv w tbl r := by
  induction js with
  | nil =>
    intro new used found hnew r hr
    exact hnew r (by simpa [qmInner] using hr)
  | cons j js ih =>
    intro new used found hnew r hr
    rw [qmInner] at hr
    cases hj : impls[j]? with
    | none =>
      rw [hj] at hr
      dsimp only at hr
      exact ih new used found hnew r hr
    | some y =>
      rw [hj] at hr
      dsimp only at hr
      by_cases hcm : x.can_merge y = true
      · rw [if_pos hcm] at hr
        refine ih _ _ _ ?_ r hr
        intro r2 hr2
        split at hr2
        · exact hnew r2 hr2
        · rcases List.mem_append.mp hr2 with h | h
          · exact hnew r2 h
          · have : r2 = mergedRow x y := by simpa using h
            subst this
            exact inv_mergedRow hx (himpls y (List.getElem?_mem hj)) hcm
      · rw [if_neg hcm] at hr
        exact ih new used found hnew r hr

theorem qmInner_care {w : Nat} {tbl : List Bool} (impls : List Row)
    (x : Row) (primes : List Row) (c : Nat)
    (himpls : ∀ r ∈ impls, RowInv w tbl r) (hx : RowInv w tbl x)
    (hcx : careCount x.values = c)
    (js : List Nat) :
    ∀ (new : List Row) (used : List Bool) (found : Bool),
      (∀ r ∈ new, careCount r.values + 1 = c) →
      ∀ r ∈ (qmInner impls x primes js new used found).1,
        careCount r.values + 1 = c := by
  induction js with
  | nil =>
    intro new used found hnew r hr
    exact hnew r (by simpa [qmInner] using hr)
  | cons j js ih =>
    intro new used found hnew r hr
    rw [qmInner] at hr
    cases hj : impls[j]? with
    | none =>
      rw [hj] at hr
      dsimp only at hr
      exact ih new used found hnew r hr
    | some y =>
      rw [hj] at hr
      dsimp only at hr
      by_cases hcm : x.can_merge y = true
      · rw [if_pos hcm] at hr
        refine ih _ _ _ ?_ r hr
        intro r2 hr2
        split at hr2
        · exact hnew r2 hr2
        · rcases List.mem_append.mp hr2 with h | h
          · exact hnew r2 h
          · have : r2 = mergedRow x y := by simpa using h
            subst this
            rw [careCount_mergedRow hx.hlen
              (himpls y (List.getElem?_mem hj)).hlen hcm, hcx]
      · rw [if_neg hcm] at hr
        exact ih new used found hnew r hr

theorem qmInner_foundMono (impls : List Row) (x : Row) (primes : List Row)
    (js : List Nat) :
    ∀ (new : List Row) (used : List Bool),
      (qmInner impls x primes js new used true).2.2 = true := by
  induction js with
  | nil =>
    intro new used
    simp [qmInner]
  | cons j js ih =>
    intro new used
    rw [qmInner]
    cases hj : impls[j]? with
    | none =>
      dsimp only
      exact ih new used
    | some y =>
      dsimp only
      by_cases hcm : x.can_merge y = true
      · rw [if_pos hcm]
        exact ih _ _
      · rw [if_neg hcm]
        exact ih new used

theorem qmInner_noFire (impls : List Row) (x : Row) (primes : List Row)
    (js : List Nat) :
    ∀ (new : List Row) (used : List Bool) (found : Bool),
      (qmInner impls x primes js new used found).2.2 = false →
      found = false ∧
        (qmInner impls x primes js new used found).1 = new ∧
        (qmInner impls x primes js new used found).2.1 = used := by
  induction js with
  | nil =>
    intro new used found h
    refine ⟨by simpa [qmInner] using h, by simp [qmInner], by simp [qmInner]⟩
  | cons j js ih =>
    intro new used found h
    rw [qmInner] at h ⊢
    cases hj : impls[j]? with
    | none =>
      rw [hj] at h
      dsimp only at h
      exact ih new used found h
    | some y =>
      rw [hj] at h
      dsimp only at h ⊢
      by_cases hcm : x.can_merge y = true
      · rw [if_pos hcm] at h
        rw [qmInner_foundMono] at h
        cases h
      · rw [if_neg hcm] at h ⊢
        exact ih new used found h

theorem qmInner_fireNeedsMerge (impls : List Row) (x : Row)
    (primes : List Row) (js : List Nat) :
    ∀ (new : List Row) (used : List Bool) (found : Bool),
      (qmInner impls x primes js new used found).2.2 = true →
      found = true ∨ ∃ y ∈ impls, x.can_merge y = true := by
  induction js with
  | nil =>
    intro new used found h
    exact .inl (by simpa [qmInner] using h)
  | cons j js ih =>
    intro new used found h
    rw [qmInner] at h
    cases hj : impls[j]? with
    | none =>
      rw [hj] at h
      dsimp only at h
      exact ih new used found h
    | some y =>
      rw [hj] at h
      dsimp only at h
      by_cases hcm : x.can_merge y = true
      · exact .inr ⟨y, List.getElem?_mem hj, hcm⟩
      · rw [if_neg hcm] at h
        exact ih new used found h

end Ex06

namespace Ex06

theorem qmInner_step_none {impls : List Row} {x : Row} {primes : List Row}
    {j : Nat} {js : List Nat} {new : List Row} {used : List Bool}
    {found : Bool} (hj : impls[j]? = none) :
    qmInner impls x primes (j :: js) new used found =
      qmInner impls x primes js new used found := by
  rw [qmInner, hj]

theorem qmInner_step_some {impls : List Row} {x : Row} {primes : List Row}
    {j : Nat} {js : List Nat} {new : List Row} {used : List Bool}
    {found : Bool} {y : Row} (hj : impls[j]? = some y)
    (hcm : x.can_merge y = true) :
    qmInner impls x primes (j :: js) new used found =
      qmInner impls x primes js
        (if primes.contains (mergedRow x y) = true then new
         else new ++ [mergedRow x y])
        (used.set j true) true := by
  rw [qmInner, hj]
  dsimp only
  rw [if_pos hcm]
  rfl

theorem qmInner_step_noMerge {impls : List Row} {x : Row} {primes : List Row}
    {j : Nat} {js : List Nat} {new : List Row} {used : List Bool}
    {found : Bool} {y : Row} (hj : impls[j]? = some y)
    (hcm : ¬ x.can_merge y = true) :
    qmInner impls x primes (j :: js) new used found =
      qmInner impls x primes js new used found := by
  rw [qmInner, hj]
  dsimp only
  rw [if_neg hcm]

theorem qmInner_usedCover (impls : List Row) (x : Row) (primes : List Row)
    (js : List Nat) :
    ∀ (new : List Row) (used : List Bool) (found : Bool) (j' : Nat),
      (qmInner impls x primes js new used found).2.1.getD j' false = true →
      used.getD j' false = true ∨
        ∃ y, impls[j']? = some y ∧ ∀ i ∈ y.id,
          covers (qmInner impls x primes js new used found).1 i ∨
            covers primes i := by
  induction js with
  | nil =>
    intro new used found j' h
    exact .inl (by simpa [qmInner] using h)
  | cons j js ih =>
    intro new used found j' h
    cases hj : impls[j]? with
    | none =>
      rw [qmInner_step_none hj] at h ⊢
      exact ih _ _ _ j' h
    | some y =>
      by_cases hcm : x.can_merge y = true
      · rw [qmInner_step_some hj hcm] at h ⊢
        rcases ih _ _ _ j' h with h1 | h2
        · rcases (getD_set_true used j j').mp h1 with ⟨heq, hlen⟩ | hold
          · subst heq
            refine .inr ⟨y, hj, ?_⟩
            intro i hi
            have hni : i ∈ (mergedRow x y).id := by
              show i ∈ sortIds (x.merge y).id
              rw [mem_sortIds, merge_id]
              exact List.mem_append_right _ hi
            by_cases hcont : primes.contains (mergedRow x y) = true
            · exact .inr ⟨mergedRow x y, List.mem_of_elem_eq_true hcont, hni⟩
            · left
              refine ⟨mergedRow x y, ?_, hni⟩
              apply qmInner_newMono
              rw [if_neg hcont]
              exact List.mem_append_right _ (by simp)
          · exact .inl hold
        · exact .inr h2
      · rw [qmInner_step_noMerge hj hcm] at h ⊢
        exact ih _ _ _ j' h

theorem qmInner_foundCover (impls : List Row) (x : Row) (primes : List Row)
    (js : List Nat) :
    ∀ (new : List Row) (used : List Bool) (found : Bool),
      (qmInner impls x primes js new used found).2.2 = true →
      found = true ∨ ∀ i ∈ x.id,
        covers (qmInner impls x primes js new used found).1 i ∨
          covers primes i := by
  induction js with
  | nil =>
    intro new used found h
    exact .inl (by simpa [qmInner] using h)
  | cons j js ih =>
    intro new used found h
    cases hj : impls[j]? with
    | none =>
      rw [qmInner_step_none hj] at h ⊢
      exact ih _ _ _ h
    | some y =>
      by_cases hcm : x.can_merge y = true
      · rw [qmInner_step_some hj hcm] at h ⊢
        refine .inr ?_
        intro i hi
        have hni : i ∈ (mergedRow x y).id := by
          show i ∈ sortIds (x.merge y).id
          rw [mem_sortIds, merge_id]
          exact List.mem_append_left _ hi
        by_cases hcont : primes.contains (mergedRow x y) = true
        · exact .inr ⟨mergedRow x y, List.mem_of_elem_eq_true hcont, hni⟩
        · left
          refine ⟨mergedRow x y, ?_, hni⟩
          apply qmInner_newMono
          rw [if_neg hcont]
          exact List.mem_append_right _ (by simp)
      · rw [qmInner_step_noMerge hj hcm] at h ⊢
        exact ih _ _ _ h

end Ex06

namespace Ex06

theorem qmOuter_step_none {impls : List Row} {i : Nat} {is2 : List Nat}
    {new primes : List Row} {used : List Bool} {done : Bool}
    (hi : impls[i]? = none) :
    qmOuter impls (i :: is2) new primes used done =
      qmOuter impls is2 new primes used done := by
  rw [qmOuter, hi]

theorem qmOuter_step_some {impls : List Row} {i : Nat} {is2 : List Nat}
    {new primes : List Row} {used : List Bool} {done : Bool} {x : Row}
    {new1 : List Row} {used1 : List Bool} {fnd : Bool}
    (hi : impls[i]? = some x)
    (hq : qmInner impls x primes (List.range' (i + 1) (impls.length - i - 1))
        new used false = (new1, used1, fnd)) :
    qmOuter impls (i :: is2) new primes used done =
      if fnd then qmOuter impls is2 new1 primes used1 false
      else if used1.getD i false then qmOuter impls is2 new1 primes used1 done
      else qmOuter impls is2 new1 (primes ++ [x]) used1 done := by
  rw [qmOuter, hi]
  dsimp only
  rw [hq]

theorem qmOuter_primesMono (impls : List Row) (is : List Nat) :
    ∀ (new primes : List Row) (used : List Bool) (done : Bool) (p : Row),
      p ∈ primes → p ∈ (qmOuter impls is new primes used done).2.1 := by
  induction is with
  | nil =>
    intro new primes used done p hp
    simpa [qmOuter] using hp
  | cons i is2 ih =>
    intro new primes used done p hp
    cases hi : impls[i]? with
    | none =>
      rw [qmOuter_step_none hi]
      exact ih _ _ _ _ p hp
    | some x =>
      rcases hq : qmInner impls x primes
        (List.range' (i + 1) (impls.length - i - 1)) new used false with
        ⟨new1, used1, fnd⟩
      rw [qmOuter_step_some hi hq]
      by_cases hf : fnd = true
      · rw [if_pos hf]
        exact ih _ _ _ _ p hp
      · rw [if_neg hf]
        by_cases hu : used1.getD i false = true
        · rw [if_pos hu]
          exact ih _ _ _ _ p hp
        · rw [if_neg hu]
          exact ih _ _ _ _ p (List.mem_append_left _ hp)

theorem qmOuter_doneMono (impls : List Row) (is : List Nat) :
    ∀ (new primes : List Row) (used : List Bool),
      (qmOuter impls is new primes used false).2.2 = false := by
  induction is with
  | nil =>
    intro new primes used
    simp [qmOuter]
  | cons i is2 ih =>
    intro new primes used
    cases hi : impls[i]? with
    | none =>
      rw [qmOuter_step_none hi]
      exact ih _ _ _
    | some x =>
      rcases hq : qmInner impls x primes
        (List.range' (i + 1) (impls.length - i - 1)) new used false with
        ⟨new1, used1, fnd⟩
      rw [qmOuter_step_some hi hq]
      by_cases hf : fnd = true
      · rw [if_pos hf]
        exact ih _ _ _
      · rw [if_neg hf]
        by_cases hu : used1.getD i false = true
        · rw [if_pos hu]
          exact ih _ _ _
        · rw [if_neg hu]
          exact ih _ _ _

theorem qmOuter_inv {w : Nat} {tbl : List Bool} (impls : List Row)
    (himpls : ∀ r ∈ impls, RowInv w tbl r) (is : List Nat) :
    ∀ (new primes : List Row) (used : List Bool) (done : Bool),
      (∀ r ∈ new, RowInv w tbl r) → (∀ r ∈ primes, RowInv w tbl r) →
      (∀ r ∈ (qmOuter impls is new primes used done).1, RowInv w tbl r) ∧
      (∀ r ∈ (qmOuter impls is new primes used done).2.1, RowInv w tbl r) := by
  induction is with
  | nil =>
    intro new primes used done hnew hprimes
    constructor
    · intro r hr
      exact hnew r (by simpa [qmOuter] using hr)
    · intro r hr
      exact hprimes r (by simpa [qmOuter] using hr)
  | cons i is2 ih =>
    intro new primes used done hnew hprimes
    cases hi : impls[i]? with
    | none =>
      rw [qmOuter_step_none hi]
      exact ih _ _ _ _ hnew hprimes
    | some x =>
      rcases hq : qmInner impls x primes
        (List.range' (i + 1) (impls.length - i - 1)) new used false with
        ⟨new1, used1, fnd⟩
      have hx : RowInv w tbl x := himpls x (List.getElem?_mem hi)
      have hnew1 : ∀ r ∈ new1, RowInv w tbl r := by
        intro r hr
        have := qmInner_newInv impls x primes himpls hx
          (List.range' (i + 1) (impls.length - i - 1)) new used false hnew r
        rw [hq] at this
        exact this hr
      rw [qmOuter_step_some hi hq]
      by_cases hf : fnd = true
      · rw [if_pos hf]
        exact ih _ _ _ _ hnew1 hprimes
      · rw [if_neg hf]
        by_cases hu : used1.getD i false = true
        · rw [if_pos hu]
          exact ih _ _ _ _ hnew1 hprimes
        · rw [if_neg hu]
          refine ih _ _ _ _ hnew1 ?_
          intro r hr
          rcases List.mem_append.mp hr with h | h
          · exact hprimes r h
          · have : r = x := by simpa using h
            subst this
            exact hx

theorem qmOuter_care {w : Nat} {tbl : List Bool} (impls : List Row) (c : Nat)
    (himpls : ∀ r ∈ impls, RowInv w tbl r)
    (hcall : ∀ r ∈ impls, careCount r.values = c) (is : List Nat) :
    ∀ (new primes : List Row) (used : List Bool) (done : Bool),
      (∀ r ∈ new, careCount r.values + 1 = c) →
      ∀ r ∈ (qmOuter impls is new primes used done).1,
        careCount r.values + 1 = c := by
  induction is with
  | nil =>
    intro new primes used done hnew r hr
    exact hnew r (by simpa [qmOuter] using hr)
  | cons i is2 ih =>
    intro new primes used done hnew r hr
    cases hi : impls[i]? with
    | none =>
      rw [qmOuter_step_none hi] at hr
      exact ih _ _ _ _ hnew r hr
    | some x =>
      rcases hq : qmInner impls x primes
        (List.range' (i + 1) (impls.length - i - 1)) new used false with
        ⟨new1, used1, fnd⟩
      have hx : RowInv w tbl x := himpls x (List.getElem?_mem hi)
      have hnew1 : ∀ r2 ∈ new1, careCount r2.values + 1 = c := by
        intro r2 hr2
        have := qmInner_care impls x primes c himpls hx
          (hcall x (List.getElem?_mem hi))
          (List.range' (i + 1) (impls.length - i - 1)) new used false hnew r2
        rw [hq] at this
        exact this hr2
      rw [qmOuter_step_some hi hq] at hr
      by_cases hf : fnd = true
      · rw [if_pos hf] at hr
        exact ih _ _ _ _ hnew1 r hr
      · rw [if_neg hf] at hr
        by_cases hu : used1.getD i false = true
        · rw [if_pos hu] at hr
          exact ih _ _ _ _ hnew1 r hr
        · rw [if_neg hu] at hr
          exact ih _ _ _ _ hnew1 r hr

end Ex06

namespace Ex06

theorem qmOuter_cover (impls : List Row) (is : List Nat) :
    ∀ (new primes : List Row) (used : List Bool) (done : Bool),
      (∀ j, used.getD j false = true → ∃ y, impls[j]? = some y ∧
        ∀ i ∈ y.id, covers new i ∨ covers primes i) →
      (∀ k, k < impls.length → k ∉ is → ∃ y, impls[k]? = some y ∧
        ∀ i ∈ y.id, covers new i ∨ covers primes i) →
      ∀ k, k < impls.length →
        ∃ y, impls[k]? = some y ∧ ∀ i ∈ y.id,
          covers (qmOuter impls is new primes used done).1 i ∨
            covers (qmOuter impls is new primes used done).2.1 i := by
  induction is with
  | nil =>
    intro new primes used done hused hproc k hk
    obtain ⟨y, hy, hcov⟩ := hproc k hk (by simp)
    refine ⟨y, hy, ?_⟩
    intro i hi
    rcases hcov i hi with h | h
    · exact .inl (by simpa [qmOuter] using h)
    · exact .inr (by simpa [qmOuter] using h)
  | cons i0 is2 ih =>
    intro new primes used done hused hproc k hk
    cases hi : impls[i0]? with
    | none =>
      rw [qmOuter_step_none hi]
      refine ih _ _ _ _ hused ?_ k hk
      intro k2 hk2 hk2n
      refine hproc k2 hk2 ?_
      intro hmem
      rcases List.mem_cons.mp hmem with rfl | h
      · rw [List.getElem?_eq_none_iff] at hi
        omega
      · exact hk2n h
    | some x =>
      rcases hq : qmInner impls x primes
        (List.range' (i0 + 1) (impls.length - i0 - 1)) new used false with
        ⟨new1, used1, fnd⟩
      have hmono : ∀ r ∈ new, r ∈ new1 := by
        intro r hr
        have := qmInner_newMono impls x primes
          (List.range' (i0 + 1) (impls.length - i0 - 1)) new used false r hr
        rw [hq] at this
        exact this
      have hused1 : ∀ j, used1.getD j false = true → ∃ y, impls[j]? = some y ∧
          ∀ i2 ∈ y.id, covers new1 i2 ∨ covers primes i2 := by
        intro j hj
        have huc := qmInner_usedCover impls x primes
          (List.range' (i0 + 1) (impls.length - i0 - 1)) new used false j
        rw [hq] at huc
        rcases huc hj with hold | ⟨y, hy, hcov⟩
        · obtain ⟨y, hy, hcov⟩ := hused j hold
          exact ⟨y, hy, fun i2 hi2 => (hcov i2 hi2).imp (covers_mono hmono) id⟩
        · exact ⟨y, hy, hcov⟩
      rw [qmOuter_step_some hi hq]
      by_cases hf : fnd = true
      · rw [if_pos hf]
        have hxcov : ∀ i2 ∈ x.id, covers new1 i2 ∨ covers primes i2 := by
          have hfc := qmInner_foundCover impls x primes
            (List.range' (i0 + 1) (impls.length - i0 - 1)) new used false
          rw [hq] at hfc
          rcases hfc hf with hcontra | h
          · cases hcontra
          · exact h
        refine ih _ _ _ _ hused1 ?_ k hk
        intro k2 hk2 hk2n
        by_cases hk2i : k2 = i0
        · subst hk2i
          exact ⟨x, hi, hxcov⟩
        · obtain ⟨y, hy, hcov⟩ := hproc k2 hk2 (by
            intro hmem
            rcases List.mem_cons.mp hmem with h | h
            · exact hk2i h
            · exact hk2n h)
          exact ⟨y, hy, fun i2 hi2 => (hcov i2 hi2).imp (covers_mono hmono) id⟩
      · rw [if_neg hf]
        have hf2 : fnd = false := by simpa using hf
        have hnf := qmInner_noFire impls x primes
          (List.range' (i0 + 1) (impls.length - i0 - 1)) new used false
        rw [hq] at hnf
        obtain ⟨-, hnew_eq, hused_eq⟩ := hnf hf2
        subst hnew_eq
        subst hused_eq
        by_cases hu : used1.getD i0 false = true
        · rw [if_pos hu]
          refine ih _ _ _ _ hused1 ?_ k hk
          intro k2 hk2 hk2n
          by_cases hk2i : k2 = i0
          · subst hk2i
            exact hused k2 hu
          · obtain ⟨y, hy, hcov⟩ := hproc k2 hk2 (by
              intro hmem
              rcases List.mem_cons.mp hmem with h | h
              · exact hk2i h
              · exact hk2n h)
            exact ⟨y, hy, hcov⟩
        · rw [if_neg hu]
          have hmonoP : ∀ r ∈ primes, r ∈ primes ++ [x] :=
            fun r hr => List.mem_append_left _ hr
          refine ih _ _ _ _ ?_ ?_ k hk
          · intro j hj
            obtain ⟨y, hy, hcov⟩ := hused j hj
            exact ⟨y, hy, fun i2 hi2 => (hcov i2 hi2).imp id (covers_mono hmonoP)⟩
          · intro k2 hk2 hk2n
            by_cases hk2i : k2 = i0
            · subst hk2i
              refine ⟨x, hi, ?_⟩
              intro i2 hi2
              exact .inr ⟨x, by simp, hi2⟩
            · obtain ⟨y, hy, hcov⟩ := hproc k2 hk2 (by
                intro hmem
                rcases List.mem_cons.mp hmem with h | h
                · exact hk2i h
                · exact hk2n h)
              exact ⟨y, hy, fun i2 hi2 => (hcov i2 hi2).imp id (covers_mono hmonoP)⟩

theorem qmOuter_done (impls : List Row) (is : List Nat) :
    ∀ (new primes : List Row) (used : List Bool) (done : Bool),
      (done = true → (∀ j, used.getD j false = false) ∧
        (∀ k, k < impls.length → k ∉ is →
          ∃ x, impls[k]? = some x ∧ x ∈ primes)) →
      (qmOuter impls is new primes used done).2.2 = true →
      ∀ k, k < impls.length →
        ∃ x, impls[k]? = some x ∧
          x ∈ (qmOuter impls is new primes used done).2.1 := by
  induction is with
  | nil =>
    intro new primes used done hinv hdone k hk
    have hd : done = true := by simpa [qmOuter] using hdone
    obtain ⟨-, hproc⟩ := hinv hd
    obtain ⟨x, hx, hxp⟩ := hproc k hk (by simp)
    exact ⟨x, hx, by simpa [qmOuter] using hxp⟩
  | cons i0 is2 ih =>
    intro new primes used done hinv hdone k hk
    cases hi : impls[i0]? with
    | none =>
      rw [qmOuter_step_none hi] at hdone ⊢
      refine ih _ _ _ _ ?_ hdone k hk
      intro hd
      obtain ⟨hu, hproc⟩ := hinv hd
      refine ⟨hu, ?_⟩
      intro k2 hk2 hk2n
      refine hproc k2 hk2 ?_
      intro hmem
      rcases List.mem_cons.mp hmem with rfl | h
      · rw [List.getElem?_eq_none_iff] at hi
        omega
      · exact hk2n h
    | some x =>
      rcases hq : qmInner impls x primes
        (List.range' (i0 + 1) (impls.length - i0 - 1)) new used false with
        ⟨new1, used1, fnd⟩
      rw [qmOuter_step_some hi hq] at hdone ⊢
      by_cases hf : fnd = true
      · rw [if_pos hf] at hdone ⊢
        rw [qmOuter_doneMono] at hdone
        cases hdone
      · rw [if_neg hf] at hdone ⊢
        have hf2 : fnd = false := by simpa using hf
        have hnf := qmInner_noFire impls x primes
          (List.range' (i0 + 1) (impls.length - i0 - 1)) new used false
        rw [hq] at hnf
        obtain ⟨-, hnew_eq, hused_eq⟩ := hnf hf2
        subst hnew_eq
        subst hused_eq
        by_cases hu : used1.getD i0 false = true
        · rw [if_pos hu] at hdone ⊢
          refine ih _ _ _ _ ?_ hdone k hk
          intro hd
          obtain ⟨husedF, -⟩ := hinv hd
          rw [husedF i0] at hu
          cases hu
        · rw [if_neg hu] at hdone ⊢
          refine ih _ _ _ _ ?_ hdone k hk
          intro hd
          obtain ⟨husedF, hproc⟩ := hinv hd
          refine ⟨husedF, ?_⟩
          intro k2 hk2 hk2n
          by_cases hk2i : k2 = i0
          · subst hk2i
            exact ⟨x, hi, by simp⟩
          · obtain ⟨x2, hx2, hx2p⟩ := hproc k2 hk2 (by
              intro hmem
              rcases List.mem_cons.mp hmem with h | h
              · exact hk2i h
              · exact hk2n h)
            exact ⟨x2, hx2, List.mem_append_left _ hx2p⟩

theorem qmOuter_noMerge (impls : List Row)
    (hnm : ∀ x ∈ impls, ∀ y ∈ impls, ¬ x.can_merge y = true) (is : List Nat) :
    ∀ (new primes : List Row) (used : List Bool) (done : Bool),
      (qmOuter impls is new primes used done).2.2 = done := by
  induction is with
  | nil =>
    intro new primes used done
    simp [qmOuter]
  | cons i0 is2 ih =>
    intro new primes used done
    cases hi : impls[i0]? with
    | none =>
      rw [qmOuter_step_none hi]
      exact ih _ _ _ _
    | some x =>
      rcases hq : qmInner impls x primes
        (List.range' (i0 + 1) (impls.length - i0 - 1)) new used false with
        ⟨new1, used1, fnd⟩
      have hfire := qmInner_fireNeedsMerge impls x primes
        (List.range' (i0 + 1) (impls.length - i0 - 1)) new used false
      rw [hq] at hfire
      have hf2 : fnd = false := by
        cases hfnd : fnd
        · rfl
        · rcases hfire hfnd with h | ⟨y, hy, hcm⟩
          · cases h
          · exact absurd hcm (hnm x (List.getElem?_mem hi) y hy)
      rw [qmOuter_step_some hi hq, hf2]
      rw [if_neg (by simp : ¬ (false = true))]
      by_cases hu : used1.getD i0 false = true
      · rw [if_pos hu]
        exact ih _ _ _ _
      · rw [if_neg hu]
        exact ih _ _ _ _

end Ex06

namespace Ex06

theorem getD_replicate_false (n j : Nat) :
    (List.replicate n false).getD j false = false := by
  rw [List.getD_eq_getElem?_getD, List.getElem?_replicate]
  split <;> simp

theorem exists_getElem?_of_mem {r : Row} {l : List Row} (h : r ∈ l) :
    ∃ k : Nat, l[k]? = some r := by
  obtain ⟨n, h2⟩ := List.get_of_mem h
  exact ⟨n, by simp [← h2]⟩

theorem lt_of_getElem?_some {l : List Row} {k : Nat} {r : Row}
    (h : l[k]? = some r) : k < l.length := by
  rw [List.getElem?_eq_some_iff] at h
  obtain ⟨h2, -⟩ := h
  exact h2

theorem qmPass_inv {w : Nat} {tbl : List Bool} (impls primes : List Row)
    (hi : ∀ r ∈ impls, RowInv w tbl r) (hp : ∀ r ∈ primes, RowInv w tbl r) :
    (∀ r ∈ (qmPass impls primes).1, RowInv w tbl r) ∧
    (∀ r ∈ (qmPass impls primes).2.1, RowInv w tbl r) := by
  simp only [qmPass]
  exact qmOuter_inv impls hi (List.range impls.length) [] primes
    (List.replicate impls.length false) true (by simp) hp

theorem qmPass_care {w : Nat} {tbl : List Bool} (impls primes : List Row)
    (c : Nat) (hi : ∀ r ∈ impls, RowInv w tbl r)
    (hc : ∀ r ∈ impls, careCount r.values = c) :
    ∀ r ∈ (qmPass impls primes).1, careCount r.values + 1 = c := by
  simp only [qmPass]
  exact qmOuter_care impls c hi hc (List.range impls.length) [] primes
    (List.replicate impls.length false) true (by simp)

theorem qmPass_cover (impls primes : List Row) :
    ∀ r ∈ impls, ∀ i ∈ r.id,
      covers (qmPass impls primes).1 i ∨
        covers (qmPass impls primes).2.1 i := by
  intro r hr i hi
  obtain ⟨k, hk⟩ := exists_getElem?_of_mem hr
  have hklen : k < impls.length := lt_of_getElem?_some hk
  simp only [qmPass]
  obtain ⟨y, hy, hcov⟩ := qmOuter_cover impls (List.range impls.length) []
    primes (List.replicate impls.length false) true
    (by
      intro j hj
      rw [getD_replicate_false] at hj
      cases hj)
    (by
      intro k2 hk2 hk2n
      exact absurd (List.mem_range.mpr hk2) hk2n)
    k hklen
  have hry : r = y := by
    rw [hk] at hy
    injection hy
  subst hry
  exact hcov i hi

theorem qmPass_primesMono (impls primes : List Row) (p : Row)
    (hp : p ∈ primes) : p ∈ (qmPass impls primes).2.1 := by
  simp only [qmPass]
  exact qmOuter_primesMono impls (List.range impls.length) [] primes
    (List.replicate impls.length false) true p hp

theorem qmPass_done (impls primes : List Row)
    (h : (qmPass impls primes).2.2 = true) :
    ∀ x ∈ impls, x ∈ (qmPass impls primes).2.1 := by
  intro x hx
  obtain ⟨k, hk⟩ := exists_getElem?_of_mem hx
  have hklen : k < impls.length := lt_of_getElem?_some hk
  simp only [qmPass] at h ⊢
  obtain ⟨x2, hx2, hx2p⟩ := qmOuter_done impls (List.range impls.length) []
    primes (List.replicate impls.length false) true
    (by
      intro hdone2
      refine ⟨fun j => getD_replicate_false _ j, ?_⟩
      intro k2 hk2 hk2n
      exact absurd (List.mem_range.mpr hk2) hk2n)
    h k hklen
  have : x = x2 := by
    rw [hk] at hx2
    injection hx2
  subst this
  exact hx2p

theorem u32_zero_of_careCount_zero {l : List OptionBool}
    (h : careCount l = 0) : u32fromList l = 0 := by
  induction l with
  | nil => rfl
  | cons v rest ih =>
    rw [careCount_cons] at h
    have hv : v = .dontCare := by
      by_contra hne
      rw [if_neg hne] at h
      omega
    rw [if_pos hv] at h
    rw [u32fromList, ih (by omega), hv]
    rfl

theorem can_merge_false_zero {r1 r2 : Row} (h1 : careCount r1.values = 0)
    (h2 : careCount r2.values = 0) : ¬ r1.can_merge r2 = true := by
  intro hcm
  obtain ⟨-, hcnt⟩ := can_merge_parts hcm
  rw [Row.diff, u32from_eq2, u32from_eq2, u32_zero_of_careCount_zero h1,
    u32_zero_of_careCount_zero h2] at hcnt
  simp [countOnes, countOnesAux] at hcnt

theorem qmPass_noMerge (impls primes : List Row)
    (hnm : ∀ x ∈ impls, ∀ y ∈ impls, ¬ x.can_merge y = true) :
    (qmPass impls primes).2.2 = true := by
  simp only [qmPass]
  rw [qmOuter_noMerge impls hnm]

theorem qmLoop_total {w : Nat} {tbl : List Bool} :
    ∀ (fuel : Nat) (impls primes : List Row) (c : Nat),
      (∀ r ∈ impls, RowInv w tbl r) → (∀ r ∈ primes, RowInv w tbl r) →
      (∀ r ∈ impls, careCount r.values = c) → c < fuel →
      ∃ P, qmLoop fuel impls primes = some P := by
  intro fuel
  induction fuel with
  | zero =>
    intro impls primes c hinv hpinv hcare hc
    omega
  | succ f ih =>
    intro impls primes c hinv hpinv hcare hc
    rcases hp : qmPass impls primes with ⟨new, primes1, done⟩
    cases done with
    | true =>
      refine ⟨primes1, ?_⟩
      rw [qmLoop, hp]
    | false =>
      have hc1 : c ≠ 0 := by
        intro hc0
        subst hc0
        have hT : (qmPass impls primes).2.2 = true := by
          apply qmPass_noMerge
          intro x hx y hy
          exact can_merge_false_zero (hcare x hx) (hcare y hy)
        rw [hp] at hT
        cases hT
      have hinv1 : ∀ r ∈ new, RowInv w tbl r := by
        have := (qmPass_inv impls primes hinv hpinv).1
        rw [hp] at this
        exact this
      have hpinv1 : ∀ r ∈ primes1, RowInv w tbl r := by
        have := (qmPass_inv impls primes hinv hpinv).2
        rw [hp] at this
        exact this
      have hcare1 : ∀ r ∈ new, careCount r.values = c - 1 := by
        intro r hr
        have := qmPass_care impls primes c hinv hcare
        rw [hp] at this
        have := this r hr
        omega
      obtain ⟨P, hP⟩ := ih new primes1 (c - 1) hinv1 hpinv1 hcare1 (by omega)
      refine ⟨P, ?_⟩
      rw [qmLoop, hp]
      exact hP

theorem qmLoop_inv {w : Nat} {tbl : List Bool} :
    ∀ (fuel : Nat) (impls primes P : List Row),
      (∀ r ∈ impls, RowInv w tbl r) → (∀ r ∈ primes, RowInv w tbl r) →
      qmLoop fuel impls primes = some P → ∀ r ∈ P, RowInv w tbl r := by
  intro fuel
  induction fuel with
  | zero =>
    intro impls primes P hinv hpinv h
    cases h
  | succ f ih =>
    intro impls primes P hinv hpinv h
    rcases hp : qmPass impls primes with ⟨new, primes1, done⟩
    rw [qmLoop, hp] at h
    cases done with
    | true =>
      have hP : primes1 = P := by
        injection h
      subst hP
      have := (qmPass_inv impls primes hinv hpinv).2
      rw [hp] at this
      exact this
    | false =>
      have hinv1 : ∀ r ∈ new, RowInv w tbl r := by
        have := (qmPass_inv impls primes hinv hpinv).1
        rw [hp] at this
        exact this
      have hpinv1 : ∀ r ∈ primes1, RowInv w tbl r := by
        have := (qmPass_inv impls primes hinv hpinv).2
        rw [hp] at this
        exact this
      exact ih new primes1 P hinv1 hpinv1 h

theorem qmLoop_cover :
    ∀ (fuel : Nat) (impls primes P : List Row),
      qmLoop fuel impls primes = some P →
      ∀ i, (covers impls i ∨ covers primes i) → covers P i := by
  intro fuel
  induction fuel with
  | zero =>
    intro impls primes P h
    cases h
  | succ f ih =>
    intro impls primes P h i hc
    rcases hp : qmPass impls primes with ⟨new, primes1, done⟩
    rw [qmLoop, hp] at h
    cases done with
    | true =>
      have hP : primes1 = P := by
        injection h
      subst hP
      rcases hc with ⟨r, hr, hir⟩ | hcp
      · have hdone : (qmPass impls primes).2.2 = true := by
          rw [hp]
        have hrm := qmPass_done impls primes hdone r hr
        rw [hp] at hrm
        exact ⟨r, hrm, hir⟩
      · refine covers_mono ?_ hcp
        intro r hr
        have := qmPass_primesMono impls primes r hr
        rw [hp] at this
        exact this
    | false =>
      refine ih new primes1 P h i ?_
      rcases hc with ⟨r, hr, hir⟩ | hcp
      · have := qmPass_cover impls primes r hr i hir
        rw [hp] at this
        exact this.imp (fun hcn => hcn) (fun hcp2 => hcp2)
      · right
        refine covers_mono ?_ hcp
        intro r hr
        have := qmPass_primesMono impls primes r hr
        rw [hp] at this
        exact this

end Ex06

namespace Ex06

theorem length_filter_eq {α : Type} (p : α → Bool) :
    ∀ l : List α, (l.filter p).length = l.length → ∀ b ∈ l, p b = true := by
  intro l
  induction l with
  | nil => simp
  | cons a t ih =>
    intro h b hb
    rw [List.filter_cons] at h
    by_cases hpa : p a = true
    · rw [if_pos hpa] at h
      simp only [List.length_cons] at h
      rcases List.mem_cons.mp hb with rfl | hb2
      · exact hpa
      · exact ih (by omega) b hb2
    · rw [if_neg hpa] at h
      have hle := List.length_filter_le p t
      simp only [List.length_cons] at h
      omega

theorem markIds_length (ids : List Nat) :
    ∀ cov : List Bool, (markIds cov ids).length = cov.length := by
  induction ids with
  | nil => intro cov; rfl
  | cons x xs ih =>
    intro cov
    show (markIds (cov.set x true) xs).length = cov.length
    rw [ih, List.length_set]

theorem markIds_getD (ids : List Nat) :
    ∀ (cov : List Bool) (i : Nat),
      ((markIds cov ids).getD i false = true ↔
        cov.getD i false = true ∨ (i ∈ ids ∧ i < cov.length)) := by
  induction ids with
  | nil =>
    intro cov i
    simp [markIds]
  | cons x xs ih =>
    intro cov i
    show (markIds (cov.set x true) xs).getD i false = true ↔ _
    rw [ih, getD_set_true, List.length_set]
    constructor
    · rintro ((⟨rfl, hlt⟩ | hold) | ⟨hmem, hlt⟩)
      · exact .inr ⟨by simp, hlt⟩
      · exact .inl hold
      · exact .inr ⟨by simp [hmem], hlt⟩
    · rintro (hold | ⟨hmem, hlt⟩)
      · exact .inl (.inr hold)
      · rcases List.mem_cons.mp hmem with rfl | hmem2
        · exact .inl (.inl ⟨rfl, hlt⟩)
        · exact .inr ⟨hmem2, hlt⟩

theorem essentialScan_essMono (primes : List Row) :
    ∀ (frs ess : List Row) (cov : List Bool) (e : Row),
      e ∈ ess → e ∈ (essentialScan primes frs ess cov).1 := by
  intro frs
  induction frs with
  | nil =>
    intro ess cov e he
    simpa [essentialScan] using he
  | cons fr frs ih =>
    intro ess cov e he
    rw [essentialScan]
    rcases hfil : primes.filter (fun p => p.id.contains (fr.id.headD 0)) with
      _ | ⟨p, _ | ⟨q, rest⟩⟩ <;> rw [hfil] <;> dsimp only
    · exact ih _ _ e he
    · by_cases hc : ess.contains p = true
      · rw [if_pos hc]
        exact ih _ _ e he
      · rw [if_neg hc]
        exact ih _ _ e (List.mem_append_left _ he)
    · exact ih _ _ e he

theorem essentialScan_mem (primes : List Row) :
    ∀ (frs ess : List Row) (cov : List Bool) (e : Row),
      e ∈ (essentialScan primes frs ess cov).1 → e ∈ ess ∨ e ∈ primes := by
  intro frs
  induction frs with
  | nil =>
    intro ess cov e he
    exact .inl (by simpa [essentialScan] using he)
  | cons fr frs ih =>
    intro ess cov e he
    rw [essentialScan] at he
    rcases hfil : primes.filter (fun p => p.id.contains (fr.id.headD 0)) with
      _ | ⟨p, _ | ⟨q, rest⟩⟩ <;> rw [hfil] at he <;> dsimp only at he
    · exact ih _ _ e he
    ·
      by_cases hc : ess.contains p = true
      · rw [if_pos hc] at he
        exact ih _ _ e he
      · rw [if_neg hc] at he
        rcases ih _ _ e he with h | h
        · rcases List.mem_append.mp h with h2 | h2
          · exact .inl h2
          · have : e = p := by simpa using h2
            subst this
            have hpf : e ∈ primes.filter
                (fun p2 => p2.id.contains (fr.id.headD 0)) := by
              rw [hfil]
              simp
            exact .inr (List.mem_filter.mp hpf).1
        · exact .inr h
    · exact ih _ _ e he

theorem essentialScan_covered (primes : List Row) :
    ∀ (frs ess : List Row) (cov : List Bool),
      (∀ i, cov.getD i false = true → covers ess i) →
      ∀ i, (essentialScan primes frs ess cov).2.getD i false = true →
        covers (essentialScan primes frs ess cov).1 i := by
  intro frs
  induction frs with
  | nil =>
    intro ess cov hpre i hi
    have h1 : cov.getD i false = true := by simpa [essentialScan] using hi
    have := hpre i h1
    simpa [essentialScan] using this
  | cons fr frs ih =>
    intro ess cov hpre i hi
    rw [essentialScan] at hi ⊢
    rcases hfil : primes.filter (fun p => p.id.contains (fr.id.headD 0)) with
      _ | ⟨p, _ | ⟨q, rest⟩⟩ <;> rw [hfil] at hi ⊢ <;> dsimp only at hi ⊢
    · exact ih _ _ hpre i hi
    · by_cases hc : ess.contains p = true
      · rw [if_pos hc] at hi ⊢
        exact ih _ _ hpre i hi
      · rw [if_neg hc] at hi ⊢
        refine ih _ _ ?_ i hi
        intro i2 hi2
        rcases (markIds_getD p.id cov i2).mp hi2 with hold | ⟨hmem, -⟩
        · obtain ⟨r, hr, hir⟩ := hpre i2 hold
          exact ⟨r, List.mem_append_left _ hr, hir⟩
        · exact ⟨p, by simp, hmem⟩
    · exact ih _ _ hpre i hi

theorem matches_of_allDC {n a : Nat} :
    ∀ (l : List OptionBool) (j : Nat), careCount l = 0 →
      MatchesFrom n a j l := by
  intro l
  induction l with
  | nil =>
    intro j hc
    exact trivial
  | cons v rest ih =>
    intro j hc
    rw [careCount_cons] at hc
    have hv : v = .dontCare := by
      by_contra hne
      rw [if_neg hne] at hc
      omega
    rw [if_pos hv] at hc
    subst hv
    exact ⟨trivial, ih (j + 1) (by omega)⟩

theorem careCount_all (l : List OptionBool)
    (h : ∀ v ∈ l, v ≠ .dontCare) : careCount l = l.length := by
  induction l with
  | nil => rfl
  | cons v rest ih =>
    rw [careCount_cons, if_neg (h v (by simp))]
    rw [ih (fun v2 hv2 => h v2 (List.mem_cons_of_mem _ hv2))]
    simp [List.length_cons]
    omega

theorem careCount_new (i w : Nat) : careCount (Row.new i w).values = w := by
  rw [careCount_all]
  · exact Row.new_length i w
  · intro v hv
    rw [Row.new] at hv
    simp at hv
    obtain ⟨j, -, hj⟩ := hv
    rw [← hj]
    unfold obOfBool
    split <;> simp

end Ex06

namespace Ex06

theorem ucAlphabet_facts :
    ∀ c ∈ ucAlphabet, ('A' ≤ c ∧ c ≤ 'Z') ∧ ¬(c = '0' ∨ c = '1') ∧ c ≠ '!' := by
  decide

theorem processChar_uc {c : Char} (h : c ∈ ucAlphabet) (st : List Node) :
    processChar st c = .ok (.mk 0 (.var c) :: st) := by
  obtain ⟨hAZ, h01, hbang⟩ := ucAlphabet_facts c h
  unfold processChar
  rw [if_neg h01, if_pos hAZ]

theorem varList_getD_uc (s : List Char) (j : Nat) :
    (varList s).getD j 'A' ∈ ucAlphabet := by
  by_cases hj : j < (varList s).length
  · rw [List.getD_eq_getElem _ _ hj]
    have hmem : (varList s)[j] ∈ varList s := List.getElem_mem hj
    exact (List.mem_filter.mp hmem).1
  · rw [List.getD_eq_default _ _ (by omega)]
    decide

/-- The operand-stack effect of one emitted clause: the nodes pushed by
its literal characters, in emission order. -/
def litNodes (vl : List Char) : Nat → List OptionBool → List Node
  | _, [] => []
  | j, v :: rest =>
    (match v with
     | .ofalse => [Node.mk 0 (.var (vl.getD j 'A'))]
     | .otrue => [Node.mk 1 (.var (vl.getD j 'A'))]
     | .dontCare => []) ++ litNodes vl (j + 1) rest

theorem litNodes_length (vl : List Char) :
    ∀ (l : List OptionBool) (j : Nat),
      (litNodes vl j l).length = careCount l := by
  intro l
  induction l with
  | nil =>
    intro j
    rfl
  | cons v rest ih =>
    intro j
    cases v with
    | ofalse =>
      show ([Node.mk 0 (.var (vl.getD j 'A'))] ++ litNodes vl (j + 1) rest).length
        = careCount (.ofalse :: rest)
      rw [careCount_cons, List.length_append, ih (j + 1)]
      simp
    | otrue =>
      show ([Node.mk 1 (.var (vl.getD j 'A'))] ++ litNodes vl (j + 1) rest).length
        = careCount (.otrue :: rest)
      rw [careCount_cons, List.length_append, ih (j + 1)]
      simp
    | dontCare =>
      show ([] ++ litNodes vl (j + 1) rest).length = careCount (.dontCare :: rest)
      rw [careCount_cons, List.length_append, ih (j + 1)]
      simp

theorem runParse_clauseLits (vl : List Char)
    (hvl : ∀ j : Nat, vl.getD j 'A' ∈ ucAlphabet) :
    ∀ (l : List OptionBool) (j : Nat) (st : List Node),
      runParse (clauseLits vl j l) st =
        .ok ((litNodes vl j l).reverse ++ st) := by
  intro l
  induction l with
  | nil =>
    intro j st
    simp [clauseLits, litNodes, runParse]
  | cons v rest ih =>
    intro j st
    cases v with
    | dontCare =>
      show runParse ([] ++ clauseLits vl (j + 1) rest) st = _
      rw [List.nil_append, ih (j + 1) st]
      rfl
    | ofalse =>
      show runParse ([vl.getD j 'A'] ++ clauseLits vl (j + 1) rest) st = _
      have h1 : runParse [vl.getD j 'A'] st =
          .ok (Node.mk 0 (.var (vl.getD j 'A')) :: st) := by
        rw [runParse, processChar_uc (hvl j)]
        rfl
      rw [runParse_append_ok _ h1, ih (j + 1)]
      show Except.ok ((litNodes vl (j + 1) rest).reverse
          ++ Node.mk 0 (.var (vl.getD j 'A')) :: st)
        = Except.ok ((([Node.mk 0 (.var (vl.getD j 'A'))]
            ++ litNodes vl (j + 1) rest)).reverse ++ st)
      rw [List.reverse_append]
      simp
    | otrue =>
      show runParse ([vl.getD j 'A', '!'] ++ clauseLits vl (j + 1) rest) st = _
      have h1 : runParse [vl.getD j 'A', '!'] st =
          .ok (Node.mk 1 (.var (vl.getD j 'A')) :: st) := by
        rw [runParse, processChar_uc (hvl j)]
        rfl
      rw [runParse_append_ok _ h1, ih (j + 1)]
      show Except.ok ((litNodes vl (j + 1) rest).reverse
          ++ Node.mk 1 (.var (vl.getD j 'A')) :: st)
        = Except.ok ((([Node.mk 1 (.var (vl.getD j 'A'))]
            ++ litNodes vl (j + 1) rest)).reverse ++ st)
      rw [List.reverse_append]
      simp

theorem runParse_replicate_binop (opc : Char) (op : BinOp)
    (hop : charBinOp opc = some op) (h01 : ¬(opc = '0' ∨ opc = '1'))
    (hAZ : ¬('A' ≤ opc ∧ opc ≤ 'Z')) (hbang : ¬(opc = '!')) :
    ∀ (xs : List Node) (acc : Node) (st : List Node),
      runParse (List.replicate xs.length opc) (acc :: (xs ++ st)) =
        .ok (xs.foldl (fun a x => Node.mk 0 (.binary op [x, a])) acc :: st) := by
  intro xs
  induction xs with
  | nil =>
    intro acc st
    simp [runParse]
  | cons x xs ih =>
    intro acc st
    have hpc : processChar (acc :: (x :: xs ++ st)) opc =
        .ok (Node.mk 0 (.binary op [x, acc]) :: (xs ++ st)) := by
      unfold processChar
      rw [if_neg h01, if_neg hAZ, if_neg hbang, hop]
      rfl
    show runParse (opc :: List.replicate (xs.length) opc) _ = _
    rw [runParse, hpc]
    exact ih _ st

theorem eval_orFold (env : Char → Bool) :
    ∀ (xs : List Node) (acc : Node),
      Node.eval env (xs.foldl (fun a x => Node.mk 0 (.binary .or [x, a])) acc)
        = (acc.eval env || xs.any (fun x => x.eval env)) := by
  intro xs
  induction xs with
  | nil =>
    intro acc
    simp
  | cons x xs ih =>
    intro acc
    rw [List.foldl_cons, ih]
    have : Node.eval env (Node.mk 0 (.binary .or [x, acc]))
        = (x.eval env || acc.eval env) := by
      simp [Node.eval, Literal.eval, BinOp.apply]
    rw [this, List.any_cons]
    cases x.eval env <;> cases acc.eval env <;> simp

theorem eval_andFold (env : Char → Bool) :
    ∀ (xs : List Node) (acc : Node),
      Node.eval env (xs.foldl (fun a x => Node.mk 0 (.binary .and [x, a])) acc)
        = (acc.eval env && xs.all (fun x => x.eval env)) := by
  intro xs
  induction xs with
  | nil =>
    intro acc
    simp
  | cons x xs ih =>
    intro acc
    rw [List.foldl_cons, ih]
    have : Node.eval env (Node.mk 0 (.binary .and [x, acc]))
        = (x.eval env && acc.eval env) := by
      simp [Node.eval, Literal.eval, BinOp.apply]
    rw [this, List.all_cons]
    cases x.eval env <;> cases acc.eval env <;> simp

/-- The node an emitted clause parses to: the right-nested disjunction of
its pushed literal nodes (the stack top combines first). -/
def clauseNode (vl : List Char) (vals : List OptionBool) : Node :=
  match (litNodes vl 0 vals).reverse with
  | [] => Node.mk 0 (.const false)
  | acc :: xs => xs.foldl (fun a x => Node.mk 0 (.binary .or [x, a])) acc

theorem runParse_clauseOf (vl : List Char)
    (hvl : ∀ j : Nat, vl.getD j 'A' ∈ ucAlphabet)
    (vals : List OptionBool) (hcc : 1 ≤ careCount vals) (st : List Node) :
    runParse (clauseOf vl vals) st = .ok (clauseNode vl vals :: st) := by
  rw [clauseOf]
  rw [runParse_append_ok _ (runParse_clauseLits vl hvl vals 0 st)]
  rcases hrev : (litNodes vl 0 vals).reverse with _ | ⟨acc, xs⟩
  · exfalso
    have : (litNodes vl 0 vals).reverse.length = careCount vals := by
      rw [List.length_reverse, litNodes_length]
    rw [hrev] at this
    simp at this
    omega
  · have hlen : careCount vals - 1 = xs.length := by
      have : (litNodes vl 0 vals).reverse.length = careCount vals := by
        rw [List.length_reverse, litNodes_length]
      rw [hrev] at this
      simp at this
      omega
    rw [hlen]
    have hrep := runParse_replicate_binop '|' .or rfl (by decide) (by decide)
      (by decide) xs acc st
    rw [List.cons_append, hrep]
    have hcn : clauseNode vl vals
        = xs.foldl (fun a x => Node.mk 0 (.binary .or [x, a])) acc := by
      unfold clauseNode
      rw [hrev]
    rw [hcn]

theorem litNodes_eval (vl : List Char) (hnd : vl.Nodup) (a : Nat) :
    ∀ (l : List OptionBool) (j : Nat), j + l.length = vl.length →
      ((∀ nd ∈ litNodes vl j l, nd.eval (bitEnv vl a) = false) ↔
        MatchesFrom vl.length a j l) := by
  intro l
  induction l with
  | nil =>
    intro j hj
    simp [litNodes, MatchesFrom]
  | cons v rest ih =>
    intro j hj
    have hjlt : j < vl.length := by
      simp [List.length_cons] at hj
      omega
    have hgetd : vl.getD j 'A' = vl.get ⟨j, hjlt⟩ := by
      rw [List.getD_eq_getElem _ _ hjlt]
      simp
    have henv : bitEnv vl a (vl.getD j 'A') = a.testBit (vl.length - 1 - j) := by
      rw [hgetd]
      exact bitEnv_get vl hnd a j hjlt
    have hrest : (j + 1) + rest.length = vl.length := by
      simp [List.length_cons] at hj
      omega
    have harith : vl.length - 1 - j = vl.length - j - 1 := by omega
    cases v with
    | dontCare =>
      rw [litNodes, MatchesFrom]
      show ((∀ nd ∈ [] ++ litNodes vl (j + 1) rest, _) ↔ _)
      rw [List.nil_append, ih (j + 1) hrest]
      simp [obOk]
    | ofalse =>
      rw [litNodes, MatchesFrom]
      show ((∀ nd ∈ [Node.mk 0 (.var (vl.getD j 'A'))] ++ _, _) ↔ _)
      constructor
      · intro h
        constructor
        · have h0 := h (Node.mk 0 (.var (vl.getD j 'A'))) (by simp)
          have : Node.eval (bitEnv vl a) (Node.mk 0 (.var (vl.getD j 'A')))
              = bitEnv vl a (vl.getD j 'A') := by
            simp [Node.eval, Literal.eval]
          rw [this, henv] at h0
          show obOk .ofalse (bitAt a (vl.length - j - 1))
          rw [← harith]
          show bitAt a (vl.length - 1 - j) = 0
          rw [bitAt_eq_testBit, h0]
          rfl
        · refine (ih (j + 1) hrest).mp ?_
          intro nd hnd2
          exact h nd (List.mem_append_right _ hnd2)
      · rintro ⟨h0, h1⟩
        intro nd hnd2
        rcases List.mem_append.mp hnd2 with hL | hR
        · have : nd = Node.mk 0 (.var (vl.getD j 'A')) := by simpa using hL
          subst this
          have he : Node.eval (bitEnv vl a) (Node.mk 0 (.var (vl.getD j 'A')))
              = bitEnv vl a (vl.getD j 'A') := by
            simp [Node.eval, Literal.eval]
          rw [he, henv]
          have hb : bitAt a (vl.length - j - 1) = 0 := h0
          rw [← harith] at hb
          rw [bitAt_eq_testBit] at hb
          by_cases ht : a.testBit (vl.length - 1 - j) = true
          · rw [ht] at hb
            cases hb
          · simpa using ht
        · exact (ih (j + 1) hrest).mpr h1 nd hR
    | otrue =>
      rw [litNodes, MatchesFrom]
      show ((∀ nd ∈ [Node.mk 1 (.var (vl.getD j 'A'))] ++ _, _) ↔ _)
      constructor
      · intro h
        constructor
        · have h0 := h (Node.mk 1 (.var (vl.getD j 'A'))) (by simp)
          have : Node.eval (bitEnv vl a) (Node.mk 1 (.var (vl.getD j 'A')))
              = !(bitEnv vl a (vl.getD j 'A')) := by
            simp [Node.eval, Literal.eval]
          rw [this, henv] at h0
          show obOk .otrue (bitAt a (vl.length - j - 1))
          rw [← harith]
          show bitAt a (vl.length - 1 - j) = 1
          rw [bitAt_eq_testBit]
          have : a.testBit (vl.length - 1 - j) = true := by
            cases hb : a.testBit (vl.length - 1 - j)
            · rw [hb] at h0
              cases h0
            · rfl
          rw [this]
          rfl
        · refine (ih (j + 1) hrest).mp ?_
          intro nd hnd2
          exact h nd (List.mem_append_right _ hnd2)
      · rintro ⟨h0, h1⟩
        intro nd hnd2
        rcases List.mem_append.mp hnd2 with hL | hR
        · have : nd = Node.mk 1 (.var (vl.getD j 'A')) := by simpa using hL
          subst this
          have he : Node.eval (bitEnv vl a) (Node.mk 1 (.var (vl.getD j 'A')))
              = !(bitEnv vl a (vl.getD j 'A')) := by
            simp [Node.eval, Literal.eval]
          rw [he, henv]
          have hb : bitAt a (vl.length - j - 1) = 1 := h0
          rw [← harith, bitAt_eq_testBit] at hb
          by_cases ht : a.testBit (vl.length - 1 - j) = true
          · rw [ht]
            rfl
          · rw [Bool.not_eq_true] at ht
            rw [ht] at hb
            cases hb
        · exact (ih (j + 1) hrest).mpr h1 nd hR

theorem clauseNode_eval (vl : List Char) (hnd : vl.Nodup)
    (vals : List OptionBool) (hlen : vals.length = vl.length)
    (hcc : 1 ≤ careCount vals) (a : Nat) :
    ((clauseNode vl vals).eval (bitEnv vl a) = false ↔
      MatchesFrom vl.length a 0 vals) := by
  rw [clauseNode]
  rcases hrev : (litNodes vl 0 vals).reverse with _ | ⟨acc, xs⟩
  · exfalso
    have : (litNodes vl 0 vals).reverse.length = careCount vals := by
      rw [List.length_reverse, litNodes_length]
    rw [hrev] at this
    simp at this
    omega
  · rw [eval_orFold]
    have hmemiff : ∀ nd : Node, nd ∈ acc :: xs ↔ nd ∈ litNodes vl 0 vals := by
      intro nd
      rw [← hrev, List.mem_reverse]
    constructor
    · intro h
      refine (litNodes_eval vl hnd a vals 0 (by omega)).mp ?_
      intro nd hnd2
      have hmem := (hmemiff nd).mpr hnd2
      rcases List.mem_cons.mp hmem with rfl | hx
      · cases he : nd.eval (bitEnv vl a)
        · rfl
        · rw [he] at h
          cases h
      · cases he : nd.eval (bitEnv vl a)
        · rfl
        · exfalso
          have : xs.any (fun x => x.eval (bitEnv vl a)) = true :=
            List.any_eq_true.mpr ⟨nd, hx, he⟩
          rw [this] at h
          simp at h
    · intro h
      have hall := (litNodes_eval vl hnd a vals 0 (by omega)).mpr h
      have hacc : acc.eval (bitEnv vl a) = false :=
        hall acc ((hmemiff acc).mp (by simp))
      have hxs : xs.any (fun x => x.eval (bitEnv vl a)) = false := by
        rw [List.any_eq_false]
        intro x hx
        have := hall x ((hmemiff x).mp (by simp [hx]))
        simp [this]
      rw [hacc, hxs]
      rfl

end Ex06

namespace Ex06

theorem insertString_map (f : Row → List Char) (x : Row) :
    ∀ L : List Row, ∃ L2 : List Row, L2.Perm (x :: L) ∧
      insertString (f x) (L.map f) = L2.map f := by
  intro L
  induction L with
  | nil => exact ⟨[x], List.Perm.refl _, rfl⟩
  | cons hd tl ih =>
    show ∃ L2, _ ∧ insertString (f x) (f hd :: tl.map f) = L2.map f
    rw [insertString]
    split
    · exact ⟨x :: hd :: tl, List.Perm.refl _, rfl⟩
    · obtain ⟨L2, hperm, heq⟩ := ih
      refine ⟨hd :: L2, ?_, by rw [heq]; rfl⟩
      exact List.Perm.trans (hperm.cons hd) (List.Perm.swap x hd tl)

theorem sortStrings_map (f : Row → List Char) :
    ∀ L : List Row, ∃ L2 : List Row, L2.Perm L ∧
      sortStrings (L.map f) = L2.map f := by
  intro L
  induction L with
  | nil => exact ⟨[], List.Perm.refl _, rfl⟩
  | cons x xs ih =>
    obtain ⟨L2, hperm, heq⟩ := ih
    show ∃ L3, _ ∧ sortStrings (f x :: xs.map f) = L3.map f
    rw [sortStrings, heq]
    obtain ⟨L3, hperm3, heq3⟩ := insertString_map f x L2
    exact ⟨L3, hperm3.trans (hperm.cons x), heq3⟩

theorem runParse_clauses (vl : List Char)
    (hvl : ∀ j : Nat, vl.getD j 'A' ∈ ucAlphabet) :
    ∀ (es : List Row), (∀ e ∈ es, 1 ≤ careCount e.values) →
    ∀ st : List Node,
      runParse ((es.map (fun e => clauseOf vl e.values)).flatten) st
        = .ok ((es.map (fun e => clauseNode vl e.values)).reverse ++ st) := by
  intro es
  induction es with
  | nil =>
    intro h st
    simp [runParse]
  | cons e es ih =>
    intro h st
    rw [List.map_cons, List.flatten_cons]
    rw [runParse_append_ok _ (runParse_clauseOf vl hvl e.values (h e (by simp)) st)]
    rw [ih (fun e2 he2 => h e2 (by simp [he2]))]
    rw [List.map_cons, List.reverse_cons]
    simp

theorem print_of_parse {s : List Char} {n : Node} (h : parseNode s = .ok n) :
    n.print = s := by
  unfold parseNode at h
  cases hf : runParse s [] with
  | error e =>
    rw [hf] at h
    cases h
  | ok st =>
    rw [hf] at h
    match st, h with
    | [m], h =>
      cases h
      have := runParse_print s [] [n] hf
      simpa [stackPrint, Node.printList] using this

theorem enum_getD {tbl : List Bool} {p : Nat × Bool} (h : p ∈ tbl.enum) :
    p.1 < tbl.length ∧ tbl.getD p.1 true = p.2 := by
  have hsome := List.mem_enum_iff_getElem?.mp h
  constructor
  · rw [List.getElem?_eq_some_iff] at hsome
    exact hsome.1
  · rw [List.getD_eq_getElem?_getD, hsome]
    rfl

theorem enum_mem_of_lt {tbl : List Bool} {i : Nat} (h : i < tbl.length) :
    (i, tbl.getD i true) ∈ tbl.enum := by
  rw [List.mem_enum_iff_getElem?]
  show tbl[i]? = some (tbl.getD i true)
  rw [List.getD_eq_getElem _ _ h]
  exact List.getElem?_eq_getElem h

theorem falseRows_mem {tbl : List Bool} {w : Nat} {r : Row}
    (h : r ∈ (tbl.enum.filter (fun ib => !ib.2)).map
      (fun ib => Row.new ib.1 w)) :
    ∃ i, i < tbl.length ∧ tbl.getD i true = false ∧ r = Row.new i w := by
  obtain ⟨ib, hib, hr⟩ := List.mem_map.mp h
  obtain ⟨hmem, hneg⟩ := List.mem_filter.mp hib
  obtain ⟨hlt, hgetd⟩ := enum_getD hmem
  refine ⟨ib.1, hlt, ?_, hr.symm⟩
  rw [hgetd]
  simpa using hneg

theorem falseRows_mem_of {tbl : List Bool} {w : Nat} {i : Nat}
    (hlt : i < tbl.length) (hf : tbl.getD i true = false) :
    Row.new i w ∈ (tbl.enum.filter (fun ib => !ib.2)).map
      (fun ib => Row.new ib.1 w) := by
  refine List.mem_map.mpr ⟨(i, false), ?_, rfl⟩
  refine List.mem_filter.mpr ⟨?_, by simp⟩
  have hmem := enum_mem_of_lt hlt
  rw [hf] at hmem
  exact hmem

theorem all_false_of_length {tbl : List Bool} {w : Nat}
    (h : ((tbl.enum.filter (fun ib => !ib.2)).map
      (fun ib => Row.new ib.1 w)).length = tbl.length) :
    ∀ i, i < tbl.length → tbl.getD i true = false := by
  rw [List.length_map] at h
  have hlen : tbl.enum.length = tbl.length := List.enum_length
  have hall := length_filter_eq (fun ib => !ib.2) tbl.enum (by rw [h, hlen])
  intro i hi
  have hmem := enum_mem_of_lt hi
  have := hall _ hmem
  simp at this
  rw [List.getD_eq_getElem?_getD]
  exact this

theorem length_eq_of_all_false {tbl : List Bool} {w : Nat}
    (h : ∀ b ∈ tbl, b = false) :
    ((tbl.enum.filter (fun ib => !ib.2)).map
      (fun ib => Row.new ib.1 w)).length = tbl.length := by
  rw [List.length_map]
  have : tbl.enum.filter (fun ib => !ib.2) = tbl.enum := by
    rw [List.filter_eq_self]
    intro p hp
    obtain ⟨hlt, hgetd⟩ := enum_getD hp
    have hmem : p.2 ∈ tbl := by
      rw [← hgetd, List.getD_eq_getElem _ _ hlt]
      exact List.getElem_mem hlt
    rw [h p.2 hmem]
    rfl
  rw [this, List.enum_length]

theorem isEmpty_falseRows_iff {tbl : List Bool} {w : Nat} :
    ((tbl.enum.filter (fun ib => !ib.2)).map
      (fun ib => Row.new ib.1 w)).isEmpty = true ↔
      ∀ i, i < tbl.length → tbl.getD i true = true := by
  rw [List.isEmpty_iff]
  constructor
  · intro hnil i hi
    cases hb : tbl.getD i true
    · exfalso
      have := falseRows_mem_of (w := w) hi hb
      rw [hnil] at this
      cases this
    · rfl
  · intro hall
    rcases hfr : (tbl.enum.filter (fun ib => !ib.2)).map
      (fun ib => Row.new ib.1 w) with _ | ⟨r, rest⟩
    · exact hfr
    · exfalso
      have hrmem : r ∈ (tbl.enum.filter (fun ib => !ib.2)).map
          (fun ib => Row.new ib.1 w) := by
        rw [hfr]
        simp
      obtain ⟨i, hlt, hf, -⟩ := falseRows_mem hrmem
      rw [hall i hlt] at hf
      cases hf

end Ex06

namespace Ex06

theorem cnf_emit (s : List Char) (tbl : List Bool)
    (htlen : tbl.length = 2 ^ (varList s).length)
    (E : List Row) (hEinv : ∀ e ∈ E, RowInv (varList s).length tbl e)
    (hEcov : ∀ i, i < tbl.length → tbl.getD i true = false →
      ∃ e ∈ E, i ∈ e.id)
    (hEcc : ∀ e ∈ E, 1 ≤ careCount e.values) (hEne : E ≠ []) :
    ∃ F : Node,
      parseNode
        ((sortStrings (E.map (fun p => clauseOf (varList s) p.values))).flatten
          ++ List.replicate (E.length - 1) '&') = .ok F ∧
      ∀ i, i < tbl.length → F.eval (bitEnv (varList s) i) = tbl.getD i true := by
  obtain ⟨es2, hperm, heqsort⟩ :=
    sortStrings_map (fun p => clauseOf (varList s) p.values) E
  have hmemE : ∀ e, e ∈ es2 ↔ e ∈ E := fun e => hperm.mem_iff
  have hcc2 : ∀ e ∈ es2, 1 ≤ careCount e.values :=
    fun e he => hEcc e ((hmemE e).mp he)
  have hp1 : runParse
      ((es2.map (fun e => clauseOf (varList s) e.values)).flatten) []
      = .ok ((es2.map (fun e => clauseNode (varList s) e.values)).reverse
        ++ []) :=
    runParse_clauses (varList s) (varList_getD_uc s) es2 hcc2 []
  rw [List.append_nil] at hp1
  rcases hrevs : (es2.map (fun e => clauseNode (varList s) e.values)).reverse
    with _ | ⟨acc, xs⟩
  · exfalso
    have hmn : es2.map (fun e => clauseNode (varList s) e.values) = [] := by
      rw [← List.reverse_reverse
        (es2.map (fun e => clauseNode (varList s) e.values)), hrevs]
      rfl
    have hes2 : es2 = [] := List.map_eq_nil_iff.mp hmn
    rw [hes2] at hperm
    exact hEne (Eq.symm (List.Perm.nil_eq hperm))
  · have hlenx : E.length - 1 = xs.length := by
      have h1 : es2.length = E.length := hperm.length_eq
      have h2 : ((es2.map (fun e => clauseNode (varList s) e.values)).reverse).length
          = es2.length := by simp
      rw [hrevs] at h2
      simp at h2
      omega
    have hrep := runParse_replicate_binop '&' .and rfl (by decide) (by decide)
      (by decide) xs acc []
    rw [List.append_nil] at hrep
    refine ⟨xs.foldl (fun a x => Node.mk 0 (.binary .and [x, a])) acc, ?_, ?_⟩
    · unfold parseNode
      rw [heqsort, runParse_append_ok _ hp1, hrevs, hlenx, hrep]
    · intro i hi
      have hilt : i < 2 ^ (varList s).length := htlen ▸ hi
      have hmemn : ∀ nd, nd ∈ acc :: xs ↔
          ∃ e ∈ E, nd = clauseNode (varList s) e.values := by
        intro nd
        rw [← hrevs, List.mem_reverse, List.mem_map]
        constructor
        · rintro ⟨e, he2, heq⟩
          exact ⟨e, (hmemE e).mp he2, heq.symm⟩
        · rintro ⟨e, he2, heq⟩
          exact ⟨e, (hmemE e).mpr he2, heq.symm⟩
      rw [eval_andFold]
      cases hb : tbl.getD i true with
      | false =>
        obtain ⟨e, he, hie⟩ := hEcov i hi hb
        have hMe : Matches e i := ((hEinv e he).hmatch i hilt).mpr hie
        have hlen_e : e.values.length = (varList s).length := (hEinv e he).hlen
        have hclf : (clauseNode (varList s) e.values).eval
            (bitEnv (varList s) i) = false := by
          rw [clauseNode_eval (varList s) (varList_nodup s) e.values hlen_e
            (hEcc e he) i]
          have hMe2 : MatchesFrom e.values.length i 0 e.values := hMe
          rw [hlen_e] at hMe2
          exact hMe2
        have hmem2 : clauseNode (varList s) e.values ∈ acc :: xs :=
          (hmemn _).mpr ⟨e, he, rfl⟩
        rcases List.mem_cons.mp hmem2 with heq2 | hx
        · rw [← heq2, hclf]
          rfl
        · have hany : xs.all
              (fun x => x.eval (bitEnv (varList s) i)) = false := by
            cases hall : xs.all (fun x => x.eval (bitEnv (varList s) i))
            · rfl
            · rw [List.all_eq_true] at hall
              rw [hall _ hx] at hclf
              cases hclf
          rw [hany]
          simp
      | true =>
        have hall : ∀ nd ∈ acc :: xs,
            nd.eval (bitEnv (varList s) i) = true := by
          intro nd hnd
          obtain ⟨e, he, rfl⟩ := (hmemn nd).mp hnd
          cases hce : (clauseNode (varList s) e.values).eval
            (bitEnv (varList s) i)
          · exfalso
            have hM := (clauseNode_eval (varList s) (varList_nodup s)
              e.values (hEinv e he).hlen (hEcc e he) i).mp hce
            have hM2 : Matches e i := by
              show MatchesFrom e.values.length i 0 e.values
              rw [(hEinv e he).hlen]
              exact hM
            have hiid := ((hEinv e he).hmatch i hilt).mp hM2
            have hfid := ((hEinv e he).hids i hiid).2
            rw [hb] at hfid
            cases hfid
          · rfl
        rw [hall acc (by simp)]
        have hx : xs.all (fun x => x.eval (bitEnv (varList s) i)) = true :=
          List.all_eq_true.mpr (fun x hx2 => hall x (by simp [hx2]))
        rw [hx]
        rfl


theorem cnf_nondegenerate (s : List Char) (root : Node) (tbl : List Bool)
    (hp : parseNode s = .ok root) (ht : getTable s s = some tbl)
    (hne : ¬ ((tbl.enum.filter (fun ib => !ib.2)).map
      (fun ib => Row.new ib.1 (varList s).length)).isEmpty = true)
    (hnall : ¬ ((tbl.enum.filter (fun ib => !ib.2)).map
        (fun ib => Row.new ib.1 (varList s).length)).length
      = 2 ^ (varList s).length) :
    ∃ res : Node, Tree.cnf root = some res ∧
      ∀ i, i < tbl.length →
        res.eval (bitEnv (varList s) i) = tbl.getD i true := by
  have hprint : root.print = s := print_of_parse hp
  have htlen : tbl.length = 2 ^ (varList s).length := by
    unfold getTable at ht
    rw [hp] at ht
    have : tbl = (List.range (2 ^ (varList s).length)).map
        (fun i => root.eval (bitEnv (varList s) i)) := by
      injection ht with h2
      exact h2.symm
    rw [this]
    simp
  have hwn : countOnes (tbl.length - 1) = (varList s).length := by
    rw [htlen, countOnes_pow_sub_one]
  have hFRinv : ∀ r ∈ (tbl.enum.filter (fun ib => !ib.2)).map
      (fun ib => Row.new ib.1 (varList s).length),
      RowInv (varList s).length tbl r := by
    intro r hr
    obtain ⟨i, hlt, hf, hre⟩ := falseRows_mem hr
    subst hre
    exact inv_new htlen hlt hf
  have hFRcare : ∀ r ∈ (tbl.enum.filter (fun ib => !ib.2)).map
      (fun ib => Row.new ib.1 (varList s).length),
      careCount r.values = (varList s).length := by
    intro r hr
    obtain ⟨i, hlt, hf, hre⟩ := falseRows_mem hr
    subst hre
    exact careCount_new i _
  obtain ⟨P, hqm⟩ := qmLoop_total ((varList s).length + 2)
    ((tbl.enum.filter (fun ib => !ib.2)).map
      (fun ib => Row.new ib.1 (varList s).length))
    [] (varList s).length hFRinv (by simp) hFRcare (by omega)
  have hPinv := qmLoop_inv _ _ _ P hFRinv (by simp) hqm
  have hPcov : ∀ i, i < tbl.length → tbl.getD i true = false →
      covers P i := by
    intro i hi hf
    refine qmLoop_cover _ _ _ P hqm i (.inl ?_)
    exact ⟨Row.new i (varList s).length, falseRows_mem_of hi hf,
      by simp [Row.new_id]⟩
  have hcc : ∀ e, RowInv (varList s).length tbl e →
      1 ≤ careCount e.values := by
    intro e hinv
    by_contra hlt2
    have hzero : careCount e.values = 0 := by omega
    have hallf : ∀ b ∈ tbl, b = false := by
      intro b hbm
      obtain ⟨i2, hi2lt, hbe⟩ := List.getElem_of_mem hbm
      have hilt : i2 < 2 ^ (varList s).length := htlen ▸ hi2lt
      have hm : Matches e i2 := matches_of_allDC e.values 0 hzero
      have hiid := (hinv.hmatch i2 hilt).mp hm
      have hfv := (hinv.hids i2 hiid).2
      rw [List.getD_eq_getElem _ _ hi2lt, hbe] at hfv
      exact hfv
    exact hnall (by rw [length_eq_of_all_false hallf, htlen])
  have hexf : ∃ i, i < tbl.length ∧ tbl.getD i true = false := by
    by_contra hno
    push_neg at hno
    apply hne
    refine (isEmpty_falseRows_iff (w := (varList s).length)).mpr ?_
    intro i hi
    cases hbv : tbl.getD i true
    · exact absurd hbv (hno i hi)
    · rfl
  unfold Tree.cnf
  rw [hprint]
  dsimp only
  rw [ht]
  dsimp only
  rw [hwn]
  rw [if_neg (not_or.mpr ⟨hne, hnall⟩)]
  rw [hqm]
  dsimp only
  rcases hes : essentialScan (dedupRows (sortRows P))
    ((tbl.enum.filter (fun ib => !ib.2)).map
      (fun ib => Row.new ib.1 (varList s).length))
    [] (List.replicate tbl.length false) with ⟨ess0, covered⟩
  rw [hes]
  dsimp only
  by_cases hpet : ((dedupRows (sortRows P)).filter
      (fun p => p.id.any (fun i => !(covered.getD i false)))).isEmpty = true
  · rw [if_pos hpet]
    have hsub : ∀ e ∈ ess0, e ∈ P := by
      intro e he
      have h2 := essentialScan_mem (dedupRows (sortRows P))
        ((tbl.enum.filter (fun ib => !ib.2)).map
          (fun ib => Row.new ib.1 (varList s).length))
        [] (List.replicate tbl.length false) e
      rw [hes] at h2
      rcases h2 he with h3 | h3
      · cases h3
      · exact mem_sortRows.mp (mem_dedupRows.mp h3)
    have hEinv : ∀ e ∈ ess0, RowInv (varList s).length tbl e :=
      fun e he => hPinv e (hsub e he)
    have hcovall : ∀ p ∈ dedupRows (sortRows P), ∀ id2 ∈ p.id,
        covered.getD id2 false = true := by
      intro p hpmem id2 hid2
      have hnil : (dedupRows (sortRows P)).filter
          (fun p => p.id.any (fun i => !(covered.getD i false))) = [] :=
        List.isEmpty_iff.mp hpet
      have hnp := List.filter_eq_nil_iff.mp hnil p hpmem
      have hanyf : p.id.any (fun i => !(covered.getD i false)) = false := by
        cases hx : p.id.any (fun i => !(covered.getD i false))
        · rfl
        · exact absurd hx hnp
      rw [List.any_eq_false] at hanyf
      have := hanyf id2 hid2
      simpa using this
    have hEcov : ∀ i, i < tbl.length → tbl.getD i true = false →
        ∃ e ∈ ess0, i ∈ e.id := by
      intro i hi hf
      obtain ⟨p, hpP, hip⟩ := hPcov i hi hf
      have hpd : p ∈ dedupRows (sortRows P) :=
        mem_dedupRows.mpr (mem_sortRows.mpr hpP)
      have hcovd := hcovall p hpd i hip
      have hscan := essentialScan_covered (dedupRows (sortRows P))
        ((tbl.enum.filter (fun ib => !ib.2)).map
          (fun ib => Row.new ib.1 (varList s).length))
        [] (List.replicate tbl.length false)
        (by
          intro i2 hi2
          rw [getD_replicate_false] at hi2
          cases hi2) i
      rw [hes] at hscan
      exact hscan hcovd
    have hEcc : ∀ e ∈ ess0, 1 ≤ careCount e.values :=
      fun e he => hcc e (hEinv e he)
    have hEne : ess0 ≠ [] := by
      obtain ⟨i, hi, hf⟩ := hexf
      obtain ⟨e, he, -⟩ := hEcov i hi hf
      exact List.ne_nil_of_mem he
    obtain ⟨F, hparse, hev⟩ := cnf_emit s tbl htlen ess0 hEinv hEcov hEcc hEne
    rw [hparse]
    exact ⟨F, rfl, hev⟩
  · rw [if_neg hpet]
    have hEinv : ∀ e ∈ dedupRows (sortRows P),
        RowInv (varList s).length tbl e :=
      fun e he => hPinv e (mem_sortRows.mp (mem_dedupRows.mp he))
    have hEcov : ∀ i, i < tbl.length → tbl.getD i true = false →
        ∃ e ∈ dedupRows (sortRows P), i ∈ e.id := by
      intro i hi hf
      obtain ⟨p, hpP, hip⟩ := hPcov i hi hf
      exact ⟨p, mem_dedupRows.mpr (mem_sortRows.mpr hpP), hip⟩
    have hEcc : ∀ e ∈ dedupRows (sortRows P), 1 ≤ careCount e.values :=
      fun e he => hcc e (hEinv e he)
    have hEne : dedupRows (sortRows P) ≠ [] := by
      obtain ⟨i, hi, hf⟩ := hexf
      obtain ⟨e, he, -⟩ := hEcov i hi hf
      exact List.ne_nil_of_mem he
    obtain ⟨F, hparse, hev⟩ := cnf_emit s tbl htlen _ hEinv hEcov hEcc hEne
    rw [hparse]
    exact ⟨F, rfl, hev⟩

/-- **C1.** For every well-formed RPN formula (a string the parser
accepts), the Quine-McCluskey + Petrick minimizer `Tree::cnf` (the
src/src/ex06/tree.rs version, whose Petrick step falls back to the full
prime-implicant set) returns a formula: its truth table over the input's
variables equals the input's truth table, and in the degenerate cases —
no false rows, or all `2^n` rows false — it is the constant `1`,
respectively `0`. -/
theorem c1_minimizer_correct (s : List Char) (root : Node) (tbl : List Bool)
    (hp : parseNode s = .ok root) (ht : getTable s s = some tbl) :
    ∃ res : Node, Tree.cnf root = some res ∧
      (∀ i, i < tbl.length → res.eval (bitEnv (varList s) i) = tbl.getD i true) ∧
      ((∀ b ∈ tbl, b = true) → res = Node.mk 0 (.const true)) ∧
      ((∀ b ∈ tbl, b = false) → res = Node.mk 0 (.const false)) := by
  have hprint : root.print = s := print_of_parse hp
  have htlen : tbl.length = 2 ^ (varList s).length := by
    unfold getTable at ht
    rw [hp] at ht
    have : tbl = (List.range (2 ^ (varList s).length)).map
        (fun i => root.eval (bitEnv (varList s) i)) := by
      injection ht with h2
      exact h2.symm
    rw [this]
    simp
  have hwn : countOnes (tbl.length - 1) = (varList s).length := by
    rw [htlen, countOnes_pow_sub_one]
  by_cases hdeg : (((tbl.enum.filter (fun ib => !ib.2)).map
        (fun ib => Row.new ib.1 (varList s).length)).isEmpty = true
      ∨ ((tbl.enum.filter (fun ib => !ib.2)).map
          (fun ib => Row.new ib.1 (varList s).length)).length
        = 2 ^ (varList s).length)
  · have heq : Tree.cnf root = some (Node.mk 0
        (.const ((tbl.enum.filter (fun ib => !ib.2)).map
          (fun ib => Row.new ib.1 (varList s).length)).isEmpty)) := by
      unfold Tree.cnf
      rw [hprint]
      dsimp only
      rw [ht]
      dsimp only
      rw [hwn, if_pos hdeg]
    refine ⟨_, heq, ?_, ?_, ?_⟩
    · intro i hi
      by_cases hemp : ((tbl.enum.filter (fun ib => !ib.2)).map
          (fun ib => Row.new ib.1 (varList s).length)).isEmpty = true
      · rw [hemp]
        have hall := (isEmpty_falseRows_iff
          (w := (varList s).length)).mp hemp
        rw [hall i hi]
        simp [Node.eval, Literal.eval]
      · have hlen2 : ((tbl.enum.filter (fun ib => !ib.2)).map
            (fun ib => Row.new ib.1 (varList s).length)).length
            = 2 ^ (varList s).length := hdeg.resolve_left hemp
        have hall := all_false_of_length (w := (varList s).length)
          (by rw [hlen2, ← htlen])
        have hempf : ((tbl.enum.filter (fun ib => !ib.2)).map
            (fun ib => Row.new ib.1 (varList s).length)).isEmpty = false := by
          cases h2 : ((tbl.enum.filter (fun ib => !ib.2)).map
            (fun ib => Row.new ib.1 (varList s).length)).isEmpty
          · rfl
          · exact absurd h2 hemp
        rw [hempf, hall i hi]
        simp [Node.eval, Literal.eval]
    · intro htrue
      have : ((tbl.enum.filter (fun ib => !ib.2)).map
          (fun ib => Row.new ib.1 (varList s).length)).isEmpty = true := by
        refine (isEmpty_falseRows_iff (w := (varList s).length)).mpr ?_
        intro i hi
        rw [List.getD_eq_getElem _ _ hi]
        exact htrue _ (List.getElem_mem hi)
      rw [this]
    · intro hfalse
      have hlenF := length_eq_of_all_false (w := (varList s).length) hfalse
      have hne1 : 1 ≤ tbl.length := by
        rw [htlen]
        exact Nat.one_le_two_pow
      have : ((tbl.enum.filter (fun ib => !ib.2)).map
          (fun ib => Row.new ib.1 (varList s).length)).isEmpty = false := by
        rcases hFRe : (tbl.enum.filter (fun ib => !ib.2)).map
          (fun ib => Row.new ib.1 (varList s).length) with _ | ⟨r, rest⟩
        · exfalso
          rw [hFRe] at hlenF
          simp at hlenF
          omega
        · rw [hFRe]
          rfl
      rw [this]
  · obtain ⟨hne, hnall⟩ := not_or.mp hdeg
    obtain ⟨res, heq, hev⟩ := cnf_nondegenerate s root tbl hp ht hne hnall
    refine ⟨res, heq, hev, ?_, ?_⟩
    · intro htrue
      exfalso
      apply hne
      refine (isEmpty_falseRows_iff (w := (varList s).length)).mpr ?_
      intro i hi
      rw [List.getD_eq_getElem _ _ hi]
      exact htrue _ (List.getElem_mem hi)
    · intro hfalse
      exfalso
      apply hnall
      rw [length_eq_of_all_false (w := (varList s).length) hfalse, htlen]

/-- Witness for C1 at the formula `"AB&"`, whose truth table is
`[false, false, false, true]`. -/
theorem c1_minimizer_correct_witness :
    ∃ res : Node,
      Tree.cnf (Node.mk 0 (.binary .and
        [Node.mk 0 (.var 'A'), Node.mk 0 (.var 'B')])) = some res ∧
      (∀ i, i < ([false, false, false, true] : List Bool).length →
        res.eval (bitEnv (varList ['A', 'B', '&']) i)
          = ([false, false, false, true] : List Bool).getD i true) ∧
      ((∀ b ∈ ([false, false, false, true] : List Bool), b = true) →
        res = Node.mk 0 (.const true)) ∧
      ((∀ b ∈ ([false, false, false, true] : List Bool), b = false) →
        res = Node.mk 0 (.const false)) :=
  c1_minimizer_correct ['A', 'B', '&']
    (Node.mk 0 (.binary .and [Node.mk 0 (.var 'A'), Node.mk 0 (.var 'B')]))
    [false, false, false, true] rfl rfl

end Ex06

/-- **C6, amended.** If parsing reaches an out-of-alphabet character `c`
(the prefix before it runs without error), then: the ex07 parser always
fails with `InvalidCharacter(c)`, whatever the stack; the ex06 tree parser
does so whenever its operand stack is non-empty at `c`, while with an empty
stack it reports `MissingOperand` instead (the counterexample); and both
parsers reject `"1x|"` with `InvalidCharacter('x')`. -/
theorem c6_invalid_character_amended :
    (∀ p (st : List Ex06.Node) c rest, Ex06.runParse p [] = .ok st →
        st ≠ [] → Ex06.inAlphabet c = false →
        Ex06.parseNode (p ++ c :: rest) = .error (.invalidCharacter c)) ∧
    (∀ p (st : List Ex07.Node) c rest, Ex07.runParse p [] = .ok st →
        Ex06.inAlphabet c = false →
        Ex07.parseTree (p ++ c :: rest) = .error (.invalidCharacter c)) ∧
    Ex06.parseNode ['1', 'x', '|'] = .error (.invalidCharacter 'x') ∧
    Ex07.parseTree ['1', 'x', '|'] = .error (.invalidCharacter 'x') := by
  refine ⟨?_, ?_, rfl, rfl⟩
  · intro p st c rest hp hne hc
    cases st with
    | nil => exact absurd rfl hne
    | cons tmp stRest =>
      unfold Ex06.parseNode
      rw [Ex06.runParse_append_ok _ hp]
      have hrun : Ex06.runParse (c :: rest) (tmp :: stRest) =
          .error (.invalidCharacter c) := by
        unfold Ex06.runParse
        rw [Ex06.processChar_invalid hc]
      rw [hrun]
  · intro p st c rest hp hc
    unfold Ex07.parseTree
    rw [Ex07.runParse_append_ok2 _ hp]
    have hrun : Ex07.runParse (c :: rest) st =
        .error (.invalidCharacter c) := by
      unfold Ex07.runParse
      rw [Ex07.processChar_invalid2 hc]
    rw [hrun]

/-- Witness for the amended C6 at `p = "1"`, `c = 'x'`, `rest = "|"`. -/
theorem c6_invalid_character_amended_witness :
    Ex06.parseNode (['1'] ++ 'x' :: ['|']) = .error (.invalidCharacter 'x') ∧
    Ex07.parseTree (['1'] ++ 'x' :: ['|']) = .error (.invalidCharacter 'x') :=
  ⟨c6_invalid_character_amended.1 ['1'] [.mk 0 (.const true)] 'x' ['|']
      rfl (by simp) rfl,
    c6_invalid_character_amended.2.1 ['1'] [.const true] 'x' ['|'] rfl rfl⟩

end RSB
